import Mathlib

/-!
# CHORD-MPI: a shallow embedding of `src/chord.c`

The C program simulates Chord lookups over a static ring.  Every MPI process
reads its ring id, learns the ids of all processes (`MPI_Allgather`), builds
the sorted ring, its successor/predecessor and a finger table of `M = 4`
entries, and then serves lookup messages until the DONE handshake completes.

Conventions of the embedding:

* a C `int` is a Lean `Int`; all arithmetic of the program stays far from the
  32-bit limits on the inputs considered, C `%` is `Int.tmod` (truncation);
* a C array is a `List`; an access outside the array (undefined behaviour in C)
  makes the embedded function return `none`;
* a comparison result (`int` 0/1 in C) is a `Bool`;
* the global variables of a process (`self`, `sorted_ids`, `id_to_rank`, ...)
  are passed explicitly to the functions that read them.
-/

namespace Chord

/-! ## Constants -/

/-- Number of finger entries, `#define M 4`. -/
def M : Nat := 4

/-- Size of the identifier space, `#define RING_SIZE 16`. -/
def RING_SIZE : Int := 16

/-- Capacity of the global id arrays, `#define MAX_NODES 32`. -/
def MAX_NODES : Nat := 32

/-- Capacity of the path array of a message, `#define MAX_PATH 32`. -/
def MAX_PATH : Nat := 32

/-! ## Data -/

/-- One finger entry, `typedef struct { int start; int node; } Finger`. -/
structure Finger where
  start : Int
  node : Int
deriving DecidableEq, Repr, Inhabited

/-- State of the current node, `NodeState`; `finger` is the array `finger[M]`. -/
structure NodeState where
  id : Int
  successor : Int
  predecessor : Int
  finger : List Finger
deriving DecidableEq, Repr, Inhabited

/-- A lookup message, `LookupMsg`; `path` is the array `path[MAX_PATH]`. -/
structure LookupMsg where
  initiator_id : Int
  current_id : Int
  seq : Int
  key : Int
  path : List Int
  path_len : Nat
deriving DecidableEq, Repr, Inhabited

/-- The MPI message tags of the program (`enum`, values 1, 2, 3). -/
inductive Tag where
  | TAG_LOOKUP_REQ
  | TAG_LOOKUP_REP
  | TAG_DONE
deriving DecidableEq, Repr, Inhabited

/-! ## Circular interval -/

/-- The C function `in_interval(x, start, end)`:
membership of `x` in the circular interval `(start, end]`. -/
def in_interval (x start end_ : Int) : Bool :=
  if start < end_ then
    decide (x > start ∧ x ≤ end_)
  else if start > end_ then
    decide (x > start ∨ x ≤ end_)
  else
    true

/-! ## Rank and id maps -/

/-- The loop body of `build_id_maps` for rank `r`:
`if (id >= 0 && id < RING_SIZE) id_to_rank[id] = r`. -/
def build_id_maps_step (all_ids : List Int) (id_to_rank : List Int) (r : Nat) : List Int :=
  let id := all_ids.getD r 0
  if id ≥ 0 ∧ id < RING_SIZE then id_to_rank.set id.toNat (r : Int) else id_to_rank

/-- The C function `build_id_maps()`: the array `id_to_rank[RING_SIZE]`, first filled
with `-1`, then written for every rank `r < world_size` (`world_size` is the length
of `all_ids`). -/
def build_id_maps (all_ids : List Int) : List Int :=
  (List.range all_ids.length).foldl (build_id_maps_step all_ids)
    (List.replicate RING_SIZE.toNat (-1))

/-- The C function `rank_from_id(id)`. -/
def rank_from_id (id_to_rank : List Int) (id : Int) : Int :=
  if id < 0 ∨ id ≥ RING_SIZE then -1 else id_to_rank.getD id.toNat (-1)

/-! ## The static ring -/

/-- The array `sorted_ids` after `qsort(sorted_ids, num_nodes, sizeof(int), cmp_int)`:
the ids of all ranks in ascending order. -/
def sort_ids (all_ids : List Int) : List Int :=
  List.insertionSort (fun a b => a ≤ b) all_ids

/-- The loop body of `build_global_ring` for index `i`; the pair is
`(self.successor, self.predecessor)`.  The C index `(i - 1 + num_nodes) % num_nodes`
is computed on natural numbers as `(i + num_nodes - 1) % num_nodes`. -/
def build_global_ring_step (sorted_ids : List Int) (self_id : Int)
    (sp : Int × Int) (i : Nat) : Int × Int :=
  let num_nodes := sorted_ids.length
  let id := sorted_ids.getD i 0
  let succ := sorted_ids.getD ((i + 1) % num_nodes) 0
  let pred := sorted_ids.getD ((i + num_nodes - 1) % num_nodes) 0
  if id = self_id then (succ, pred) else sp

/-- The C function `build_global_ring()`, as the pair
`(self.successor, self.predecessor)` it leaves for the node whose id is `self_id`.
The global `self` is zero-initialised, so both fields are `0` when no element of
`sorted_ids` equals `self_id`. -/
def build_global_ring (all_ids : List Int) (self_id : Int) : Int × Int :=
  let sorted_ids := sort_ids all_ids
  (List.range sorted_ids.length).foldl (build_global_ring_step sorted_ids self_id) (0, 0)

/-- The C function `find_successor_simple(key)`: the first element of `sorted_ids`
that is `>= key`, else `sorted_ids[0]` (a zero-initialised global array). -/
def find_successor_simple (sorted_ids : List Int) (key : Int) : Int :=
  match sorted_ids.find? (fun x => decide (x ≥ key)) with
  | some r => r
  | none => sorted_ids.getD 0 0

/-- The loop body of `build_finger_table` for index `i`. -/
def build_finger (sorted_ids : List Int) (self_id : Int) (i : Nat) : Finger :=
  let pow : Int := 2 ^ i
  let start := Int.tmod (self_id + pow) RING_SIZE
  let node := find_successor_simple sorted_ids start
  { start := start, node := node }

/-- The C function `build_finger_table()`: the array `self.finger[0..M)`. -/
def build_finger_table (sorted_ids : List Int) (self_id : Int) : List Finger :=
  (List.range M).map (build_finger sorted_ids self_id)

/-- The state `self` of the process whose ring id is `self_id`, after
`build_global_ring()` and `build_finger_table()`. -/
def node_state (all_ids : List Int) (self_id : Int) : NodeState :=
  let sp := build_global_ring all_ids self_id
  { id := self_id
    successor := sp.1
    predecessor := sp.2
    finger := build_finger_table (sort_ids all_ids) self_id }

/-! ## Routing -/

/-- The loop of `closest_preceding_finger`, with `n` entries left to scan
(`i = n - 1` is the next index, the loop runs `for (i = M - 1; i >= 0; i--)`). -/
def closest_preceding_finger_loop (self : NodeState) (key : Int) : Nat → Int
  | 0 => self.successor
  | i + 1 =>
    let finger := (self.finger.getD i default).node
    if self.id = finger ∨ finger = key then
      closest_preceding_finger_loop self key i
    else if in_interval finger self.id key then
      finger
    else
      closest_preceding_finger_loop self key i

/-- The C function `closest_preceding_finger(key)`. -/
def closest_preceding_finger (self : NodeState) (key : Int) : Int :=
  closest_preceding_finger_loop self key M

/-- A message handed to `MPI_Send`: destination rank, tag and payload. -/
structure Outbound where
  dest : Int
  tag : Tag
  msg : LookupMsg
deriving DecidableEq, Repr, Inhabited

/-- The statement `msg->path[msg->path_len++] = v`; `none` when the index is
outside `path[MAX_PATH]`. -/
def path_push (msg : LookupMsg) (v : Int) : Option LookupMsg :=
  if msg.path_len < MAX_PATH then
    some { msg with path := msg.path.set msg.path_len v, path_len := msg.path_len + 1 }
  else
    none

/-- The C function `handle_lookup_request(msg)`: the one message it sends. -/
def handle_lookup_request (id_to_rank : List Int) (self : NodeState) (msg : LookupMsg) :
    Option Outbound :=
  match path_push msg self.id with
  | none => none
  | some msg1 =>
    if in_interval msg1.key self.id self.successor then
      match path_push msg1 self.successor with
      | none => none
      | some msg2 =>
        let initiator_rank := rank_from_id id_to_rank msg2.initiator_id
        some { dest := initiator_rank, tag := Tag.TAG_LOOKUP_REP, msg := msg2 }
    else
      let next_node := closest_preceding_finger self msg1.key
      let next_rank := rank_from_id id_to_rank next_node
      some { dest := next_rank, tag := Tag.TAG_LOOKUP_REQ, msg := msg1 }

/-- The lookup message built by `main` for the `i`-th key of a process.  The path
buffer comes from `malloc`; its unspecified content is taken to be zeros. -/
def new_lookup (self_id : Int) (i : Nat) (key : Int) : LookupMsg :=
  { initiator_id := self_id
    current_id := self_id
    seq := (i : Int)
    key := key
    path := List.replicate MAX_PATH 0
    path_len := 0 }

/-- The entries `path[0 .. path_len)` of a message. -/
def path_of (msg : LookupMsg) : List Int :=
  msg.path.take msg.path_len

/-- Routing of one lookup through the ring: the process of rank `rank` runs
`handle_lookup_request`; a REPLY ends the routing, a ROUTE request is handled next
by the process of the destination rank.  `fuel` bounds the number of calls of
`handle_lookup_request`; the result is the REPLY, `none` when the fuel runs out,
a path write is out of bounds or a destination is not a rank. -/
def route (all_ids : List Int) : Nat → Int → LookupMsg → Option Outbound
  | 0, _, _ => none
  | fuel + 1, rank, msg =>
    if rank < 0 ∨ rank ≥ (all_ids.length : Int) then none
    else
      let self := node_state all_ids (all_ids.getD rank.toNat 0)
      match handle_lookup_request (build_id_maps all_ids) self msg with
      | none => none
      | some out =>
        match out.tag with
        | Tag.TAG_LOOKUP_REP => some out
        | Tag.TAG_LOOKUP_REQ => route all_ids fuel out.dest out.msg
        | Tag.TAG_DONE => none

/-- The lookup of `key` issued by the process of rank `rank` as its `i`-th lookup:
`main` sends the new message to its own rank (`rank_from_id(self.id)`). -/
def lookup (all_ids : List Int) (fuel : Nat) (rank : Nat) (i : Nat) (key : Int) :
    Option Outbound :=
  let self_id := all_ids.getD rank 0
  route all_ids fuel (rank_from_id (build_id_maps all_ids) self_id) (new_lookup self_id i key)

/-- A well-formed ring: between 1 and 16 processes, pairwise distinct ids in `[0,16)`. -/
def WellFormed (all_ids : List Int) : Prop :=
  1 ≤ all_ids.length ∧ all_ids.length ≤ 16 ∧ all_ids.Nodup ∧ ∀ x ∈ all_ids, 0 ≤ x ∧ x < 16

instance (all_ids : List Int) : Decidable (WellFormed all_ids) := by
  unfold WellFormed; infer_instance

/-! ## The service loop -/

/-- The local variables of the service loop of `main`: the result array `messages`
(one slot per local lookup), the counters `lookups_done` and `done_received`, the flag
`is_done`, and `exited`, set when the loop has been left by `break`. -/
structure ServiceState where
  messages : List LookupMsg
  lookups_done : Nat
  done_received : Nat
  is_done : Bool
  exited : Bool
deriving DecidableEq, Repr, Inhabited

/-- The state on entry of the service loop; `messages` comes from `malloc` and has the
unspecified content `slots`. -/
def service_init (slots : List LookupMsg) : ServiceState :=
  { messages := slots, lookups_done := 0, done_received := 0, is_done := false,
    exited := false }

/-- The statement `messages[msg.seq] = msg`; `none` when `msg.seq` is outside the array. -/
def store_reply (messages : List LookupMsg) (msg : LookupMsg) : Option (List LookupMsg) :=
  if 0 ≤ msg.seq ∧ msg.seq < (messages.length : Int) then
    some (messages.set msg.seq.toNat msg)
  else
    none

/-- The DONE broadcast: one `TAG_DONE` message to every rank `i < world_size` with
`world_rank != i`, in ascending order of `i`.  The payload of a DONE is never read. -/
def done_broadcast (world_rank world_size : Nat) : List Outbound :=
  ((List.range world_size).filter (fun i => decide (world_rank ≠ i))).map
    (fun (i : Nat) => Outbound.mk (i : Int) Tag.TAG_DONE default)

/-- One iteration of the service loop of `main` after `MPI_Recv` has delivered a message
with tag `tag` and payload `msg`: the new local state and the messages sent, in order.
`none` stands for an access outside an array. -/
def service_step (world_rank world_size : Nat) (id_to_rank : List Int) (self : NodeState)
    (nr_lookups : Nat) (st : ServiceState) (tag : Tag) (msg : LookupMsg) :
    Option (ServiceState × List Outbound) :=
  let sent_req : Option (List Outbound) :=
    if tag = Tag.TAG_LOOKUP_REQ then
      (handle_lookup_request id_to_rank self msg).map (fun o => [o])
    else some []
  match sent_req with
  | none => none
  | some sent1 =>
    let stored : Option (List LookupMsg) :=
      if tag = Tag.TAG_LOOKUP_REP then store_reply st.messages msg else some st.messages
    match stored with
    | none => none
    | some messages =>
      let lookups_done := if tag = Tag.TAG_LOOKUP_REP then st.lookups_done + 1 else st.lookups_done
      let done_received := if tag = Tag.TAG_DONE then st.done_received + 1 else st.done_received
      let fire : Bool := !st.is_done && decide (lookups_done = nr_lookups)
      let is_done : Bool := st.is_done || fire
      let sent2 := if fire then done_broadcast world_rank world_size else []
      let leave : Bool := is_done && decide ((done_received : Int) = (world_size : Int) - 1)
      some ({ messages := messages, lookups_done := lookups_done,
              done_received := done_received, is_done := is_done, exited := leave },
            sent1 ++ sent2)

/-- The service loop of one process on a given sequence of received messages; the
messages it sends are dropped.  Nothing is received once the loop has been left. -/
def run_service (world_rank world_size : Nat) (id_to_rank : List Int) (self : NodeState)
    (nr_lookups : Nat) : ServiceState → List (Tag × LookupMsg) → Option ServiceState
  | st, [] => some st
  | st, (tag, msg) :: rest =>
    if st.exited then some st
    else
      match service_step world_rank world_size id_to_rank self nr_lookups st tag msg with
      | none => none
      | some (st1, _) =>
        run_service world_rank world_size id_to_rank self nr_lookups st1 rest

/-- One line of the final report, `Lookup <key>: <id0> -> ... -> <idN>`; `none` when
`path_len` is `0` or above `MAX_PATH` (the C code then reads outside `path`). -/
def report_line (msg : LookupMsg) : Option String :=
  if msg.path_len = 0 ∨ msg.path_len > MAX_PATH then none
  else
    some ("Lookup " ++ toString msg.key ++ ": " ++
      String.intercalate " -> " ((path_of msg).map toString) ++ "\n")

/-- The final report of a process: the lines of `messages[0 .. nr_lookups)` in
ascending slot order. -/
def report (messages : List LookupMsg) : List (Option String) :=
  messages.map report_line

/-- The result array after the stores `messages[m.seq] = m` of the replies `rs`, in
their order of arrival, each inside the array. -/
def store_all (slots : List LookupMsg) (rs : List LookupMsg) : List LookupMsg :=
  rs.foldl (fun acc m => acc.set m.seq.toNat m) slots

/-- The sequence numbers `0, 1, ..., nr - 1` given by `main` to the `nr` lookups of a
process (`msg->seq = i`). -/
def seq_numbers (nr : Nat) : List Int :=
  (List.range nr).map (fun (i : Nat) => (i : Int))

/-! ## The global step model -/

/-- A message in flight: sender rank, receiver rank, tag and payload. -/
structure Envelope where
  src : Nat
  dest : Nat
  tag : Tag
  msg : LookupMsg
deriving DecidableEq, Repr, Inhabited

/-- The state of the whole run: the service state of every rank and the messages in
flight, in the order in which they were sent. -/
structure Global where
  procs : List ServiceState
  net : List Envelope
deriving DecidableEq, Repr, Inhabited

/-- The messages handed to `MPI_Send` by rank `src` put in flight; `none` when a
destination is not a rank of the communicator. -/
def post (world_size src : Nat) : List Outbound → Option (List Envelope)
  | [] => some []
  | o :: rest =>
    if 0 ≤ o.dest ∧ o.dest < (world_size : Int) then
      match post world_size src rest with
      | none => none
      | some envs => some (Envelope.mk src o.dest.toNat o.tag o.msg :: envs)
    else none

/-- The lookup initiation of `main` at rank `rank` with input keys `keys`: message `i`
carries `seq = i` and `key = keys[i]` and is sent to `rank_from_id(self.id)`. -/
def initial_sends (all_ids : List Int) (rank : Nat) (keys : List Int) : List Outbound :=
  (List.range keys.length).map (fun i =>
    Outbound.mk (rank_from_id (build_id_maps all_ids) (all_ids.getD rank 0))
      Tag.TAG_LOOKUP_REQ (new_lookup (all_ids.getD rank 0) i (keys.getD i 0)))

/-- The messages in flight after the lookup initiation of the ranks `rank, rank + 1, ...`
whose inputs are `lookups`. -/
def initial_net (all_ids : List Int) : Nat → List (List Int) → Option (List Envelope)
  | _, [] => some []
  | rank, keys :: rest =>
    match post all_ids.length rank (initial_sends all_ids rank keys) with
    | none => none
    | some envs =>
      match initial_net all_ids (rank + 1) rest with
      | none => none
      | some more => some (envs ++ more)

/-- The global state when every process is about to enter its service loop;
`lookups[r]` are the input keys of rank `r`.  The result array of a process comes from
`malloc`; its unspecified content is taken to be default messages. -/
def init_global (all_ids : List Int) (lookups : List (List Int)) : Option Global :=
  match initial_net all_ids 0 lookups with
  | none => none
  | some net =>
    some { procs := lookups.map (fun keys => service_init (List.replicate keys.length default))
           net := net }

/-- One step of the run: rank `r`, still in its service loop, receives the oldest message
in flight from rank `s` to `r` (`MPI_Recv` with `MPI_ANY_SOURCE`, messages of one sender
to one receiver do not overtake), runs one iteration of the loop, and its sends are put
in flight.  `none` when this step is not enabled. -/
def global_step (all_ids : List Int) (lookups : List (List Int)) (g : Global) (r s : Nat) :
    Option Global :=
  match g.procs[r]? with
  | none => none
  | some st =>
    if st.exited then none
    else
      match g.net.find? (fun e => decide (e.src = s ∧ e.dest = r)) with
      | none => none
      | some e =>
        match service_step r all_ids.length (build_id_maps all_ids)
            (node_state all_ids (all_ids.getD r 0)) (lookups.getD r []).length st e.tag e.msg with
        | none => none
        | some (st1, outs) =>
          match post all_ids.length r outs with
          | none => none
          | some envs => some { procs := g.procs.set r st1, net := g.net.erase e ++ envs }

/-- The selection test of `closest_preceding_finger` on the finger of index `i`:
the entry is not skipped and its node is in the interval. -/
def finger_selected (self : NodeState) (key : Int) (i : Nat) : Prop :=
  (self.finger.getD i default).node ≠ self.id ∧
  (self.finger.getD i default).node ≠ key ∧
  in_interval (self.finger.getD i default).node self.id key = true

instance (self : NodeState) (key : Int) (i : Nat) : Decidable (finger_selected self key i) := by
  unfold finger_selected; infer_instance

/-- Remaining clockwise distance from node `s` to `key`, counted so that the node
whose id is `key` itself is the furthest: `(key - s - 1) mod 16`. -/
def dist (key s : Int) : Nat :=
  ((key - s - 1) % 16).toNat

/-- The shape of `sorted_ids` for a well-formed ring: not empty, strictly ascending,
all ids in `[0,16)`. -/
def SortedRing (S : List Int) : Prop :=
  S ≠ [] ∧ S.Sorted (fun a b => a < b) ∧ ∀ x ∈ S, 0 ≤ x ∧ x < 16

/-! ## The calls of `in_interval` made by one routing step -/

/-- The loop of `closest_preceding_finger` with `n` entries left to scan, instrumented:
the argument triples `(x, start, end)` of the calls of `in_interval` it makes, in order,
and the value returned from inside the loop, `none` when the loop ends without a
`return` (the fallback `return self.successor` is then reached). -/
def closest_preceding_finger_scan (self : NodeState) (key : Int) :
    Nat → List (Int × Int × Int) × Option Int
  | 0 => ([], none)
  | i + 1 =>
    let finger := (self.finger.getD i default).node
    if self.id = finger ∨ finger = key then
      closest_preceding_finger_scan self key i
    else if in_interval finger self.id key then
      ([(finger, self.id, key)], some finger)
    else
      ((finger, self.id, key) :: (closest_preceding_finger_scan self key i).1,
        (closest_preceding_finger_scan self key i).2)

/-- The argument triples `(x, start, end)` of all calls of `in_interval` made by one call
of `handle_lookup_request` for a message with key `key`: the test of the successor, then,
on the forwarding branch, the calls of `closest_preceding_finger`. -/
def routing_calls (self : NodeState) (key : Int) : List (Int × Int × Int) :=
  (key, self.id, self.successor) ::
    (if in_interval key self.id self.successor then []
     else (closest_preceding_finger_scan self key M).1)

/-! ## The iterations of the service loop -/

/-- One iteration of the service loop: the local state before it, the local state after
it, and the messages it sent. -/
structure Iteration where
  before : ServiceState
  after : ServiceState
  sent : List Outbound
deriving DecidableEq, Repr, Inhabited

/-- The iterations of the service loop of one process on a given sequence of received
messages; iteration `j` handles the `j`-th message.  Nothing is received once the loop
has been left. -/
def service_trace (world_rank world_size : Nat) (id_to_rank : List Int) (self : NodeState)
    (nr_lookups : Nat) : ServiceState → List (Tag × LookupMsg) → Option (List Iteration)
  | _, [] => some []
  | st, (tag, msg) :: rest =>
    if st.exited then some []
    else
      match service_step world_rank world_size id_to_rank self nr_lookups st tag msg with
      | none => none
      | some (st1, outs) =>
        match service_trace world_rank world_size id_to_rank self nr_lookups st1 rest with
        | none => none
        | some tr => some (Iteration.mk st st1 outs :: tr)

/-- The transition that sets `is_done`: the flag is clear before the iteration and set
after it. -/
def fires (it : Iteration) : Bool :=
  !it.before.is_done && it.after.is_done

/-- The `TAG_DONE` messages sent by an iteration. -/
def done_sent (it : Iteration) : List Outbound :=
  it.sent.filter (fun o => decide (o.tag = Tag.TAG_DONE))

/-- The number of REPLY messages in a sequence of received messages. -/
def reply_count (ms : List (Tag × LookupMsg)) : Nat :=
  ms.countP (fun p => decide (p.1 = Tag.TAG_LOOKUP_REP))

/-! ## Reachable global states and their invariant -/

/-- The global states of a run: the initial state and every state reached from it by
steps of the processes, in any interleaving. -/
inductive Reachable (all_ids : List Int) (lookups : List (List Int)) : Global → Prop where
  | init (g : Global) : init_global all_ids lookups = some g → Reachable all_ids lookups g
  | step (g g1 : Global) (r s : Nat) : Reachable all_ids lookups g →
      global_step all_ids lookups g r s = some g1 → Reachable all_ids lookups g1

/-- A slot of the result array holds a stored REPLY.  The slots are created with
`path_len = 0` (the default message of `init_global`), and every REPLY has a path. -/
def slot_written (m : LookupMsg) : Bool :=
  decide (0 < m.path_len)

/-- The message in flight `e` is the ROUTE request or the REPLY of lookup number `i` of
rank `r`. -/
def carries (all_ids : List Int) (r i : Nat) (e : Envelope) : Bool :=
  decide (e.tag ≠ Tag.TAG_DONE ∧ e.msg.initiator_id = all_ids.getD r 0 ∧ e.msg.seq = (i : Int))

/-- The invariant of the reachable global states.  For every rank: the result array has
one slot per local lookup, `lookups_done` counts the written slots, `is_done` is set only
when all are written, the loop is left only when `is_done` is set, a written slot `i`
holds the REPLY of lookup `i`, and lookup `i` is either in flight exactly once with its
slot unwritten, or not in flight with its slot written.  Every ROUTE request and REPLY in
flight is the message of a lookup of some rank, and a REPLY is addressed to that rank. -/
def GlobalInv (all_ids : List Int) (lookups : List (List Int)) (g : Global) : Prop :=
  g.procs.length = all_ids.length ∧
  (∀ r st, g.procs[r]? = some st →
    st.messages.length = (lookups.getD r []).length ∧
    st.lookups_done = st.messages.countP slot_written ∧
    (st.is_done = true → st.lookups_done = (lookups.getD r []).length) ∧
    (st.exited = true → st.is_done = true) ∧
    (∀ (i : Nat) m, st.messages[i]? = some m → slot_written m = true →
      m.seq = (i : Int) ∧ m.key = (lookups.getD r []).getD i 0 ∧
      m.initiator_id = all_ids.getD r 0) ∧
    (∀ (i : Nat) m, st.messages[i]? = some m →
      g.net.countP (carries all_ids r i) + (if slot_written m = true then 1 else 0) = 1)) ∧
  (∀ e ∈ g.net, e.tag ≠ Tag.TAG_DONE →
    ∃ r i, r < all_ids.length ∧ i < (lookups.getD r []).length ∧
      e.msg.initiator_id = all_ids.getD r 0 ∧ e.msg.seq = (i : Int) ∧
      e.msg.key = (lookups.getD r []).getD i 0 ∧
      (e.tag = Tag.TAG_LOOKUP_REP → e.dest = r ∧ 0 < e.msg.path_len))

/-! ## Runs of the global model -/

/-- The global state after the steps `sched` taken from `g` in order, each step given by
the receiving rank and the sending rank of the message received; `none` when one of the
steps is not enabled. -/
def run_steps (all_ids : List Int) (lookups : List (List Int)) :
    Global → List (Nat × Nat) → Option Global
  | g, [] => some g
  | g, (r, s) :: rest =>
    match global_step all_ids lookups g r s with
    | none => none
    | some g1 => run_steps all_ids lookups g1 rest

/-- The step of rank `r` receiving from rank `s` in state `g` executes
`messages[msg.seq] = msg` on slot `i` of rank `r0`: `r` is `r0` and the message received
is a REPLY with `seq = i`. -/
def writes_slot (g : Global) (r s r0 i : Nat) : Bool :=
  decide (r = r0) &&
    match g.net.find? (fun e => decide (e.src = s ∧ e.dest = r)) with
    | none => false
    | some e => decide (e.tag = Tag.TAG_LOOKUP_REP ∧ e.msg.seq = (i : Int))

/-- The number of steps of the run `sched` from `g` that write slot `i` of rank `r0`. -/
def write_count (all_ids : List Int) (lookups : List (List Int)) (r0 i : Nat) :
    Global → List (Nat × Nat) → Nat
  | _, [] => 0
  | g, (r, s) :: rest =>
    match global_step all_ids lookups g r s with
    | none => 0
    | some g1 =>
      (if writes_slot g r s r0 i = true then 1 else 0) +
        write_count all_ids lookups r0 i g1 rest

/-- The work left for a message in flight: a ROUTE request can still be forwarded until
its path is full and then answered, a REPLY and a DONE are received once. -/
def weight (e : Envelope) : Nat :=
  match e.tag with
  | Tag.TAG_LOOKUP_REQ => (MAX_PATH - e.msg.path_len) + 3
  | Tag.TAG_LOOKUP_REP => 2
  | Tag.TAG_DONE => 1

/-- A bound on the number of steps left in a run: the work left for the messages in
flight, and a DONE broadcast for every process that has not sent it yet. -/
def run_measure (all_ids : List Int) (g : Global) : Nat :=
  (g.net.map weight).sum +
    (all_ids.length + 1) * g.procs.countP (fun p => !p.is_done)

/-- The message in flight `e` is a DONE addressed to rank `r`. -/
def done_to (r : Nat) (e : Envelope) : Bool :=
  decide (e.tag = Tag.TAG_DONE ∧ e.dest = r)

/-- The second invariant of the reachable global states.  Every message in flight is
addressed to a rank; a ROUTE request in flight has a full-size path buffer, a key in
`[0,16)` and room in its path for the hops still to come; for every rank the DONE
messages received and in flight are those of the other processes that have set `is_done`,
and a process that has left its loop has received a DONE from every other process. -/
def RoutingInv (all_ids : List Int) (g : Global) : Prop :=
  (∀ e ∈ g.net, e.dest < all_ids.length) ∧
  (∀ e ∈ g.net, e.tag = Tag.TAG_LOOKUP_REQ →
    e.msg.path.length = MAX_PATH ∧ 0 ≤ e.msg.key ∧ e.msg.key < 16 ∧
    e.msg.path_len + dist e.msg.key (all_ids.getD e.dest 0) + 2 ≤ MAX_PATH) ∧
  (∀ r st, g.procs[r]? = some st →
    st.done_received + g.net.countP (done_to r) + (if st.is_done = true then 1 else 0)
      = g.procs.countP (fun p => p.is_done) ∧
    (st.exited = true → st.done_received + 1 = all_ids.length))

/-! ## The three cases of `in_interval` -/

theorem in_interval_core (x a b : Int) :
    in_interval x a b = true ↔
      ((a < b ∧ a < x ∧ x ≤ b) ∨ (a > b ∧ (x > a ∨ x ≤ b)) ∨ a = b) := by
  unfold in_interval
  split_ifs with h1 h2
  · simp only [decide_eq_true_eq]; omega
  · simp only [decide_eq_true_eq]; omega
  · simp only [true_iff]; omega

/-! ## The sorted ring -/

theorem sort_ids_perm (l : List Int) : (sort_ids l).Perm l :=
  List.perm_insertionSort _ l

theorem mem_sort_ids {l : List Int} {x : Int} : x ∈ sort_ids l ↔ x ∈ l :=
  (sort_ids_perm l).mem_iff

theorem length_sort_ids (l : List Int) : (sort_ids l).length = l.length :=
  (sort_ids_perm l).length_eq

theorem sort_ids_sorted (l : List Int) : (sort_ids l).Sorted (fun a b => a ≤ b) :=
  List.sorted_insertionSort _ l

theorem sortedRing_of_wellFormed {l : List Int} (h : WellFormed l) :
    SortedRing (sort_ids l) := by
  obtain ⟨h1, _, h3, h4⟩ := h
  refine ⟨?_, ?_, ?_⟩
  · intro h0
    have := length_sort_ids l
    rw [h0] at this
    simp at this
    omega
  · exact (sort_ids_sorted l).lt_of_le ((sort_ids_perm l).nodup_iff.mpr h3)
  · intro x hx
    exact h4 x (mem_sort_ids.mp hx)

theorem SortedRing.length_pos {S : List Int} (h : SortedRing S) : 0 < S.length :=
  List.length_pos.mpr h.1

theorem SortedRing.lt_of_lt {S : List Int} (h : SortedRing S) {i j : Nat}
    (hi : i < S.length) (hj : j < S.length) (hij : i < j) : S[i] < S[j] :=
  List.pairwise_iff_getElem.mp h.2.1 i j hi hj hij

theorem SortedRing.le_of_le {S : List Int} (h : SortedRing S) {i j : Nat}
    (hi : i < S.length) (hj : j < S.length) (hij : i ≤ j) : S[i] ≤ S[j] := by
  rcases Nat.lt_or_eq_of_le hij with h1 | h1
  · exact le_of_lt (h.lt_of_lt hi hj h1)
  · subst h1; exact le_refl _

theorem SortedRing.nodup {S : List Int} (h : SortedRing S) : S.Nodup :=
  h.2.1.nodup

theorem SortedRing.bounds {S : List Int} (h : SortedRing S) {i : Nat} (hi : i < S.length) :
    0 ≤ S[i] ∧ S[i] < 16 :=
  h.2.2 _ (List.getElem_mem hi)

/-! ## `find_successor_simple` -/

/-- In an ascending list the first element `≥ key` is below every element `≥ key`. -/
theorem find_ge_least {S : List Int} (hs : S.Sorted (fun a b => a < b)) {key r : Int}
    (hf : S.find? (fun x => decide (x ≥ key)) = some r) :
    r ∈ S ∧ key ≤ r ∧ ∀ m ∈ S, key ≤ m → r ≤ m := by
  induction S with
  | nil => simp at hf
  | cons a t ih =>
    rw [List.sorted_cons] at hs
    rw [List.find?_cons] at hf
    by_cases ha : a ≥ key
    · simp only [ha, decide_True, Option.some.injEq] at hf
      subst hf
      refine ⟨List.mem_cons_self _ _, ha, ?_⟩
      intro m hm _
      rcases List.mem_cons.mp hm with h1 | h1
      · exact le_of_eq h1.symm
      · exact le_of_lt (hs.1 m h1)
    · simp only [ha, decide_False] at hf
      obtain ⟨h1, h2, h3⟩ := ih hs.2 hf
      refine ⟨List.mem_cons_of_mem _ h1, h2, ?_⟩
      intro m hm hk
      rcases List.mem_cons.mp hm with h4 | h4
      · subst h4; exact absurd hk ha
      · exact h3 m h4 hk

/-- The two cases of `find_successor_simple` on a sorted ring: the least id `≥ key`,
or the least id of all when no id is `≥ key`. -/
theorem find_successor_simple_cases {S : List Int} (h : SortedRing S) (key : Int) :
    (find_successor_simple S key ∈ S ∧ key ≤ find_successor_simple S key ∧
        ∀ m ∈ S, key ≤ m → find_successor_simple S key ≤ m) ∨
    ((∀ m ∈ S, m < key) ∧ find_successor_simple S key ∈ S ∧
        ∀ m ∈ S, find_successor_simple S key ≤ m) := by
  unfold find_successor_simple
  cases hf : S.find? (fun x => decide (x ≥ key)) with
  | some r => exact Or.inl (find_ge_least h.2.1 hf)
  | none =>
    right
    have hnone := List.find?_eq_none.mp hf
    have hpos := h.length_pos
    refine ⟨?_, ?_, ?_⟩
    · intro m hm
      have := hnone m hm
      simp only [decide_eq_true_eq] at this
      omega
    · simp only [List.getD_eq_getElem S 0 hpos]
      exact List.getElem_mem hpos
    · intro m hm
      simp only [List.getD_eq_getElem S 0 hpos]
      obtain ⟨j, hj, rfl⟩ := List.getElem_of_mem hm
      exact h.le_of_le hpos hj (Nat.zero_le _)

/-- The id returned by `find_successor_simple` is the ring id at the least clockwise
distance from `key`. -/
theorem find_successor_simple_min {S : List Int} (h : SortedRing S) {key : Int}
    (hk0 : 0 ≤ key) (hk1 : key < 16) :
    find_successor_simple S key ∈ S ∧
      ∀ m ∈ S, (find_successor_simple S key - key) % 16 ≤ (m - key) % 16 := by
  rcases find_successor_simple_cases h key with ⟨h1, h2, h3⟩ | ⟨h1, h2, h3⟩
  · refine ⟨h1, ?_⟩
    intro m hm
    have hb := h.2.2 _ h1
    have hm' := h.2.2 _ hm
    by_cases hkm : key ≤ m
    · have := h3 m hm hkm
      omega
    · omega
  · refine ⟨h2, ?_⟩
    intro m hm
    have hb := h.2.2 _ h2
    have hm' := h.2.2 _ hm
    have := h3 m hm
    have := h1 m hm
    have := h1 _ h2
    omega

/-! ## `build_global_ring` -/

/-- The loop of `build_global_ring` over the indices below `k`, when `self_id` is the
element of index `i < k` of a list without duplicates: the last (and only) write is
the one of index `i`. -/
theorem build_global_ring_loop {S : List Int} (hnd : S.Nodup) {i : Nat} (hi : i < S.length)
    (init : Int × Int) (k : Nat) (hk : k ≤ S.length) (hik : i < k) :
    (List.range k).foldl (build_global_ring_step S S[i]) init =
      (S.getD ((i + 1) % S.length) 0, S.getD ((i + S.length - 1) % S.length) 0) := by
  induction k with
  | zero => omega
  | succ k ih =>
    rw [List.range_succ, List.foldl_append, List.foldl_cons, List.foldl_nil]
    by_cases hki : k = i
    · subst hki
      rw [build_global_ring_step]
      simp only [List.getD_eq_getElem S 0 hi, if_true]
    · have hk' : k < S.length := by omega
      have hne : S[k] ≠ S[i] := by
        intro he
        exact hki ((hnd.getElem_inj_iff).mp he)
      rw [build_global_ring_step]
      simp only [List.getD_eq_getElem S 0 hk', hne, if_false]
      exact ih (by omega) (by omega)

/-- Successor and predecessor computed by `build_global_ring` for the id at index `i`
of the sorted ring: the cyclic neighbours of index `i`. -/
theorem build_global_ring_index {all_ids : List Int} (h : WellFormed all_ids) {i : Nat}
    (hi : i < (sort_ids all_ids).length) :
    build_global_ring all_ids (sort_ids all_ids)[i] =
      ((sort_ids all_ids).getD ((i + 1) % (sort_ids all_ids).length) 0,
       (sort_ids all_ids).getD ((i + (sort_ids all_ids).length - 1) % (sort_ids all_ids).length) 0) := by
  unfold build_global_ring
  exact build_global_ring_loop (sortedRing_of_wellFormed h).nodup hi (0, 0) _ (le_refl _) hi

/-- The successor computed by `build_global_ring` is the ring id at the least clockwise
distance from `self_id + 1`. -/
theorem successor_min {all_ids : List Int} (h : WellFormed all_ids) {s : Int}
    (hs : s ∈ all_ids) :
    (build_global_ring all_ids s).1 ∈ sort_ids all_ids ∧
      ∀ m ∈ sort_ids all_ids,
        ((build_global_ring all_ids s).1 - s - 1) % 16 ≤ (m - s - 1) % 16 := by
  have hR := sortedRing_of_wellFormed h
  obtain ⟨i, hi, rfl⟩ := List.getElem_of_mem (mem_sort_ids.mpr hs)
  rw [build_global_ring_index h hi]
  have hpos := hR.length_pos
  have hlt : (i + 1) % (sort_ids all_ids).length < (sort_ids all_ids).length :=
    Nat.mod_lt _ hpos
  simp only [List.getD_eq_getElem _ 0 hlt]
  refine ⟨List.getElem_mem _, ?_⟩
  intro m hm
  obtain ⟨j, hj, rfl⟩ := List.getElem_of_mem hm
  have hbi := hR.bounds hi
  have hbj := hR.bounds hj
  have hbs := hR.bounds hlt
  by_cases hlast : i + 1 < (sort_ids all_ids).length
  · have hmod : (i + 1) % (sort_ids all_ids).length = i + 1 := Nat.mod_eq_of_lt hlast
    simp only [hmod] at hbs ⊢
    have h1 := hR.lt_of_lt hi hlast (Nat.lt_succ_self i)
    rcases Nat.lt_trichotomy j i with hji | hji | hji
    · have := hR.lt_of_lt hj hi hji
      omega
    · subst hji
      omega
    · have := hR.le_of_le hlast hj hji
      omega
  · have hmod : (i + 1) % (sort_ids all_ids).length = 0 := by
      have : i + 1 = (sort_ids all_ids).length := by omega
      rw [this]; exact Nat.mod_self _
    simp only [hmod] at hbs ⊢
    have h1 := hR.le_of_le hpos hj (Nat.zero_le j)
    have h2 := hR.le_of_le hj hi (by omega)
    have h3 := hR.le_of_le hpos hi (Nat.zero_le i)
    omega

/-- The predecessor computed by `build_global_ring` is the ring id at the least
counter-clockwise distance from `self_id - 1`. -/
theorem predecessor_min {all_ids : List Int} (h : WellFormed all_ids) {s : Int}
    (hs : s ∈ all_ids) :
    (build_global_ring all_ids s).2 ∈ sort_ids all_ids ∧
      ∀ m ∈ sort_ids all_ids,
        (s - (build_global_ring all_ids s).2 - 1) % 16 ≤ (s - m - 1) % 16 := by
  have hR := sortedRing_of_wellFormed h
  obtain ⟨i, hi, rfl⟩ := List.getElem_of_mem (mem_sort_ids.mpr hs)
  rw [build_global_ring_index h hi]
  have hpos := hR.length_pos
  have hlt : (i + (sort_ids all_ids).length - 1) % (sort_ids all_ids).length
      < (sort_ids all_ids).length := Nat.mod_lt _ hpos
  simp only [List.getD_eq_getElem _ 0 hlt]
  refine ⟨List.getElem_mem _, ?_⟩
  intro m hm
  obtain ⟨j, hj, rfl⟩ := List.getElem_of_mem hm
  have hbi := hR.bounds hi
  have hbj := hR.bounds hj
  have hbs := hR.bounds hlt
  by_cases hfirst : 0 < i
  · have hmod : (i + (sort_ids all_ids).length - 1) % (sort_ids all_ids).length = i - 1 := by
      have : i + (sort_ids all_ids).length - 1 = (i - 1) + (sort_ids all_ids).length := by omega
      rw [this, Nat.add_mod_right]
      exact Nat.mod_eq_of_lt (by omega)
    have hi1 : i - 1 < (sort_ids all_ids).length := by omega
    simp only [hmod] at hbs ⊢
    have h1 := hR.lt_of_lt hi1 hi (by omega)
    rcases Nat.lt_trichotomy j i with hji | hji | hji
    · have := hR.le_of_le hj hi1 (by omega)
      omega
    · subst hji
      omega
    · have := hR.lt_of_lt hi hj hji
      omega
  · have hi0 : i = 0 := by omega
    subst hi0
    have hn1 : (sort_ids all_ids).length - 1 < (sort_ids all_ids).length := by omega
    have hmod : (0 + (sort_ids all_ids).length - 1) % (sort_ids all_ids).length
        = (sort_ids all_ids).length - 1 := by
      rw [Nat.zero_add]; exact Nat.mod_eq_of_lt hn1
    simp only [hmod] at hbs ⊢
    have h1 := hR.le_of_le hi hj (Nat.zero_le j)
    have h2 := hR.le_of_le hj hn1 (by omega)
    omega

/-! ## `closest_preceding_finger` -/

/-- The scan of `closest_preceding_finger` over the indices below `n`: either no index
passes the test and the successor is returned, or the node of the greatest index that
passes the test is returned. -/
theorem closest_preceding_finger_loop_spec (self : NodeState) (key : Int) (n : Nat) :
    ((∀ i, i < n → ¬ finger_selected self key i) ∧
        closest_preceding_finger_loop self key n = self.successor) ∨
    (∃ i, i < n ∧ finger_selected self key i ∧
        (∀ j, i < j → j < n → ¬ finger_selected self key j) ∧
        closest_preceding_finger_loop self key n = (self.finger.getD i default).node) := by
  induction n with
  | zero =>
    left
    exact ⟨fun i hi => absurd hi (Nat.not_lt_zero i), rfl⟩
  | succ n ih =>
    by_cases hsel : finger_selected self key n
    · right
      refine ⟨n, Nat.lt_succ_self n, hsel, fun j h1 h2 => by omega, ?_⟩
      obtain ⟨h1, h2, h3⟩ := hsel
      rw [closest_preceding_finger_loop]
      simp only [h3, if_true]
      rw [if_neg]
      intro hor
      rcases hor with h | h
      · exact h1 h.symm
      · exact h2 h
    · have hstep : closest_preceding_finger_loop self key (n + 1) =
          closest_preceding_finger_loop self key n := by
        rw [closest_preceding_finger_loop]
        split_ifs with h1 h2
        · rfl
        · exfalso
          apply hsel
          refine ⟨fun h => h1 (Or.inl h.symm), fun h => h1 (Or.inr h), h2⟩
        · rfl
      rcases ih with ⟨h1, h2⟩ | ⟨i, h1, h2, h3, h4⟩
      · left
        refine ⟨?_, by rw [hstep, h2]⟩
        intro i hi
        rcases Nat.lt_succ_iff_lt_or_eq.mp hi with h | h
        · exact h1 i h
        · subst h; exact hsel
      · right
        refine ⟨i, by omega, h2, ?_, by rw [hstep, h4]⟩
        intro j hj1 hj2
        rcases Nat.lt_succ_iff_lt_or_eq.mp hj2 with h | h
        · exact h3 j hj1 h
        · subst h; exact hsel

/-! ## The node state of a ring member -/

theorem node_state_id (all_ids : List Int) (s : Int) : (node_state all_ids s).id = s := rfl

theorem node_state_successor (all_ids : List Int) (s : Int) :
    (node_state all_ids s).successor = (build_global_ring all_ids s).1 := rfl

theorem node_state_finger (all_ids : List Int) (s : Int) {i : Nat} (hi : i < M) :
    (node_state all_ids s).finger.getD i default = build_finger (sort_ids all_ids) s i := by
  have h4 : i < 4 := hi
  interval_cases i <;> rfl

theorem build_finger_start (S : List Int) {s : Int} (hs0 : 0 ≤ s) (i : Nat) :
    (build_finger S s i).start = (s + 2 ^ i) % 16 := by
  show Int.tmod (s + 2 ^ i) RING_SIZE = (s + 2 ^ i) % 16
  have h2 : (0 : Int) ≤ 2 ^ i := by positivity
  exact Int.tmod_eq_emod (by omega) (by decide)

theorem build_finger_node (S : List Int) (s : Int) (i : Nat) :
    (build_finger S s i).node = find_successor_simple S (build_finger S s i).start := rfl

/-- Every finger node of a ring member is a ring id. -/
theorem finger_node_mem {all_ids : List Int} (h : WellFormed all_ids) {s : Int}
    (hs : s ∈ all_ids) (i : Nat) :
    (build_finger (sort_ids all_ids) s i).node ∈ sort_ids all_ids := by
  have hR := sortedRing_of_wellFormed h
  have hb := h.2.2.2 s hs
  rw [build_finger_node, build_finger_start _ hb.1]
  exact (find_successor_simple_min hR (Int.emod_nonneg _ (by decide))
    (Int.emod_lt_of_pos _ (by decide))).1

/-- The first finger of a ring member is its successor. -/
theorem finger_zero_eq_successor {all_ids : List Int} (h : WellFormed all_ids) {s : Int}
    (hs : s ∈ all_ids) :
    (build_finger (sort_ids all_ids) s 0).node = (build_global_ring all_ids s).1 := by
  have hR := sortedRing_of_wellFormed h
  have hb := h.2.2.2 s hs
  obtain ⟨h1, h2⟩ := successor_min h hs
  rw [build_finger_node, build_finger_start _ hb.1]
  have hk0 : 0 ≤ (s + 2 ^ 0) % 16 := Int.emod_nonneg _ (by decide)
  have hk1 : (s + 2 ^ 0) % 16 < 16 := Int.emod_lt_of_pos _ (by decide)
  obtain ⟨h3, h4⟩ := find_successor_simple_min hR hk0 hk1
  have h5 := h2 _ h3
  have h6 := h4 _ h1
  have h7 := hR.2.2 _ h1
  have h8 := hR.2.2 _ h3
  simp only [pow_zero] at h3 h4 h5 h6 h8 ⊢
  omega

/-- When the successor of a ring member owns the key, it is the id that
`find_successor_simple` computes for the key. -/
theorem successor_owns {all_ids : List Int} (h : WellFormed all_ids) {s k : Int}
    (hs : s ∈ all_ids) (hk0 : 0 ≤ k) (hk1 : k < 16)
    (hin : in_interval k s (build_global_ring all_ids s).1 = true) :
    (build_global_ring all_ids s).1 = find_successor_simple (sort_ids all_ids) k := by
  have hR := sortedRing_of_wellFormed h
  have hb := h.2.2.2 s hs
  obtain ⟨h1, h2⟩ := successor_min h hs
  obtain ⟨h3, h4⟩ := find_successor_simple_min hR hk0 hk1
  have h5 := h2 _ h3
  have h6 := h4 _ h1
  have h7 := hR.2.2 _ h1
  have h8 := hR.2.2 _ h3
  have h9 := (in_interval_core k s (build_global_ring all_ids s).1).mp hin
  omega

/-- When a ring member forwards a lookup, the node chosen by `closest_preceding_finger`
is the node of a finger that passes the selection test. -/
theorem forward_selected {all_ids : List Int} (h : WellFormed all_ids) {s k : Int}
    (hs : s ∈ all_ids)
    (hin : in_interval k s (build_global_ring all_ids s).1 = false) :
    ∃ i, i < M ∧ finger_selected (node_state all_ids s) k i ∧
      (∀ j, i < j → j < M → ¬ finger_selected (node_state all_ids s) k j) ∧
      closest_preceding_finger (node_state all_ids s) k =
        (build_finger (sort_ids all_ids) s i).node := by
  have hR := sortedRing_of_wellFormed h
  have hb := h.2.2.2 s hs
  rcases closest_preceding_finger_loop_spec (node_state all_ids s) k M with
    ⟨h1, _⟩ | ⟨i, h1, h2, h3, h4⟩
  · exfalso
    apply h1 0 (by decide)
    obtain ⟨h5, h6⟩ := successor_min h hs
    have h7 := hR.2.2 _ h5
    have hnot : ¬ (in_interval k s (build_global_ring all_ids s).1 = true) := by
      rw [hin]; decide
    rw [in_interval_core] at hnot
    unfold finger_selected
    rw [node_state_finger all_ids s (by decide), finger_zero_eq_successor h hs, node_state_id,
      in_interval_core]
    have h8 := h6 s (mem_sort_ids.mpr hs)
    omega
  · refine ⟨i, h1, h2, h3, ?_⟩
    rw [← node_state_finger all_ids s h1]
    exact h4

/-- A forwarded lookup moves to a ring member strictly closer to the key. -/
theorem forward_progress {all_ids : List Int} (h : WellFormed all_ids) {s k : Int}
    (hs : s ∈ all_ids) (hk0 : 0 ≤ k) (hk1 : k < 16)
    (hin : in_interval k s (build_global_ring all_ids s).1 = false) :
    closest_preceding_finger (node_state all_ids s) k ∈ all_ids ∧
      dist k (closest_preceding_finger (node_state all_ids s) k) < dist k s := by
  have hb := h.2.2.2 s hs
  obtain ⟨i, h1, h2, _, h4⟩ := forward_selected h hs hin
  have hmem := finger_node_mem h hs i
  rw [h4]
  refine ⟨mem_sort_ids.mp hmem, ?_⟩
  have hbt := h.2.2.2 _ (mem_sort_ids.mp hmem)
  unfold finger_selected at h2
  rw [node_state_finger all_ids s h1, node_state_id, in_interval_core] at h2
  unfold dist
  omega

/-! ## `build_id_maps` and `rank_from_id` -/

/-- Invariant of the loop of `build_id_maps` after the ranks below `k`: slot `j` holds
the rank of the process whose id is `j`, or `-1` when no such rank is below `k`. -/
theorem build_id_maps_loop {all_ids : List Int} (h : WellFormed all_ids) (k : Nat)
    (hk : k ≤ all_ids.length) :
    ((List.range k).foldl (build_id_maps_step all_ids) (List.replicate 16 (-1))).length = 16 ∧
    ∀ j : Nat, j < 16 →
      (∀ r (hr : r < all_ids.length), r < k → all_ids[r] = (j : Int) →
        ((List.range k).foldl (build_id_maps_step all_ids) (List.replicate 16 (-1)))[j]?
          = some (r : Int)) ∧
      ((∀ r (hr : r < all_ids.length), r < k → all_ids[r] ≠ (j : Int)) →
        ((List.range k).foldl (build_id_maps_step all_ids) (List.replicate 16 (-1)))[j]?
          = some (-1)) := by
  induction k with
  | zero =>
    refine ⟨by simp, ?_⟩
    intro j hj
    refine ⟨fun r _ hr0 => absurd hr0 (Nat.not_lt_zero r), fun _ => ?_⟩
    rw [List.range_zero, List.foldl_nil, List.getElem?_replicate, if_pos hj]
  | succ k ih =>
    have hk' : k < all_ids.length := by omega
    obtain ⟨ihlen, ih⟩ := ih (by omega)
    have hb := h.2.2.2 _ (List.getElem_mem hk')
    rw [List.range_succ, List.foldl_append, List.foldl_cons, List.foldl_nil]
    generalize (List.range k).foldl (build_id_maps_step all_ids) (List.replicate 16 (-1)) = A
      at ihlen ih ⊢
    have hstep : build_id_maps_step all_ids A k = A.set (all_ids[k]).toNat (k : Int) := by
      unfold build_id_maps_step
      simp only [List.getD_eq_getElem all_ids 0 hk', RING_SIZE]
      rw [if_pos ⟨hb.1, hb.2⟩]
    rw [hstep]
    refine ⟨by simp [ihlen], ?_⟩
    intro j hj
    rw [List.getElem?_set]
    by_cases hjk : (all_ids[k]).toNat = j
    · have hkj : all_ids[k] = (j : Int) := by omega
      simp only [hjk, if_true, ihlen, hj]
      refine ⟨?_, ?_⟩
      · intro r hr _ hrj
        have : r = k := (h.2.2.1.getElem_inj_iff).mp (hrj.trans hkj.symm)
        rw [this]
      · intro hall
        exact absurd hkj (hall k hk' (Nat.lt_succ_self k))
    · have hkj : all_ids[k] ≠ (j : Int) := by omega
      simp only [hjk, if_false]
      refine ⟨?_, ?_⟩
      · intro r hr hrk hrj
        have hne : r ≠ k := by
          intro he; subst he; exact hkj hrj
        exact (ih j hj).1 r hr (by omega) hrj
      · intro hall
        exact (ih j hj).2 (fun r hr hrk => hall r hr (by omega))

/-- In a well-formed ring `rank_from_id` maps the id of every rank back to the rank. -/
theorem rank_from_id_of_rank {all_ids : List Int} (h : WellFormed all_ids) {r : Nat}
    (hr : r < all_ids.length) :
    rank_from_id (build_id_maps all_ids) all_ids[r] = (r : Int) := by
  have hb := h.2.2.2 _ (List.getElem_mem hr)
  obtain ⟨_, hinv⟩ := build_id_maps_loop h all_ids.length (le_refl _)
  have hj : (all_ids[r]).toNat < 16 := by omega
  have := (hinv _ hj).1 r hr hr (by omega)
  unfold rank_from_id
  rw [if_neg (by simp only [RING_SIZE]; omega)]
  unfold build_id_maps
  simp only [RING_SIZE, List.getD_eq_getElem?_getD]
  show (((List.range all_ids.length).foldl (build_id_maps_step all_ids)
    (List.replicate 16 (-1)))[(all_ids[r]).toNat]?).getD (-1) = _
  rw [this]
  rfl

/-- In a well-formed ring `rank_from_id` is `-1` on every integer that is not the id
of a process. -/
theorem rank_from_id_of_not_mem {all_ids : List Int} (h : WellFormed all_ids) {id : Int}
    (hid : id ∉ all_ids) :
    rank_from_id (build_id_maps all_ids) id = -1 := by
  unfold rank_from_id
  split_ifs with hrange
  · rfl
  · simp only [RING_SIZE] at hrange
    obtain ⟨_, hinv⟩ := build_id_maps_loop h all_ids.length (le_refl _)
    have hj : id.toNat < 16 := by omega
    have := (hinv _ hj).2 (by
      intro r hr _ he
      apply hid
      have : all_ids[r] = id := by omega
      rw [← this]
      exact List.getElem_mem hr)
    unfold build_id_maps
    simp only [RING_SIZE, List.getD_eq_getElem?_getD]
    show (((List.range all_ids.length).foldl (build_id_maps_step all_ids)
      (List.replicate 16 (-1)))[id.toNat]?).getD (-1) = _
    rw [this]
    rfl

/-! ## `handle_lookup_request` -/

theorem take_succ_set (l : List Int) (n : Nat) (v : Int) (h : n < l.length) :
    (l.set n v).take (n + 1) = l.take n ++ [v] := by
  induction l generalizing n with
  | nil => simp at h
  | cons a t ih =>
    cases n with
    | zero => simp
    | succ n =>
      simp only [List.set_cons_succ, List.take_succ_cons, List.cons_append, List.cons.injEq,
        true_and]
      exact ih n (by simpa using h)

/-- A write `path[path_len++] = v` inside the array: one entry appended, nothing else
changed. -/
theorem path_push_spec (msg : LookupMsg) (v : Int) (hlen : msg.path.length = MAX_PATH)
    (hp : msg.path_len < MAX_PATH) :
    ∃ msg1, path_push msg v = some msg1 ∧
      msg1.initiator_id = msg.initiator_id ∧ msg1.current_id = msg.current_id ∧
      msg1.seq = msg.seq ∧ msg1.key = msg.key ∧
      msg1.path.length = MAX_PATH ∧ msg1.path_len = msg.path_len + 1 ∧
      path_of msg1 = path_of msg ++ [v] ∧
      (∀ j, j < msg.path_len → msg1.path[j]? = msg.path[j]?) := by
  refine ⟨{ msg with path := msg.path.set msg.path_len v, path_len := msg.path_len + 1 },
    ?_, rfl, rfl, rfl, rfl, ?_, rfl, ?_, ?_⟩
  · unfold path_push
    rw [if_pos hp]
  · simp [hlen]
  · unfold path_of
    exact take_succ_set _ _ _ (by rw [hlen]; exact hp)
  · intro j hj
    show (msg.path.set msg.path_len v)[j]? = msg.path[j]?
    rw [List.getElem?_set, if_neg (by omega)]

/-- The REPLY branch of `handle_lookup_request`. -/
theorem handle_lookup_request_reply (id_to_rank : List Int) (self : NodeState) (msg : LookupMsg)
    (hlen : msg.path.length = MAX_PATH) (hp : msg.path_len + 2 ≤ MAX_PATH)
    (hin : in_interval msg.key self.id self.successor = true) :
    ∃ out, handle_lookup_request id_to_rank self msg = some out ∧
      out.tag = Tag.TAG_LOOKUP_REP ∧
      out.dest = rank_from_id id_to_rank msg.initiator_id ∧
      out.msg.initiator_id = msg.initiator_id ∧ out.msg.seq = msg.seq ∧
      out.msg.key = msg.key ∧ out.msg.path.length = MAX_PATH ∧
      out.msg.path_len = msg.path_len + 2 ∧
      path_of out.msg = path_of msg ++ [self.id, self.successor] ∧
      (∀ j, j < msg.path_len → out.msg.path[j]? = msg.path[j]?) := by
  obtain ⟨m1, e1, a1, _, a3, a4, a5, a6, a7, a8⟩ :=
    path_push_spec msg self.id hlen (by omega)
  obtain ⟨m2, e2, b1, _, b3, b4, b5, b6, b7, b8⟩ :=
    path_push_spec m1 self.successor a5 (by omega)
  refine ⟨Outbound.mk (rank_from_id id_to_rank m2.initiator_id) Tag.TAG_LOOKUP_REP m2,
    ?_, rfl, ?_, ?_, ?_, ?_, b5, ?_, ?_, ?_⟩
  · unfold handle_lookup_request
    simp only [e1, a4, hin, if_true, e2]
  · show rank_from_id id_to_rank m2.initiator_id = _
    rw [b1, a1]
  · show m2.initiator_id = _
    rw [b1, a1]
  · show m2.seq = _
    rw [b3, a3]
  · show m2.key = _
    rw [b4, a4]
  · show m2.path_len = _
    rw [b6, a6]
  · show path_of m2 = _
    rw [b7, a7, List.append_assoc]
    rfl
  · intro j hj
    show m2.path[j]? = _
    rw [b8 j (by omega), a8 j hj]

/-- The ROUTE branch of `handle_lookup_request`. -/
theorem handle_lookup_request_forward (id_to_rank : List Int) (self : NodeState)
    (msg : LookupMsg)
    (hlen : msg.path.length = MAX_PATH) (hp : msg.path_len + 1 ≤ MAX_PATH)
    (hin : in_interval msg.key self.id self.successor = false) :
    ∃ out, handle_lookup_request id_to_rank self msg = some out ∧
      out.tag = Tag.TAG_LOOKUP_REQ ∧
      out.dest = rank_from_id id_to_rank (closest_preceding_finger self msg.key) ∧
      out.msg.initiator_id = msg.initiator_id ∧ out.msg.seq = msg.seq ∧
      out.msg.key = msg.key ∧ out.msg.path.length = MAX_PATH ∧
      out.msg.path_len = msg.path_len + 1 ∧
      path_of out.msg = path_of msg ++ [self.id] ∧
      (∀ j, j < msg.path_len → out.msg.path[j]? = msg.path[j]?) := by
  obtain ⟨m1, e1, a1, _, a3, a4, a5, a6, a7, a8⟩ :=
    path_push_spec msg self.id hlen (by omega)
  refine ⟨Outbound.mk (rank_from_id id_to_rank (closest_preceding_finger self m1.key))
    Tag.TAG_LOOKUP_REQ m1, ?_, rfl, ?_, a1, a3, a4, a5, a6, a7, a8⟩
  · unfold handle_lookup_request
    simp only [e1, a4, hin]
    rfl
  · show rank_from_id id_to_rank (closest_preceding_finger self m1.key) = _
    rw [a4]

/-! ## Routing of a lookup -/

theorem dist_le (k s : Int) : dist k s ≤ 15 := by
  unfold dist; omega

/-- One call of `route` at a rank of the ring. -/
theorem route_succ (all_ids : List Int) (fuel : Nat) {r : Nat} (hr : r < all_ids.length)
    (msg : LookupMsg) :
    route all_ids (fuel + 1) (r : Int) msg =
      match handle_lookup_request (build_id_maps all_ids) (node_state all_ids all_ids[r]) msg with
      | none => none
      | some out =>
        match out.tag with
        | Tag.TAG_LOOKUP_REP => some out
        | Tag.TAG_LOOKUP_REQ => route all_ids fuel out.dest out.msg
        | Tag.TAG_DONE => none := by
  rw [route]
  have h1 : ¬ ((r : Int) < 0 ∨ (r : Int) ≥ (all_ids.length : Int)) := by omega
  rw [if_neg h1]
  simp only [Int.toNat_ofNat, List.getD_eq_getElem all_ids 0 hr]

/-- More fuel does not change the result of a routing that succeeded. -/
theorem route_mono (all_ids : List Int) (fuel : Nat) :
    ∀ (rank : Int) (msg : LookupMsg) (out : Outbound) (extra : Nat),
      route all_ids fuel rank msg = some out →
      route all_ids (fuel + extra) rank msg = some out := by
  induction fuel with
  | zero =>
    intro rank msg out extra h
    simp [route] at h
  | succ fuel ih =>
    intro rank msg out extra h
    have e : fuel + 1 + extra = (fuel + extra) + 1 := by omega
    rw [e]
    rw [route] at h ⊢
    split_ifs at h ⊢ with hrank
    dsimp only at h ⊢
    cases hh : handle_lookup_request (build_id_maps all_ids)
        (node_state all_ids (all_ids.getD rank.toNat 0)) msg with
    | none =>
      rw [hh] at h
      exact absurd h (by simp)
    | some o =>
      simp only [hh] at h ⊢
      cases ht : o.tag with
      | TAG_LOOKUP_REQ =>
        simp only [ht] at h ⊢
        exact ih _ _ _ _ h
      | TAG_LOOKUP_REP =>
        simp only [ht] at h ⊢
        exact h
      | TAG_DONE => simp [ht] at h

/-- Routing from a ring member at remaining distance at most `D` from the key: the list
`visited` of the ids that run `handle_lookup_request`, in order, and the REPLY. -/
theorem route_spec {all_ids : List Int} (h : WellFormed all_ids) {k : Int}
    (hk0 : 0 ≤ k) (hk1 : k < 16) (D : Nat) :
    ∀ (r : Nat) (hr : r < all_ids.length) (msg : LookupMsg),
      dist k all_ids[r] ≤ D → msg.key = k → msg.path.length = MAX_PATH →
      msg.path_len + D + 2 ≤ MAX_PATH →
      ∃ (visited : List Int) (out : Outbound),
        (∀ fuel, visited.length ≤ fuel → route all_ids fuel (r : Int) msg = some out) ∧
        out.tag = Tag.TAG_LOOKUP_REP ∧
        out.dest = rank_from_id (build_id_maps all_ids) msg.initiator_id ∧
        out.msg.initiator_id = msg.initiator_id ∧ out.msg.seq = msg.seq ∧
        out.msg.key = msg.key ∧
        path_of out.msg =
          path_of msg ++ visited ++ [find_successor_simple (sort_ids all_ids) k] ∧
        visited.head? = some all_ids[r] ∧ visited.Nodup ∧
        (∀ v ∈ visited, v ∈ all_ids ∧ dist k v ≤ dist k all_ids[r]) := by
  induction D with
  | zero =>
    intro r hr msg hd hkey hlen hp
    have hs : all_ids[r] ∈ all_ids := List.getElem_mem hr
    cases hin : in_interval k all_ids[r] (build_global_ring all_ids all_ids[r]).1 with
    | false =>
      have := (forward_progress h hs hk0 hk1 hin).2
      omega
    | true =>
      obtain ⟨out, e, o1, o2, o3, o4, o5, _, _, o8, _⟩ :=
        handle_lookup_request_reply (build_id_maps all_ids) (node_state all_ids all_ids[r]) msg
          hlen (by omega) (by rw [hkey]; exact hin)
      refine ⟨[all_ids[r]], out, ?_, o1, o2, o3, o4, o5, ?_, rfl, List.nodup_singleton _, ?_⟩
      · intro fuel hf
        obtain ⟨f, rfl⟩ : ∃ f, fuel = f + 1 := ⟨fuel - 1, by simp at hf; omega⟩
        rw [route_succ all_ids f hr, e]
        simp only [o1]
      · rw [o8, node_state_id, node_state_successor, successor_owns h hs hk0 hk1 hin]
        simp
      · intro v hv
        rw [List.mem_singleton] at hv
        subst hv
        exact ⟨hs, le_refl _⟩
  | succ D ih =>
    intro r hr msg hd hkey hlen hp
    have hs : all_ids[r] ∈ all_ids := List.getElem_mem hr
    cases hin : in_interval k all_ids[r] (build_global_ring all_ids all_ids[r]).1 with
    | true =>
      obtain ⟨out, e, o1, o2, o3, o4, o5, _, _, o8, _⟩ :=
        handle_lookup_request_reply (build_id_maps all_ids) (node_state all_ids all_ids[r]) msg
          hlen (by omega) (by rw [hkey]; exact hin)
      refine ⟨[all_ids[r]], out, ?_, o1, o2, o3, o4, o5, ?_, rfl, List.nodup_singleton _, ?_⟩
      · intro fuel hf
        obtain ⟨f, rfl⟩ : ∃ f, fuel = f + 1 := ⟨fuel - 1, by simp at hf; omega⟩
        rw [route_succ all_ids f hr, e]
        simp only [o1]
      · rw [o8, node_state_id, node_state_successor, successor_owns h hs hk0 hk1 hin]
        simp
      · intro v hv
        rw [List.mem_singleton] at hv
        subst hv
        exact ⟨hs, le_refl _⟩
    | false =>
      obtain ⟨out1, e, o1, o2, o3, o4, o5, o6, o7, o8, _⟩ :=
        handle_lookup_request_forward (build_id_maps all_ids) (node_state all_ids all_ids[r])
          msg hlen (by omega) (by rw [hkey]; exact hin)
      obtain ⟨hmem, hprog⟩ := forward_progress h hs hk0 hk1 hin
      obtain ⟨r2, hr2, hr2e⟩ := List.getElem_of_mem hmem
      rw [hkey, ← hr2e, rank_from_id_of_rank h hr2] at o2
      rw [← hr2e] at hprog
      obtain ⟨visited, out, v1, v2, v3, v4, v5, v6, v7, v8, v9, v10⟩ :=
        ih r2 hr2 out1.msg (by omega) (by rw [o5, hkey]) o6 (by omega)
      refine ⟨all_ids[r] :: visited, out, ?_, v2, ?_, ?_, ?_, ?_, ?_, rfl, ?_, ?_⟩
      · intro fuel hf
        obtain ⟨f, rfl⟩ : ∃ f, fuel = f + 1 := ⟨fuel - 1, by simp at hf; omega⟩
        rw [route_succ all_ids f hr, e]
        simp only [o1, o2]
        exact v1 f (by simpa using hf)
      · rw [v3, o3]
      · rw [v4, o3]
      · rw [v5, o4]
      · rw [v6, o5]
      · rw [v7, o8, node_state_id]
        simp
      · rw [List.nodup_cons]
        refine ⟨?_, v9⟩
        intro hcontra
        have := (v10 _ hcontra).2
        omega
      · intro v hv
        rcases List.mem_cons.mp hv with hv | hv
        · subst hv
          exact ⟨hs, le_refl _⟩
        · obtain ⟨a, b⟩ := v10 v hv
          exact ⟨a, by omega⟩

/-- A lookup issued in a well-formed ring: the ids `visited` that run
`handle_lookup_request` are pairwise distinct ring ids, the first is the initiator, and
the REPLY carries them followed by the owner of the key. -/
theorem lookup_spec {all_ids : List Int} (h : WellFormed all_ids) {r : Nat}
    (hr : r < all_ids.length) {k : Int} (hk0 : 0 ≤ k) (hk1 : k < 16) (i : Nat) :
    ∃ (visited : List Int) (out : Outbound),
      (∀ fuel, visited.length ≤ fuel → lookup all_ids fuel r i k = some out) ∧
      out.tag = Tag.TAG_LOOKUP_REP ∧ out.dest = (r : Int) ∧
      out.msg.initiator_id = all_ids[r] ∧ out.msg.seq = (i : Int) ∧ out.msg.key = k ∧
      path_of out.msg = visited ++ [find_successor_simple (sort_ids all_ids) k] ∧
      visited.head? = some all_ids[r] ∧ visited.Nodup ∧
      (∀ v ∈ visited, v ∈ all_ids) ∧ visited.length ≤ all_ids.length := by
  obtain ⟨visited, out, v1, v2, v3, v4, v5, v6, v7, v8, v9, v10⟩ :=
    route_spec h hk0 hk1 15 r hr (new_lookup all_ids[r] i k) (dist_le _ _) rfl
      (by simp [new_lookup]) (by simp [new_lookup, MAX_PATH])
  have hsub : ∀ v ∈ visited, v ∈ all_ids := fun v hv => (v10 v hv).1
  refine ⟨visited, out, ?_, v2, ?_, v4, v5, v6, ?_, v8, v9, hsub, ?_⟩
  · intro fuel hf
    unfold lookup
    simp only [List.getD_eq_getElem all_ids 0 hr]
    rw [rank_from_id_of_rank h hr]
    exact v1 fuel hf
  · rw [v3]
    exact rank_from_id_of_rank h hr
  · rw [v7]
    simp [path_of, new_lookup]
  · exact (List.subperm_of_subset v9 hsub).length_le

/-- A lookup that succeeds with some fuel gives the result of `lookup_spec`. -/
theorem lookup_unique {all_ids : List Int} {r i : Nat} {k : Int} {fuel1 fuel2 : Nat}
    {out1 out2 : Outbound} (h1 : lookup all_ids fuel1 r i k = some out1)
    (h2 : lookup all_ids fuel2 r i k = some out2) : out1 = out2 := by
  unfold lookup at h1 h2
  have a := route_mono all_ids fuel1 _ _ _ fuel2 h1
  have b := route_mono all_ids fuel2 _ _ _ fuel1 h2
  rw [Nat.add_comm] at b
  rw [a] at b
  exact Option.some.inj b

/-! ## The circular interval -/

/-- Claim C3. For all integers `x`, `a`, `b`, `in_interval x a b` holds iff
`a < b` and `a < x ≤ b`, or `a > b` and (`x > a` or `x ≤ b`), or `a = b`; and for
`x`, `a`, `b` in `[0,16)` with `a ≠ b` it holds exactly when `x` is on the clockwise
arc from `a` (excluded) to `b` (included): `0 < (x - a) mod 16 ≤ (b - a) mod 16`. -/
theorem in_interval_spec (x a b : Int) :
    (in_interval x a b = true ↔
      ((a < b ∧ a < x ∧ x ≤ b) ∨ (a > b ∧ (x > a ∨ x ≤ b)) ∨ a = b)) ∧
    (0 ≤ x → x < 16 → 0 ≤ a → a < 16 → 0 ≤ b → b < 16 → a ≠ b →
      (in_interval x a b = true ↔ (0 < (x - a) % 16 ∧ (x - a) % 16 ≤ (b - a) % 16))) := by
  refine ⟨?_, ?_⟩
  · unfold in_interval
    split_ifs with h1 h2
    · simp only [decide_eq_true_eq]; omega
    · simp only [decide_eq_true_eq]; omega
    · simp only [true_iff]; omega
  · intro hx0 hx1 ha0 ha1 hb0 hb1 hab
    unfold in_interval
    split_ifs with h1 h2
    · simp only [decide_eq_true_eq]; omega
    · simp only [decide_eq_true_eq]; omega
    · omega

/-- Witness of `in_interval_spec`: key 10 with the arc from 9 to 14. -/
theorem in_interval_spec_witness :
    (in_interval 10 9 14 = true ↔ (0 < ((10 : Int) - 9) % 16 ∧ ((10 : Int) - 9) % 16 ≤ (14 - 9) % 16)) :=
  (in_interval_spec 10 9 14).2 (by decide) (by decide) (by decide) (by decide) (by decide)
    (by decide) (by decide)

/-! ## Lookups end at the owner of the key -/

/-- Claim C1. In a well-formed ring, for every initiating rank and every key in
`[0,16)`, routing the lookup (with as many calls of `handle_lookup_request` as there
are processes) produces a REPLY; the last id of its path is
`find_successor_simple key` on the sorted id list and the first id is the initiator's
id.  Every routing that produces a result, with any fuel, produces this one. -/
theorem lookup_ends_at_owner (all_ids : List Int) (h : WellFormed all_ids) (r : Nat)
    (hr : r < all_ids.length) (k : Int) (hk0 : 0 ≤ k) (hk1 : k < 16) (i : Nat) :
    ∃ out, lookup all_ids all_ids.length r i k = some out ∧
      out.tag = Tag.TAG_LOOKUP_REP ∧
      (path_of out.msg).getLast? = some (find_successor_simple (sort_ids all_ids) k) ∧
      (path_of out.msg).head? = some all_ids[r] ∧
      ∀ fuel out2, lookup all_ids fuel r i k = some out2 → out2 = out := by
  obtain ⟨visited, out, v1, v2, _, _, _, _, v7, v8, _, _, v11⟩ := lookup_spec h hr hk0 hk1 i
  refine ⟨out, v1 _ v11, v2, ?_, ?_, ?_⟩
  · rw [v7, List.getLast?_concat]
  · rw [v7, List.head?_append, v8]
    rfl
  · intro fuel out2 h2
    exact lookup_unique h2 (v1 _ v11)

/-- Witness of `lookup_ends_at_owner`: ring `{1,4,9,14}`, initiator 4, key 10 gives the
path `[4, 9, 14]`. -/
theorem lookup_ends_at_owner_witness :
    (lookup [1, 4, 9, 14] 4 1 0 10).map (fun o => path_of o.msg) = some [4, 9, 14] ∧
    ∃ out, lookup [1, 4, 9, 14] 4 1 0 10 = some out ∧
      out.tag = Tag.TAG_LOOKUP_REP ∧
      (path_of out.msg).getLast? = some (find_successor_simple (sort_ids [1, 4, 9, 14]) 10) ∧
      (path_of out.msg).head? = some 4 ∧
      ∀ fuel out2, lookup [1, 4, 9, 14] fuel 1 0 10 = some out2 → out2 = out :=
  ⟨by decide, lookup_ends_at_owner [1, 4, 9, 14] (by decide) 1 (by decide) 10 (by decide)
    (by decide) 0⟩

/-! ## Lookups terminate within `n` hops -/

/-- Claim C4. In a well-formed ring of `n` processes, for every initiating rank and
every key in `[0,16)`, routing produces a REPLY within `n` calls of
`handle_lookup_request`; the ids that ran `handle_lookup_request` (the path without
its last entry) are at most `n` and pairwise distinct: no process handles the lookup
twice. -/
theorem routing_terminates (all_ids : List Int) (h : WellFormed all_ids) (r : Nat)
    (hr : r < all_ids.length) (k : Int) (hk0 : 0 ≤ k) (hk1 : k < 16) (i : Nat) :
    ∃ out, lookup all_ids all_ids.length r i k = some out ∧
      out.tag = Tag.TAG_LOOKUP_REP ∧
      (path_of out.msg).dropLast.length ≤ all_ids.length ∧
      (path_of out.msg).dropLast.Nodup ∧
      (∀ v ∈ (path_of out.msg).dropLast, v ∈ all_ids) ∧
      ∀ fuel, (path_of out.msg).dropLast.length ≤ fuel →
        lookup all_ids fuel r i k = some out := by
  obtain ⟨visited, out, v1, v2, _, _, _, _, v7, _, v9, v10, v11⟩ := lookup_spec h hr hk0 hk1 i
  have hd : (path_of out.msg).dropLast = visited := by
    rw [v7, List.dropLast_concat]
  refine ⟨out, v1 _ v11, v2, ?_, ?_, ?_, ?_⟩
  · rw [hd]; exact v11
  · rw [hd]; exact v9
  · rw [hd]; exact v10
  · rw [hd]; exact v1

/-- Witness of `routing_terminates`: the full ring `0..15`, rank 0, key 0. -/
theorem routing_terminates_witness :
    ∃ out, lookup [0, 1, 2, 3, 4, 5, 6, 7, 8, 9, 10, 11, 12, 13, 14, 15] 16 0 0 0 = some out ∧
      out.tag = Tag.TAG_LOOKUP_REP ∧
      (path_of out.msg).dropLast.length ≤ 16 ∧
      (path_of out.msg).dropLast.Nodup ∧
      (∀ v ∈ (path_of out.msg).dropLast,
        v ∈ [(0 : Int), 1, 2, 3, 4, 5, 6, 7, 8, 9, 10, 11, 12, 13, 14, 15]) ∧
      ∀ fuel, (path_of out.msg).dropLast.length ≤ fuel →
        lookup [0, 1, 2, 3, 4, 5, 6, 7, 8, 9, 10, 11, 12, 13, 14, 15] fuel 0 0 0 = some out :=
  routing_terminates [0, 1, 2, 3, 4, 5, 6, 7, 8, 9, 10, 11, 12, 13, 14, 15]
    (by decide) 0 (by decide) 0 (by decide) (by decide) 0

/-! ## The owner of a key -/

/-- Claim C2. In a well-formed ring, for every key `k` in `[0,16)`,
`R = find_successor_simple k` is a ring id with `k` in `(predecessor(R), R]`, it is the
only ring id with that property, and it is the least ring id `≥ k`, or the least ring
id of all when no ring id is `≥ k`. -/
theorem find_successor_simple_owner (all_ids : List Int) (h : WellFormed all_ids) (k : Int)
    (hk0 : 0 ≤ k) (hk1 : k < 16) :
    find_successor_simple (sort_ids all_ids) k ∈ all_ids ∧
    in_interval k (build_global_ring all_ids (find_successor_simple (sort_ids all_ids) k)).2
      (find_successor_simple (sort_ids all_ids) k) = true ∧
    (∀ R ∈ all_ids, in_interval k (build_global_ring all_ids R).2 R = true →
      R = find_successor_simple (sort_ids all_ids) k) ∧
    ((k ≤ find_successor_simple (sort_ids all_ids) k ∧
        ∀ m ∈ all_ids, k ≤ m → find_successor_simple (sort_ids all_ids) k ≤ m) ∨
     ((∀ m ∈ all_ids, m < k) ∧
        ∀ m ∈ all_ids, find_successor_simple (sort_ids all_ids) k ≤ m)) := by
  have hR := sortedRing_of_wellFormed h
  obtain ⟨f1, f2⟩ := find_successor_simple_min hR hk0 hk1
  have fb := hR.2.2 _ f1
  refine ⟨mem_sort_ids.mp f1, ?_, ?_, ?_⟩
  · obtain ⟨p1, p2⟩ := predecessor_min h (mem_sort_ids.mp f1)
    have pb := hR.2.2 _ p1
    have h1 := f2 _ p1
    have h2 := p2 _ f1
    rw [in_interval_core]
    omega
  · intro R hRm hin
    obtain ⟨p1, p2⟩ := predecessor_min h hRm
    have pb := hR.2.2 _ p1
    have rb := h.2.2.2 _ hRm
    have h1 := f2 _ (mem_sort_ids.mpr hRm)
    have h2 := p2 _ f1
    rw [in_interval_core] at hin
    omega
  · rcases find_successor_simple_cases hR k with ⟨_, c2, c3⟩ | ⟨c1, _, c3⟩
    · exact Or.inl ⟨c2, fun m hm => c3 m (mem_sort_ids.mpr hm)⟩
    · exact Or.inr ⟨fun m hm => c1 m (mem_sort_ids.mpr hm),
        fun m hm => c3 m (mem_sort_ids.mpr hm)⟩

/-- Witness of `find_successor_simple_owner`: ring `{1,4,9,14}`, key 10, owner 14. -/
theorem find_successor_simple_owner_witness :
    find_successor_simple (sort_ids [1, 4, 9, 14]) 10 = 14 ∧
    (find_successor_simple (sort_ids [1, 4, 9, 14]) 10 ∈ [(1 : Int), 4, 9, 14] ∧
    in_interval 10
      (build_global_ring [1, 4, 9, 14] (find_successor_simple (sort_ids [1, 4, 9, 14]) 10)).2
      (find_successor_simple (sort_ids [1, 4, 9, 14]) 10) = true ∧
    (∀ R ∈ [(1 : Int), 4, 9, 14],
      in_interval 10 (build_global_ring [1, 4, 9, 14] R).2 R = true →
      R = find_successor_simple (sort_ids [1, 4, 9, 14]) 10) ∧
    ((10 ≤ find_successor_simple (sort_ids [1, 4, 9, 14]) 10 ∧
        ∀ m ∈ [(1 : Int), 4, 9, 14], 10 ≤ m →
          find_successor_simple (sort_ids [1, 4, 9, 14]) 10 ≤ m) ∨
     ((∀ m ∈ [(1 : Int), 4, 9, 14], m < 10) ∧
        ∀ m ∈ [(1 : Int), 4, 9, 14], find_successor_simple (sort_ids [1, 4, 9, 14]) 10 ≤ m))) :=
  ⟨by decide, find_successor_simple_owner [1, 4, 9, 14] (by decide) 10 (by decide)
    (by decide)⟩

/-! ## The finger table -/

/-- Claim C5. In a well-formed ring, for every ring id `s`, `build_finger_table` fills
four entries with `finger[i].start = (s + 2^i) mod 16` and
`finger[i].node = find_successor_simple finger[i].start`, and every finger node is a
ring id. -/
theorem build_finger_table_spec (all_ids : List Int) (h : WellFormed all_ids) (s : Int)
    (hs : s ∈ all_ids) :
    (node_state all_ids s).finger = build_finger_table (sort_ids all_ids) s ∧
    (build_finger_table (sort_ids all_ids) s).length = 4 ∧
    ∀ i, i < 4 →
      ((build_finger_table (sort_ids all_ids) s).getD i default).start = (s + 2 ^ i) % 16 ∧
      ((build_finger_table (sort_ids all_ids) s).getD i default).node =
        find_successor_simple (sort_ids all_ids)
          ((build_finger_table (sort_ids all_ids) s).getD i default).start ∧
      ((build_finger_table (sort_ids all_ids) s).getD i default).node ∈ all_ids := by
  have hb := h.2.2.2 s hs
  refine ⟨rfl, by simp [build_finger_table, M], ?_⟩
  intro i hi
  have e : (build_finger_table (sort_ids all_ids) s).getD i default =
      build_finger (sort_ids all_ids) s i := node_state_finger all_ids s hi
  rw [e]
  exact ⟨build_finger_start _ hb.1 i, build_finger_node _ _ _,
    mem_sort_ids.mp (finger_node_mem h hs i)⟩

/-- Witness of `build_finger_table_spec`: ring `{1,4,9,14}`, participant 4 has the fingers
`(5,9)`, `(6,9)`, `(8,9)`, `(12,14)`. -/
theorem build_finger_table_spec_witness :
    build_finger_table (sort_ids [1, 4, 9, 14]) 4 =
      [Finger.mk 5 9, Finger.mk 6 9, Finger.mk 8 9, Finger.mk 12 14] ∧
    ((node_state [1, 4, 9, 14] 4).finger = build_finger_table (sort_ids [1, 4, 9, 14]) 4 ∧
    (build_finger_table (sort_ids [1, 4, 9, 14]) 4).length = 4 ∧
    ∀ i, i < 4 →
      ((build_finger_table (sort_ids [1, 4, 9, 14]) 4).getD i default).start
        = ((4 : Int) + 2 ^ i) % 16 ∧
      ((build_finger_table (sort_ids [1, 4, 9, 14]) 4).getD i default).node =
        find_successor_simple (sort_ids [1, 4, 9, 14])
          ((build_finger_table (sort_ids [1, 4, 9, 14]) 4).getD i default).start ∧
      ((build_finger_table (sort_ids [1, 4, 9, 14]) 4).getD i default).node
        ∈ [(1 : Int), 4, 9, 14]) :=
  ⟨by decide, build_finger_table_spec [1, 4, 9, 14] (by decide) 4 (by decide)⟩

/-! ## The choice of the next hop -/

/-- Claim C6. For every node state and every key, `closest_preceding_finger key` returns
`finger[i].node` for the greatest index `i` in `[0,4)` with `finger[i].node ≠ id`,
`finger[i].node ≠ key` and `in_interval finger[i].node id key`; when no index passes the
test it returns `successor`. -/
theorem closest_preceding_finger_spec (self : NodeState) (key : Int) :
    (∀ i, i < 4 → finger_selected self key i →
      (∀ j, i < j → j < 4 → ¬ finger_selected self key j) →
      closest_preceding_finger self key = (self.finger.getD i default).node) ∧
    ((∀ i, i < 4 → ¬ finger_selected self key i) →
      closest_preceding_finger self key = self.successor) := by
  unfold closest_preceding_finger
  rcases closest_preceding_finger_loop_spec self key M with ⟨h1, h2⟩ | ⟨i0, h1, h2, h3, h4⟩
  · exact ⟨fun i hi hsel _ => absurd hsel (h1 i hi), fun _ => h2⟩
  · refine ⟨?_, fun hall => absurd h2 (hall i0 h1)⟩
    intro i hi hsel hmax
    rcases Nat.lt_trichotomy i i0 with hlt | heq | hgt
    · exact absurd h2 (hmax i0 hlt h1)
    · rw [heq]; exact h4
    · exact absurd hsel (h3 i hgt hi)

/-- Witness of `closest_preceding_finger_spec`: participant 4 of ring `{1,4,9,14}` with
key 10 rejects the finger node 14 and returns 9. -/
theorem closest_preceding_finger_spec_witness :
    ¬ finger_selected (node_state [1, 4, 9, 14] 4) 10 3 ∧
    ((node_state [1, 4, 9, 14] 4).finger.getD 3 default).node = 14 ∧
    ((node_state [1, 4, 9, 14] 4).finger.getD 2 default).node = 9 ∧
    closest_preceding_finger (node_state [1, 4, 9, 14] 4) 10
      = ((node_state [1, 4, 9, 14] 4).finger.getD 2 default).node :=
  ⟨by decide, by decide, by decide,
    (closest_preceding_finger_spec (node_state [1, 4, 9, 14] 4) 10).1 2 (by decide) (by decide)
      (fun j h1 h2 => by
        have : j = 3 := by omega
        subst this
        decide)⟩

/-! ## One routing step -/

/-- Claim C7. For every node state and every inbound lookup message with
`path_len ≤ 30`, `handle_lookup_request` sends one message.  When
`in_interval key id successor` holds it is a REPLY to `rank_from_id initiator_id` whose
path is the old path followed by `id` and `successor`; otherwise it is a ROUTE request to
`rank_from_id (closest_preceding_finger key)` whose path is the old path followed by
`id`.  Key, sequence number, initiator id and the entries already recorded are kept. -/
theorem handle_lookup_request_spec (id_to_rank : List Int) (self : NodeState) (msg : LookupMsg)
    (hlen : msg.path.length = MAX_PATH) (hp : msg.path_len ≤ 30) :
    ∃ out, handle_lookup_request id_to_rank self msg = some out ∧
      out.msg.key = msg.key ∧ out.msg.seq = msg.seq ∧
      out.msg.initiator_id = msg.initiator_id ∧
      (∀ j, j < msg.path_len → out.msg.path[j]? = msg.path[j]?) ∧
      (in_interval msg.key self.id self.successor = true →
        out.tag = Tag.TAG_LOOKUP_REP ∧
        out.dest = rank_from_id id_to_rank msg.initiator_id ∧
        out.msg.path_len = msg.path_len + 2 ∧
        path_of out.msg = path_of msg ++ [self.id, self.successor]) ∧
      (in_interval msg.key self.id self.successor = false →
        out.tag = Tag.TAG_LOOKUP_REQ ∧
        out.dest = rank_from_id id_to_rank (closest_preceding_finger self msg.key) ∧
        out.msg.path_len = msg.path_len + 1 ∧
        path_of out.msg = path_of msg ++ [self.id]) := by
  cases hin : in_interval msg.key self.id self.successor with
  | true =>
    obtain ⟨out, e, o1, o2, o3, o4, o5, _, o7, o8, o9⟩ :=
      handle_lookup_request_reply id_to_rank self msg hlen (by simp only [MAX_PATH]; omega) hin
    exact ⟨out, e, o5, o4, o3, o9, fun _ => ⟨o1, o2, o7, o8⟩, fun hf => by simp at hf⟩
  | false =>
    obtain ⟨out, e, o1, o2, o3, o4, o5, _, o7, o8, o9⟩ :=
      handle_lookup_request_forward id_to_rank self msg hlen (by simp only [MAX_PATH]; omega)
        hin
    exact ⟨out, e, o5, o4, o3, o9, fun hf => by simp at hf, fun _ => ⟨o1, o2, o7, o8⟩⟩

/-- Witness of `handle_lookup_request_spec`: participant 4 of ring `{1,4,9,14}` handles its
own new lookup of key 10 and forwards it to the rank of id 9. -/
theorem handle_lookup_request_spec_witness :
    (handle_lookup_request (build_id_maps [1, 4, 9, 14]) (node_state [1, 4, 9, 14] 4)
      (new_lookup 4 0 10)).map (fun o => (o.dest, o.tag, path_of o.msg))
      = some (2, Tag.TAG_LOOKUP_REQ, [4]) ∧
    ∃ out, handle_lookup_request (build_id_maps [1, 4, 9, 14]) (node_state [1, 4, 9, 14] 4)
        (new_lookup 4 0 10) = some out ∧
      out.msg.key = (new_lookup 4 0 10).key ∧ out.msg.seq = (new_lookup 4 0 10).seq ∧
      out.msg.initiator_id = (new_lookup 4 0 10).initiator_id ∧
      (∀ j, j < (new_lookup 4 0 10).path_len →
        out.msg.path[j]? = (new_lookup 4 0 10).path[j]?) ∧
      (in_interval (new_lookup 4 0 10).key (node_state [1, 4, 9, 14] 4).id
          (node_state [1, 4, 9, 14] 4).successor = true →
        out.tag = Tag.TAG_LOOKUP_REP ∧
        out.dest = rank_from_id (build_id_maps [1, 4, 9, 14]) (new_lookup 4 0 10).initiator_id ∧
        out.msg.path_len = (new_lookup 4 0 10).path_len + 2 ∧
        path_of out.msg = path_of (new_lookup 4 0 10) ++
          [(node_state [1, 4, 9, 14] 4).id, (node_state [1, 4, 9, 14] 4).successor]) ∧
      (in_interval (new_lookup 4 0 10).key (node_state [1, 4, 9, 14] 4).id
          (node_state [1, 4, 9, 14] 4).successor = false →
        out.tag = Tag.TAG_LOOKUP_REQ ∧
        out.dest = rank_from_id (build_id_maps [1, 4, 9, 14])
          (closest_preceding_finger (node_state [1, 4, 9, 14] 4) (new_lookup 4 0 10).key) ∧
        out.msg.path_len = (new_lookup 4 0 10).path_len + 1 ∧
        path_of out.msg = path_of (new_lookup 4 0 10) ++ [(node_state [1, 4, 9, 14] 4).id]) :=
  ⟨by decide, handle_lookup_request_spec (build_id_maps [1, 4, 9, 14])
    (node_state [1, 4, 9, 14] 4) (new_lookup 4 0 10) (by decide) (by decide)⟩

/-! ## Every forwarding target has a rank -/

/-- Claim C10. In a well-formed ring, for the process of every rank `r`: `rank_from_id`
is not `-1` on its successor, on each of its finger nodes and on its own id (the
initiator id of its lookups), it is a rank, and `all_ids[rank_from_id id] = id` for
each of them.  Conversely `rank_from_id id = -1` for every `id` outside `[0,16)` and for
every `id` in `[0,16)` that is not the id of a process. -/
theorem rank_from_id_spec (all_ids : List Int) (h : WellFormed all_ids) (r : Nat)
    (hr : r < all_ids.length) :
    (∀ id : Int,
      (id = (node_state all_ids all_ids[r]).successor ∨
        (∃ i, i < 4 ∧ id = ((node_state all_ids all_ids[r]).finger.getD i default).node) ∨
        id = all_ids[r]) →
      rank_from_id (build_id_maps all_ids) id ≠ -1 ∧
      0 ≤ rank_from_id (build_id_maps all_ids) id ∧
      rank_from_id (build_id_maps all_ids) id < (all_ids.length : Int) ∧
      all_ids.getD (rank_from_id (build_id_maps all_ids) id).toNat 0 = id) ∧
    (∀ id : Int, (id < 0 ∨ 16 ≤ id) → rank_from_id (build_id_maps all_ids) id = -1) ∧
    (∀ id : Int, 0 ≤ id → id < 16 → id ∉ all_ids →
      rank_from_id (build_id_maps all_ids) id = -1) := by
  have hs : all_ids[r] ∈ all_ids := List.getElem_mem hr
  refine ⟨?_, ?_, ?_⟩
  · intro id hid
    have hmem : id ∈ all_ids := by
      rcases hid with h1 | ⟨i, hi, h1⟩ | h1
      · rw [h1, node_state_successor]
        exact mem_sort_ids.mp (successor_min h hs).1
      · rw [h1, node_state_finger all_ids _ hi]
        exact mem_sort_ids.mp (finger_node_mem h hs i)
      · rw [h1]; exact hs
    obtain ⟨r2, hr2, rfl⟩ := List.getElem_of_mem hmem
    rw [rank_from_id_of_rank h hr2]
    refine ⟨by omega, by omega, by omega, ?_⟩
    simp only [Int.toNat_ofNat, List.getD_eq_getElem all_ids 0 hr2]
  · intro id hid
    unfold rank_from_id
    rw [if_pos (by simp only [RING_SIZE]; omega)]
  · intro id _ _ hid
    exact rank_from_id_of_not_mem h hid

/-- Witness of `rank_from_id_spec`: ring `{1,4,9,14}` stored by rank as `[4,1,14,9]`;
the process of id 4 (rank 0) has successor 9 at rank 3, and id 5 has no rank. -/
theorem rank_from_id_spec_witness :
    rank_from_id (build_id_maps [4, 1, 14, 9]) (node_state [4, 1, 14, 9] 4).successor = 3 ∧
    rank_from_id (build_id_maps [4, 1, 14, 9]) 5 = -1 ∧
    ((∀ id : Int,
      (id = (node_state [4, 1, 14, 9] 4).successor ∨
        (∃ i, i < 4 ∧ id = ((node_state [4, 1, 14, 9] 4).finger.getD i default).node) ∨
        id = 4) →
      rank_from_id (build_id_maps [4, 1, 14, 9]) id ≠ -1 ∧
      0 ≤ rank_from_id (build_id_maps [4, 1, 14, 9]) id ∧
      rank_from_id (build_id_maps [4, 1, 14, 9]) id < 4 ∧
      [(4 : Int), 1, 14, 9].getD (rank_from_id (build_id_maps [4, 1, 14, 9]) id).toNat 0 = id) ∧
    (∀ id : Int, (id < 0 ∨ 16 ≤ id) → rank_from_id (build_id_maps [4, 1, 14, 9]) id = -1) ∧
    (∀ id : Int, 0 ≤ id → id < 16 → id ∉ [(4 : Int), 1, 14, 9] →
      rank_from_id (build_id_maps [4, 1, 14, 9]) id = -1)) :=
  ⟨by decide, by decide, rank_from_id_spec [4, 1, 14, 9] (by decide) 0 (by decide)⟩

/-! ## The result array does not depend on the order of the replies -/

theorem length_store_all (rs : List LookupMsg) (slots : List LookupMsg) :
    (store_all slots rs).length = slots.length := by
  induction rs generalizing slots with
  | nil => rfl
  | cons a t ih =>
    show (store_all (slots.set a.seq.toNat a) t).length = _
    rw [ih, List.length_set]

/-- Slot `i` after the stores of `rs`: a reply of `rs` whose sequence number is `i`, or
the old content when no reply has the sequence number `i`. -/
theorem store_all_slot (rs : List LookupMsg) (slots : List LookupMsg) (i : Nat)
    (hi : i < slots.length) :
    (∃ m ∈ rs, m.seq.toNat = i ∧ (store_all slots rs)[i]? = some m) ∨
    ((∀ m ∈ rs, m.seq.toNat ≠ i) ∧ (store_all slots rs)[i]? = slots[i]?) := by
  induction rs generalizing slots with
  | nil =>
    right
    exact ⟨fun m hm => absurd hm (List.not_mem_nil m), rfl⟩
  | cons a t ih =>
    have hstep : store_all slots (a :: t) = store_all (slots.set a.seq.toNat a) t := rfl
    rw [hstep]
    rcases ih (slots.set a.seq.toNat a) (by rw [List.length_set]; exact hi) with
      ⟨m, hm, h1, h2⟩ | ⟨h1, h2⟩
    · left
      exact ⟨m, List.mem_cons_of_mem _ hm, h1, h2⟩
    · by_cases ha : a.seq.toNat = i
      · left
        refine ⟨a, List.mem_cons_self _ _, ha, ?_⟩
        rw [h2, List.getElem?_set, if_pos ha, if_pos (by omega)]
      · right
        refine ⟨?_, ?_⟩
        · intro m hm
          rcases List.mem_cons.mp hm with h3 | h3
          · rw [h3]; exact ha
          · exact h1 m h3
        · rw [h2, List.getElem?_set, if_neg ha]

/-- One iteration of the service loop on a REPLY whose store is inside the array. -/
theorem service_step_reply (world_rank world_size : Nat) (id_to_rank : List Int)
    (self : NodeState) (nr_lookups : Nat) (st : ServiceState) (m : LookupMsg)
    (h0 : 0 ≤ m.seq) (h1 : m.seq < (st.messages.length : Int)) :
    ∃ st1 outs, service_step world_rank world_size id_to_rank self nr_lookups st
        Tag.TAG_LOOKUP_REP m = some (st1, outs) ∧
      st1.messages = st.messages.set m.seq.toNat m ∧
      st1.lookups_done = st.lookups_done + 1 ∧
      st1.done_received = st.done_received ∧
      st1.is_done = (st.is_done || (!st.is_done && decide (st.lookups_done + 1 = nr_lookups))) ∧
      st1.exited = (st1.is_done && decide ((st.done_received : Int) = (world_size : Int) - 1)) := by
  unfold service_step store_reply
  simp [h0, h1]

/-- The service loop on a sequence of REPLY messages that does not exceed the number of
local lookups: every reply is stored, in the order of arrival. -/
theorem run_service_replies (world_rank world_size : Nat) (id_to_rank : List Int)
    (self : NodeState) (nr_lookups : Nat) (rs : List LookupMsg) :
    ∀ st : ServiceState, st.is_done = false → st.exited = false →
      st.lookups_done + rs.length ≤ nr_lookups →
      (∀ m ∈ rs, 0 ≤ m.seq ∧ m.seq < (st.messages.length : Int)) →
      ∃ st2, run_service world_rank world_size id_to_rank self nr_lookups st
          (rs.map (fun m => (Tag.TAG_LOOKUP_REP, m))) = some st2 ∧
        st2.messages = store_all st.messages rs ∧
        st2.lookups_done = st.lookups_done + rs.length := by
  induction rs with
  | nil =>
    intro st _ _ _ _
    exact ⟨st, rfl, rfl, rfl⟩
  | cons a t ih =>
    intro st hd he hl hr
    obtain ⟨ha0, ha1⟩ := hr a (List.mem_cons_self _ _)
    obtain ⟨st1, outs, e, s1, s2, _, s4, s5⟩ :=
      service_step_reply world_rank world_size id_to_rank self nr_lookups st a ha0 ha1
    have hrun : run_service world_rank world_size id_to_rank self nr_lookups st
        ((a :: t).map (fun m => (Tag.TAG_LOOKUP_REP, m))) =
        run_service world_rank world_size id_to_rank self nr_lookups st1
          (t.map (fun m => (Tag.TAG_LOOKUP_REP, m))) := by
      rw [List.map_cons, run_service, he]
      simp only [e]
      rfl
    rw [hrun]
    cases t with
    | nil =>
      refine ⟨st1, rfl, ?_, ?_⟩
      · rw [s1]; rfl
      · rw [s2]; rfl
    | cons b u =>
      have hlen : st.lookups_done + 1 ≠ nr_lookups := by
        simp only [List.length_cons] at hl
        omega
      have hd1 : st1.is_done = false := by
        rw [s4, hd]
        simp [hlen]
      have he1 : st1.exited = false := by
        rw [s5, hd1]
        rfl
      obtain ⟨st2, r1, r2, r3⟩ := ih st1 hd1 he1
        (by rw [s2]; simp only [List.length_cons] at hl ⊢; omega)
        (by
          intro m hm
          rw [s1, List.length_set]
          exact hr m (List.mem_cons_of_mem _ hm))
      refine ⟨st2, r1, ?_, ?_⟩
      · rw [r2, s1]; rfl
      · rw [r3, s2]
        simp only [List.length_cons]
        omega

/-- The array filled by `nr` replies whose sequence numbers are exactly `0 .. nr - 1`:
slot `i` holds the reply with `seq = i`. -/
theorem store_all_complete (nr : Nat) (slots rs : List LookupMsg) (hs : slots.length = nr)
    (hseq : (rs.map (fun m => m.seq)).Perm (seq_numbers nr)) :
    ∀ i : Nat, i < nr → ∃ m ∈ rs, m.seq = (i : Int) ∧ (store_all slots rs)[i]? = some m := by
  intro i hi
  have hall : ∀ m ∈ rs, 0 ≤ m.seq ∧ m.seq < (nr : Int) := by
    intro m hm
    have : m.seq ∈ seq_numbers nr :=
      hseq.mem_iff.mp (List.mem_map_of_mem _ hm)
    unfold seq_numbers at this
    obtain ⟨j, hj, hje⟩ := List.mem_map.mp this
    rw [List.mem_range] at hj
    omega
  rcases store_all_slot rs slots i (by omega) with ⟨m, hm, h1, h2⟩ | ⟨h1, _⟩
  · have := hall m hm
    exact ⟨m, hm, by omega, h2⟩
  · exfalso
    have : (i : Int) ∈ rs.map (fun m => m.seq) :=
      hseq.mem_iff.mpr (List.mem_map.mpr ⟨i, List.mem_range.mpr hi, rfl⟩)
    obtain ⟨m, hm, hme⟩ := List.mem_map.mp this
    apply h1 m hm
    omega

/-- Claim C8. For every number `nr` of local lookups and every two orders of arrival
`rs1`, `rs2` of the same `nr` REPLY messages with sequence numbers exactly
`0 .. nr - 1`, the service loop ends with the same result array: slot `i` holds the
reply with `seq = i`.  The report has `nr` lines and, for both orders of arrival, line
`i` is the line of the reply with `seq = i`; when every reply carries the input key of
its sequence number and a path inside the array, line `i` is
`Lookup <keys[i]>: <id0> -> ... -> <idN>` with the path of that reply: the lines come in
the order of the input keys. -/
theorem report_order_independent (world_rank world_size : Nat) (id_to_rank : List Int)
    (self : NodeState) (nr : Nat) (slots rs1 rs2 : List LookupMsg)
    (hs : slots.length = nr) (hperm : rs1.Perm rs2)
    (hseq : (rs1.map (fun m => m.seq)).Perm (seq_numbers nr)) :
    ∃ st1 st2,
      run_service world_rank world_size id_to_rank self nr (service_init slots)
        (rs1.map (fun m => (Tag.TAG_LOOKUP_REP, m))) = some st1 ∧
      run_service world_rank world_size id_to_rank self nr (service_init slots)
        (rs2.map (fun m => (Tag.TAG_LOOKUP_REP, m))) = some st2 ∧
      st1.messages = st2.messages ∧ st1.messages.length = nr ∧
      (∀ i : Nat, i < nr → ∃ m ∈ rs1, m.seq = (i : Int) ∧ st1.messages[i]? = some m) ∧
      report st1.messages = report st2.messages ∧
      (report st1.messages).length = nr ∧ (report st2.messages).length = nr ∧
      (∀ i : Nat, i < nr → ∃ m ∈ rs1, m.seq = (i : Int) ∧
        (report st1.messages)[i]? = some (report_line m) ∧
        (report st2.messages)[i]? = some (report_line m)) ∧
      (∀ keys : List Int,
        (∀ m ∈ rs1, m.key = keys.getD m.seq.toNat 0 ∧ 0 < m.path_len ∧
          m.path_len ≤ MAX_PATH) →
        ∀ i : Nat, i < nr → ∃ m ∈ rs1, m.seq = (i : Int) ∧
          (report st1.messages)[i]? = some (some ("Lookup " ++ toString (keys.getD i 0) ++ ": " ++
            String.intercalate " -> " ((path_of m).map toString) ++ "\n")) ∧
          (report st2.messages)[i]? = some (some ("Lookup " ++ toString (keys.getD i 0) ++ ": " ++
            String.intercalate " -> " ((path_of m).map toString) ++ "\n"))) := by
  have hseq2 : (rs2.map (fun m => m.seq)).Perm (seq_numbers nr) :=
    (hperm.symm.map _).trans hseq
  have hlen1 : rs1.length = nr := by
    have := hseq.length_eq
    simpa [seq_numbers] using this
  have hlen2 : rs2.length = nr := by rw [← hperm.length_eq]; exact hlen1
  have hnd : (rs1.map (fun m => m.seq)).Nodup := by
    rw [hseq.nodup_iff]
    exact (List.nodup_range nr).map (fun a b hab => by simpa using hab)
  have hall : ∀ rs : List LookupMsg,
      (rs.map (fun m => m.seq)).Perm (seq_numbers nr) →
      ∀ m ∈ rs, 0 ≤ m.seq ∧ m.seq < ((service_init slots).messages.length : Int) := by
    intro rs hp m hm
    have : m.seq ∈ seq_numbers nr :=
      hp.mem_iff.mp (List.mem_map_of_mem _ hm)
    unfold seq_numbers at this
    obtain ⟨j, hj, hje⟩ := List.mem_map.mp this
    rw [List.mem_range] at hj
    show 0 ≤ m.seq ∧ m.seq < (slots.length : Int)
    omega
  obtain ⟨st1, e1, m1, _⟩ := run_service_replies world_rank world_size id_to_rank self nr rs1
    (service_init slots) rfl rfl (by show 0 + rs1.length ≤ nr; omega) (hall rs1 hseq)
  obtain ⟨st2, e2, m2, _⟩ := run_service_replies world_rank world_size id_to_rank self nr rs2
    (service_init slots) rfl rfl (by show 0 + rs2.length ≤ nr; omega) (hall rs2 hseq2)
  have c1 := store_all_complete nr slots rs1 hs hseq
  have c2 := store_all_complete nr slots rs2 hs hseq2
  have hm1 : st1.messages = store_all slots rs1 := m1
  have hm2 : st2.messages = store_all slots rs2 := m2
  have heq : st1.messages = st2.messages := by
    rw [hm1, hm2]
    apply List.ext_getElem?
    intro i
    by_cases hi : i < nr
    · obtain ⟨a, ha, ha1, ha2⟩ := c1 i hi
      obtain ⟨b, hb, hb1, hb2⟩ := c2 i hi
      rw [ha2, hb2]
      have hb' : b ∈ rs1 := hperm.mem_iff.mpr hb
      have : a = b := List.inj_on_of_nodup_map hnd ha hb' (by rw [ha1, hb1])
      rw [this]
    · have l1 : (store_all slots rs1).length ≤ i := by rw [length_store_all]; omega
      have l2 : (store_all slots rs2).length ≤ i := by rw [length_store_all]; omega
      rw [List.getElem?_eq_none l1, List.getElem?_eq_none l2]
  have hlen : st1.messages.length = nr := by rw [hm1, length_store_all, hs]
  have hline : ∀ i : Nat, i < nr → ∃ m ∈ rs1, m.seq = (i : Int) ∧
      (report st1.messages)[i]? = some (report_line m) ∧
      (report st2.messages)[i]? = some (report_line m) := by
    intro i hi
    obtain ⟨m, hm, hms, hmi⟩ := c1 i hi
    have h1 : (report st1.messages)[i]? = some (report_line m) := by
      unfold report
      rw [List.getElem?_map, hm1, hmi]
      rfl
    refine ⟨m, hm, hms, h1, ?_⟩
    rw [← heq]
    exact h1
  refine ⟨st1, st2, e1, e2, heq, hlen, ?_, ?_, ?_, ?_, hline, ?_⟩
  · intro i hi
    rw [hm1]
    exact c1 i hi
  · rw [heq]
  · unfold report
    rw [List.length_map, hlen]
  · unfold report
    rw [List.length_map, ← heq, hlen]
  · intro keys hkeys i hi
    obtain ⟨m, hm, hms, h1, h2⟩ := hline i hi
    obtain ⟨k1, k2, k3⟩ := hkeys m hm
    have hki : m.key = keys.getD i 0 := by
      rw [k1, hms]
      rfl
    have hrl : report_line m = some ("Lookup " ++ toString (keys.getD i 0) ++ ": " ++
        String.intercalate " -> " ((path_of m).map toString) ++ "\n") := by
      unfold report_line
      rw [if_neg (by omega), hki]
    rw [hrl] at h1 h2
    exact ⟨m, hm, hms, h1, h2⟩

/-- Witness of `report_order_independent`: participant 4 of ring `{1,4,9,14}` with the
input keys 10 and 4; its two replies arrive in the order of their sequence numbers or in
the opposite order, and the report is `Lookup 10: 4 -> 9 -> 14`, then
`Lookup 4: 4 -> 14 -> 1 -> 4`, both times. -/
theorem report_order_independent_witness :
    (lookup [1, 4, 9, 14] 4 1 0 10).map (fun o => o.msg)
      = some (LookupMsg.mk 4 4 0 10 (4 :: 9 :: 14 :: List.replicate 29 0) 3) ∧
    (lookup [1, 4, 9, 14] 4 1 1 4).map (fun o => o.msg)
      = some (LookupMsg.mk 4 4 1 4 (4 :: 14 :: 1 :: 4 :: List.replicate 28 0) 4) ∧
    (run_service 1 4 (build_id_maps [1, 4, 9, 14]) (node_state [1, 4, 9, 14] 4) 2
        (service_init [default, default])
        ([LookupMsg.mk 4 4 0 10 (4 :: 9 :: 14 :: List.replicate 29 0) 3,
          LookupMsg.mk 4 4 1 4 (4 :: 14 :: 1 :: 4 :: List.replicate 28 0) 4].map
          (fun m => (Tag.TAG_LOOKUP_REP, m)))).map (fun st => report st.messages)
      = some [some "Lookup 10: 4 -> 9 -> 14\n", some "Lookup 4: 4 -> 14 -> 1 -> 4\n"] ∧
    (run_service 1 4 (build_id_maps [1, 4, 9, 14]) (node_state [1, 4, 9, 14] 4) 2
        (service_init [default, default])
        ([LookupMsg.mk 4 4 1 4 (4 :: 14 :: 1 :: 4 :: List.replicate 28 0) 4,
          LookupMsg.mk 4 4 0 10 (4 :: 9 :: 14 :: List.replicate 29 0) 3].map
          (fun m => (Tag.TAG_LOOKUP_REP, m)))).map (fun st => report st.messages)
      = some [some "Lookup 10: 4 -> 9 -> 14\n", some "Lookup 4: 4 -> 14 -> 1 -> 4\n"] ∧
    ∃ st1 st2,
      run_service 1 4 (build_id_maps [1, 4, 9, 14]) (node_state [1, 4, 9, 14] 4) 2
        (service_init [default, default])
        ([LookupMsg.mk 4 4 0 10 (4 :: 9 :: 14 :: List.replicate 29 0) 3,
          LookupMsg.mk 4 4 1 4 (4 :: 14 :: 1 :: 4 :: List.replicate 28 0) 4].map
          (fun m => (Tag.TAG_LOOKUP_REP, m))) = some st1 ∧
      run_service 1 4 (build_id_maps [1, 4, 9, 14]) (node_state [1, 4, 9, 14] 4) 2
        (service_init [default, default])
        ([LookupMsg.mk 4 4 1 4 (4 :: 14 :: 1 :: 4 :: List.replicate 28 0) 4,
          LookupMsg.mk 4 4 0 10 (4 :: 9 :: 14 :: List.replicate 29 0) 3].map
          (fun m => (Tag.TAG_LOOKUP_REP, m))) = some st2 ∧
      st1.messages = st2.messages ∧ st1.messages.length = 2 ∧
      (report st1.messages).length = 2 ∧ (report st2.messages).length = 2 :=
  ⟨by decide, by decide, by decide, by decide,
    match report_order_independent 1 4 (build_id_maps [1, 4, 9, 14])
      (node_state [1, 4, 9, 14] 4) 2 [default, default]
      [LookupMsg.mk 4 4 0 10 (4 :: 9 :: 14 :: List.replicate 29 0) 3,
        LookupMsg.mk 4 4 1 4 (4 :: 14 :: 1 :: 4 :: List.replicate 28 0) 4]
      [LookupMsg.mk 4 4 1 4 (4 :: 14 :: 1 :: 4 :: List.replicate 28 0) 4,
        LookupMsg.mk 4 4 0 10 (4 :: 9 :: 14 :: List.replicate 29 0) 3] rfl
      (List.Perm.swap _ _ _) (by decide) with
    | ⟨st1, st2, a1, a2, a3, a4, _, _, a7, a8, _, _⟩ => ⟨st1, st2, a1, a2, a3, a4, a7, a8⟩⟩

/-! ## The DONE handshake with no lookup at all -/

/-- Claim C9, evaluated on the runs in which no process issues a lookup (one process with
id 5, and two processes with ids 1 and 4): in the initial global state no message is in
flight, every process is still in its service loop, and no step is enabled. -/
theorem service_loop_blocks_without_lookups :
    (init_global [5] [[]] = some (Global.mk [service_init []] []) ∧
      (service_init []).exited = false ∧
      ∀ r s, global_step [5] [[]] (Global.mk [service_init []] []) r s = none) ∧
    (init_global [1, 4] [[], []] = some (Global.mk [service_init [], service_init []] []) ∧
      ∀ r s, global_step [1, 4] [[], []]
        (Global.mk [service_init [], service_init []] []) r s = none) := by
  refine ⟨⟨by decide, rfl, ?_⟩, by decide, ?_⟩
  · intro r s
    unfold global_step
    cases hr : (Global.mk [service_init []] []).procs[r]? with
    | none => rfl
    | some st =>
      by_cases he : st.exited = true
      · simp [he]
      · simp [he]
  · intro r s
    unfold global_step
    cases hr : (Global.mk [service_init [], service_init []] []).procs[r]? with
    | none => rfl
    | some st =>
      by_cases he : st.exited = true
      · simp [he]
      · simp [he]

/-! ## Successor and predecessor -/

/-- Claim C11. In a well-formed ring, for the process whose id is `s`,
`build_global_ring` sets `successor` to the least ring id above `s`, or to the least
ring id when none is above, and `predecessor` to the greatest ring id below `s`, or to
the greatest ring id when none is below; in a ring of one process both are `s`; and
the predecessor computed at `successor(s)` is `s`. -/
theorem build_global_ring_spec (all_ids : List Int) (h : WellFormed all_ids) (s : Int)
    (hs : s ∈ all_ids) :
    (node_state all_ids s).successor = (build_global_ring all_ids s).1 ∧
    (node_state all_ids s).predecessor = (build_global_ring all_ids s).2 ∧
    (build_global_ring all_ids s).1 ∈ all_ids ∧
    (build_global_ring all_ids s).2 ∈ all_ids ∧
    ((s < (build_global_ring all_ids s).1 ∧
        ∀ m ∈ all_ids, s < m → (build_global_ring all_ids s).1 ≤ m) ∨
      ((∀ m ∈ all_ids, m ≤ s) ∧ ∀ m ∈ all_ids, (build_global_ring all_ids s).1 ≤ m)) ∧
    (((build_global_ring all_ids s).2 < s ∧
        ∀ m ∈ all_ids, m < s → m ≤ (build_global_ring all_ids s).2) ∨
      ((∀ m ∈ all_ids, s ≤ m) ∧ ∀ m ∈ all_ids, m ≤ (build_global_ring all_ids s).2)) ∧
    (all_ids.length = 1 →
      (build_global_ring all_ids s).1 = s ∧ (build_global_ring all_ids s).2 = s) ∧
    (build_global_ring all_ids (build_global_ring all_ids s).1).2 = s := by
  have hR := sortedRing_of_wellFormed h
  have hb := h.2.2.2 s hs
  obtain ⟨s1, s2⟩ := successor_min h hs
  obtain ⟨p1, p2⟩ := predecessor_min h hs
  have sb := hR.2.2 _ s1
  have pb := hR.2.2 _ p1
  refine ⟨rfl, rfl, mem_sort_ids.mp s1, mem_sort_ids.mp p1, ?_, ?_, ?_, ?_⟩
  · by_cases hgt : s < (build_global_ring all_ids s).1
    · left
      refine ⟨hgt, ?_⟩
      intro m hm hsm
      have := s2 m (mem_sort_ids.mpr hm)
      have := h.2.2.2 m hm
      omega
    · right
      refine ⟨?_, ?_⟩
      · intro m hm
        have := s2 m (mem_sort_ids.mpr hm)
        have := h.2.2.2 m hm
        omega
      · intro m hm
        have := s2 m (mem_sort_ids.mpr hm)
        have := h.2.2.2 m hm
        omega
  · by_cases hlt : (build_global_ring all_ids s).2 < s
    · left
      refine ⟨hlt, ?_⟩
      intro m hm hms
      have := p2 m (mem_sort_ids.mpr hm)
      have := h.2.2.2 m hm
      omega
    · right
      refine ⟨?_, ?_⟩
      · intro m hm
        have := p2 m (mem_sort_ids.mpr hm)
        have := h.2.2.2 m hm
        omega
      · intro m hm
        have := p2 m (mem_sort_ids.mpr hm)
        have := h.2.2.2 m hm
        omega
  · intro hone
    obtain ⟨a, ha⟩ := List.length_eq_one.mp hone
    have e1 := mem_sort_ids.mp s1
    have e2 := mem_sort_ids.mp p1
    subst ha
    rw [List.mem_singleton] at hs e1 e2
    exact ⟨e1.trans hs.symm, e2.trans hs.symm⟩
  · obtain ⟨q1, q2⟩ := predecessor_min h (mem_sort_ids.mp s1)
    have qb := hR.2.2 _ q1
    have h1 := q2 s (mem_sort_ids.mpr hs)
    have h2 := s2 _ q1
    omega

/-- Witness of `build_global_ring_spec`: in ring `{1,4,9,14}` the process of id 14 has
successor 1 and predecessor 9. -/
theorem build_global_ring_spec_witness :
    build_global_ring [1, 4, 9, 14] 14 = (1, 9) ∧
    ((node_state [1, 4, 9, 14] 14).successor = (build_global_ring [1, 4, 9, 14] 14).1 ∧
    (node_state [1, 4, 9, 14] 14).predecessor = (build_global_ring [1, 4, 9, 14] 14).2 ∧
    (build_global_ring [1, 4, 9, 14] 14).1 ∈ [(1 : Int), 4, 9, 14] ∧
    (build_global_ring [1, 4, 9, 14] 14).2 ∈ [(1 : Int), 4, 9, 14] ∧
    ((14 < (build_global_ring [1, 4, 9, 14] 14).1 ∧
        ∀ m ∈ [(1 : Int), 4, 9, 14], 14 < m → (build_global_ring [1, 4, 9, 14] 14).1 ≤ m) ∨
      ((∀ m ∈ [(1 : Int), 4, 9, 14], m ≤ 14) ∧
        ∀ m ∈ [(1 : Int), 4, 9, 14], (build_global_ring [1, 4, 9, 14] 14).1 ≤ m)) ∧
    (((build_global_ring [1, 4, 9, 14] 14).2 < 14 ∧
        ∀ m ∈ [(1 : Int), 4, 9, 14], m < 14 → m ≤ (build_global_ring [1, 4, 9, 14] 14).2) ∨
      ((∀ m ∈ [(1 : Int), 4, 9, 14], 14 ≤ m) ∧
        ∀ m ∈ [(1 : Int), 4, 9, 14], m ≤ (build_global_ring [1, 4, 9, 14] 14).2)) ∧
    ([(1 : Int), 4, 9, 14].length = 1 →
      (build_global_ring [1, 4, 9, 14] 14).1 = 14 ∧ (build_global_ring [1, 4, 9, 14] 14).2 = 14) ∧
    (build_global_ring [1, 4, 9, 14] (build_global_ring [1, 4, 9, 14] 14).1).2 = 14) :=
  ⟨by decide, build_global_ring_spec [1, 4, 9, 14] (by decide) 14 (by decide)⟩

/-! ## Monotonic finger table -/

/-- The node of finger `i` of a ring member is the ring id at the least clockwise
distance from the start `(s + 2^i) mod 16`. -/
theorem finger_node_min {all_ids : List Int} (h : WellFormed all_ids) {s : Int}
    (hs : s ∈ all_ids) (i : Nat) :
    (build_finger (sort_ids all_ids) s i).node ∈ sort_ids all_ids ∧
    ∀ m ∈ sort_ids all_ids,
      ((build_finger (sort_ids all_ids) s i).node - (s + 2 ^ i) % 16) % 16
        ≤ (m - (s + 2 ^ i) % 16) % 16 := by
  have hR := sortedRing_of_wellFormed h
  have hb := h.2.2.2 s hs
  rw [build_finger_node, build_finger_start _ hb.1]
  exact find_successor_simple_min hR (Int.emod_nonneg _ (by decide))
    (Int.emod_lt_of_pos _ (by decide))

/-- Claim C12. In a well-formed ring the finger table of every ring member `s` is
monotonic: the clockwise offset `(start_i - s) mod 16` strictly increases with `i`, and
the clockwise position `(node_i - s - 1) mod 16` of the finger nodes, counted from
`s + 1`, is non-decreasing in `i`. -/
theorem finger_table_monotonic (all_ids : List Int) (h : WellFormed all_ids) (s : Int)
    (hs : s ∈ all_ids) (i j : Nat) (hij : i < j) (hj : j < 4) :
    (((node_state all_ids s).finger.getD i default).start - s) % 16
      < (((node_state all_ids s).finger.getD j default).start - s) % 16 ∧
    (((node_state all_ids s).finger.getD i default).node - s - 1) % 16
      ≤ (((node_state all_ids s).finger.getD j default).node - s - 1) % 16 := by
  have hR := sortedRing_of_wellFormed h
  have hb := h.2.2.2 s hs
  have hsS := mem_sort_ids.mpr hs
  rw [node_state_finger all_ids s (show i < M by unfold M; omega),
    node_state_finger all_ids s (show j < M by unfold M; omega),
    build_finger_start _ hb.1, build_finger_start _ hb.1]
  obtain ⟨a1, a2⟩ := finger_node_min h hs i
  obtain ⟨b1, b2⟩ := finger_node_min h hs j
  have ab := hR.2.2 _ a1
  have bb := hR.2.2 _ b1
  have h1 := a2 _ b1
  have h2 := a2 _ hsS
  have h3 := b2 _ a1
  have h4 := b2 _ hsS
  generalize (build_finger (sort_ids all_ids) s i).node = ni at *
  generalize (build_finger (sort_ids all_ids) s j).node = nj at *
  interval_cases j <;> interval_cases i <;> simp only [pow_zero, pow_one] at * <;>
    norm_num at * <;> omega

/-- Witness of `finger_table_monotonic`: fingers 0 and 3 of participant 4 in ring
`{1,4,9,14}`. -/
theorem finger_table_monotonic_witness :
    (((node_state [1, 4, 9, 14] 4).finger.getD 0 default).start - 4) % 16
      < (((node_state [1, 4, 9, 14] 4).finger.getD 3 default).start - 4) % 16 ∧
    (((node_state [1, 4, 9, 14] 4).finger.getD 0 default).node - 4 - 1) % 16
      ≤ (((node_state [1, 4, 9, 14] 4).finger.getD 3 default).node - 4 - 1) % 16 :=
  finger_table_monotonic [1, 4, 9, 14] (by decide) 4 (by decide) 0 3 (by decide) (by decide)

/-! ## Progress of a forwarded lookup -/

/-- The instrumented scan returns what `closest_preceding_finger` returns, the fallback
being `successor`; every call it records has `start = self.id` and `end = key`. -/
theorem closest_preceding_finger_scan_spec (self : NodeState) (key : Int) (n : Nat) :
    closest_preceding_finger_loop self key n =
      (closest_preceding_finger_scan self key n).2.getD self.successor ∧
    (∀ c ∈ (closest_preceding_finger_scan self key n).1, c.2.1 = self.id ∧ c.2.2 = key) ∧
    ((closest_preceding_finger_scan self key n).2 = none ↔
      ∀ i, i < n → ¬ finger_selected self key i) := by
  induction n with
  | zero =>
    refine ⟨rfl, ?_, ?_⟩
    · intro c hc
      exact absurd hc (List.not_mem_nil c)
    · exact ⟨fun _ i hi => absurd hi (Nat.not_lt_zero i), fun _ => rfl⟩
  | succ n ih =>
    obtain ⟨ih1, ih2, ih3⟩ := ih
    rw [closest_preceding_finger_loop, closest_preceding_finger_scan]
    by_cases hskip : self.id = (self.finger.getD n default).node ∨
        (self.finger.getD n default).node = key
    · simp only [hskip, if_true]
      refine ⟨ih1, ih2, ?_⟩
      rw [ih3]
      constructor
      · intro hall i hi
        rcases Nat.lt_succ_iff_lt_or_eq.mp hi with h1 | h1
        · exact hall i h1
        · subst h1
          intro hsel
          rcases hskip with h2 | h2
          · exact hsel.1 h2.symm
          · exact hsel.2.1 h2
      · intro hall i hi
        exact hall i (by omega)
    · simp only [hskip, if_false]
      cases hin : in_interval (self.finger.getD n default).node self.id key with
      | true =>
        simp only [if_true]
        refine ⟨rfl, ?_, ?_⟩
        · intro c hc
          rw [List.mem_singleton] at hc
          subst hc
          exact ⟨rfl, rfl⟩
        · constructor
          · intro hcontra
            exact absurd hcontra (by simp)
          · intro hall
            exfalso
            apply hall n (Nat.lt_succ_self n)
            exact ⟨fun e => hskip (Or.inl e.symm), fun e => hskip (Or.inr e), hin⟩
      | false =>
        simp only [Bool.false_eq_true, if_false]
        refine ⟨ih1, ?_, ?_⟩
        · intro c hc
          rcases List.mem_cons.mp hc with h1 | h1
          · subst h1
            exact ⟨rfl, rfl⟩
          · exact ih2 c h1
        · rw [ih3]
          constructor
          · intro hall i hi
            rcases Nat.lt_succ_iff_lt_or_eq.mp hi with h1 | h1
            · exact hall i h1
            · subst h1
              intro hsel
              rw [hsel.2.2] at hin
              exact absurd hin (by simp)
          · intro hall i hi
            exact hall i (by omega)

/-- Claim C15, at the input where it fails: in ring `{1,4,9,14}` participant 4 forwards
the lookup of key 4 to `closest_preceding_finger 4 = 14`, and the distance
`(k - t) mod 16 = 6` is not below `(k - s) mod 16 = 0`. -/
theorem forward_distance_counterexample :
    WellFormed [1, 4, 9, 14] ∧ (4 : Int) ∈ [(1 : Int), 4, 9, 14] ∧
    in_interval 4 4 (node_state [1, 4, 9, 14] 4).successor = false ∧
    closest_preceding_finger (node_state [1, 4, 9, 14] 4) 4 = 14 ∧
    ¬ ((4 - closest_preceding_finger (node_state [1, 4, 9, 14] 4) 4) % 16 < ((4 : Int) - 4) % 16) := by
  decide

/-- Claim C15, amended. In a well-formed ring, when participant `s` forwards the lookup
of a key `k` in `[0,16)`, the chosen node `t = closest_preceding_finger k` is a ring id
with `(k - t - 1) mod 16 < (k - s - 1) mod 16`, and when `k ≠ s` also
`(k - t) mod 16 < (k - s) mod 16`. -/
theorem forward_distance_decreases (all_ids : List Int) (h : WellFormed all_ids) (s k : Int)
    (hs : s ∈ all_ids) (hk0 : 0 ≤ k) (hk1 : k < 16)
    (hin : in_interval k (node_state all_ids s).id (node_state all_ids s).successor = false) :
    closest_preceding_finger (node_state all_ids s) k ∈ all_ids ∧
    (k - closest_preceding_finger (node_state all_ids s) k - 1) % 16 < (k - s - 1) % 16 ∧
    (k ≠ s →
      (k - closest_preceding_finger (node_state all_ids s) k) % 16 < (k - s) % 16) := by
  have hb := h.2.2.2 s hs
  obtain ⟨i, h1, h2, _, h4⟩ := forward_selected h hs hin
  have hmem := finger_node_mem h hs i
  rw [h4]
  have hbt := h.2.2.2 _ (mem_sort_ids.mp hmem)
  unfold finger_selected at h2
  rw [node_state_finger all_ids s h1, node_state_id, in_interval_core] at h2
  refine ⟨mem_sort_ids.mp hmem, ?_, ?_⟩
  · omega
  · intro hks
    omega

/-- Witness of `forward_distance_decreases`: participant 4 of ring `{1,4,9,14}` forwards
key 10 to 9. -/
theorem forward_distance_decreases_witness :
    closest_preceding_finger (node_state [1, 4, 9, 14] 4) 10 ∈ [(1 : Int), 4, 9, 14] ∧
    (10 - closest_preceding_finger (node_state [1, 4, 9, 14] 4) 10 - 1) % 16
      < ((10 : Int) - 4 - 1) % 16 ∧
    ((10 : Int) ≠ 4 →
      (10 - closest_preceding_finger (node_state [1, 4, 9, 14] 4) 10) % 16
        < ((10 : Int) - 4) % 16) :=
  forward_distance_decreases [1, 4, 9, 14] (by decide) 4 10 (by decide) (by decide) (by decide)
    (by decide)

/-- A scan that records no call of `in_interval` did not return from inside the loop. -/
theorem closest_preceding_finger_scan_nil (self : NodeState) (key : Int) (n : Nat)
    (hempty : (closest_preceding_finger_scan self key n).1 = []) :
    (closest_preceding_finger_scan self key n).2 = none := by
  induction n with
  | zero => rfl
  | succ n ih =>
    rw [closest_preceding_finger_scan] at hempty ⊢
    split_ifs at hempty ⊢ with h1 h2
    exact ih hempty

/-! ## The furthest finger that precedes the key -/

/-- The clockwise position of the finger nodes of a ring member, counted from `s + 1`,
does not decrease with the index. -/
theorem finger_position_mono {all_ids : List Int} (h : WellFormed all_ids) {s : Int}
    (hs : s ∈ all_ids) {i j : Nat} (hij : i < j) (hj : j < 4) :
    ((build_finger (sort_ids all_ids) s i).node - s - 1) % 16
      ≤ ((build_finger (sort_ids all_ids) s j).node - s - 1) % 16 := by
  have hR := sortedRing_of_wellFormed h
  have hb := h.2.2.2 s hs
  have hsS := mem_sort_ids.mpr hs
  obtain ⟨a1, a2⟩ := finger_node_min h hs i
  obtain ⟨b1, b2⟩ := finger_node_min h hs j
  have ab := hR.2.2 _ a1
  have bb := hR.2.2 _ b1
  have h1 := a2 _ b1
  have h2 := a2 _ hsS
  have h3 := b2 _ a1
  have h4 := b2 _ hsS
  generalize (build_finger (sort_ids all_ids) s i).node = ni at *
  generalize (build_finger (sort_ids all_ids) s j).node = nj at *
  interval_cases j <;> interval_cases i <;> simp only [pow_zero, pow_one] at * <;>
    norm_num at * <;> omega

/-- Claim C16. In a well-formed ring, for every ring member `s` and key `k` in `[0,16)`:
when some finger node passes the test of `closest_preceding_finger` (it differs from `s`
and from `k` and lies in the interval from `s` to `k`), `closest_preceding_finger k`
returns such a finger node, and no finger node passing the test has a greater clockwise
offset from `s`.  For `k ≠ s` the test is `0 < (node - s) mod 16 < (k - s) mod 16`. -/
theorem closest_preceding_finger_furthest (all_ids : List Int) (h : WellFormed all_ids)
    (s k : Int) (hs : s ∈ all_ids) (hk0 : 0 ≤ k) (hk1 : k < 16)
    (hex : ∃ i, i < 4 ∧ finger_selected (node_state all_ids s) k i) :
    (∃ j, j < 4 ∧ finger_selected (node_state all_ids s) k j ∧
      closest_preceding_finger (node_state all_ids s) k
        = ((node_state all_ids s).finger.getD j default).node) ∧
    (∀ i, i < 4 → finger_selected (node_state all_ids s) k i →
      (((node_state all_ids s).finger.getD i default).node - s) % 16
        ≤ (closest_preceding_finger (node_state all_ids s) k - s) % 16) ∧
    (k ≠ s → ∀ i, i < 4 →
      (finger_selected (node_state all_ids s) k i ↔
        (0 < (((node_state all_ids s).finger.getD i default).node - s) % 16 ∧
         (((node_state all_ids s).finger.getD i default).node - s) % 16 < (k - s) % 16))) := by
  have hb := h.2.2.2 s hs
  have hbound : ∀ i, i < 4 →
      0 ≤ ((node_state all_ids s).finger.getD i default).node ∧
      ((node_state all_ids s).finger.getD i default).node < 16 := by
    intro i hi
    rw [node_state_finger all_ids s hi]
    exact h.2.2.2 _ (mem_sort_ids.mp (finger_node_mem h hs i))
  obtain ⟨i0, hi0, hsel0⟩ := hex
  rcases closest_preceding_finger_loop_spec (node_state all_ids s) k M with
    ⟨h1, _⟩ | ⟨j, hj, hselj, hmax, hres⟩
  · exact absurd hsel0 (h1 i0 hi0)
  · have hres2 : closest_preceding_finger (node_state all_ids s) k
        = ((node_state all_ids s).finger.getD j default).node := hres
    refine ⟨⟨j, hj, hselj, hres2⟩, ?_, ?_⟩
    · intro i hi hseli
      rw [hres2]
      have hij : i ≤ j := by
        by_contra hcon
        exact hmax i (by omega) hi hseli
      rcases Nat.lt_or_eq_of_le hij with hlt | heq
      · have hmono := finger_position_mono h hs hlt hj
        have bi := hbound i hi
        have bj := hbound j hj
        have ni := hseli.1
        have nj := hselj.1
        rw [node_state_id] at ni nj
        rw [node_state_finger all_ids s hi] at bi ni ⊢
        rw [node_state_finger all_ids s hj] at bj nj ⊢
        omega
      · rw [heq]
    · intro hks i hi
      have bi := hbound i hi
      unfold finger_selected
      rw [node_state_id, in_interval_core]
      constructor
      · intro hsel
        omega
      · intro harc
        refine ⟨?_, ?_, ?_⟩ <;> omega

/-- Witness of `closest_preceding_finger_furthest`: participant 4 of ring `{1,4,9,14}`
with key 10. -/
theorem closest_preceding_finger_furthest_witness :
    (∃ j, j < 4 ∧ finger_selected (node_state [1, 4, 9, 14] 4) 10 j ∧
      closest_preceding_finger (node_state [1, 4, 9, 14] 4) 10
        = ((node_state [1, 4, 9, 14] 4).finger.getD j default).node) ∧
    (∀ i, i < 4 → finger_selected (node_state [1, 4, 9, 14] 4) 10 i →
      (((node_state [1, 4, 9, 14] 4).finger.getD i default).node - 4) % 16
        ≤ (closest_preceding_finger (node_state [1, 4, 9, 14] 4) 10 - 4) % 16) ∧
    ((10 : Int) ≠ 4 → ∀ i, i < 4 →
      (finger_selected (node_state [1, 4, 9, 14] 4) 10 i ↔
        (0 < (((node_state [1, 4, 9, 14] 4).finger.getD i default).node - 4) % 16 ∧
         (((node_state [1, 4, 9, 14] 4).finger.getD i default).node - 4) % 16
           < ((10 : Int) - 4) % 16))) :=
  closest_preceding_finger_furthest [1, 4, 9, 14] (by decide) 4 10 (by decide) (by decide)
    (by decide) ⟨0, by decide, by decide⟩

/-! ## The degenerate interval while routing -/

/-- Claim C17, at the input where it fails: in ring `{1,4,9,14}` (four participants)
participant 4 handling the key 4 calls `in_interval(14, 4, 4)` in
`closest_preceding_finger`, a call with `start == end`. -/
theorem routing_calls_counterexample :
    WellFormed [1, 4, 9, 14] ∧ 2 ≤ [(1 : Int), 4, 9, 14].length ∧
    (4 : Int) ∈ [(1 : Int), 4, 9, 14] ∧
    ((14 : Int), (4 : Int), (4 : Int)) ∈ routing_calls (node_state [1, 4, 9, 14] 4) 4 ∧
    ¬ (∀ c ∈ routing_calls (node_state [1, 4, 9, 14] 4) 4, c.2.1 ≠ c.2.2) := by
  decide

/-- Claim C17, amended. In a well-formed ring with at least two participants, for every
ring member `s` and every key `k`: the call `in_interval(key, self.id, self.successor)`
never has `start == end`; every call made by `closest_preceding_finger` has
`start = s` and `end = k`, so a call made while routing has `start == end` only when
`k = s`, and when `k = s` such a call is made. -/
theorem routing_calls_degenerate (all_ids : List Int) (h : WellFormed all_ids)
    (hn : 2 ≤ all_ids.length) (s k : Int) (hs : s ∈ all_ids) :
    (node_state all_ids s).id ≠ (node_state all_ids s).successor ∧
    (∀ c ∈ routing_calls (node_state all_ids s) k, c.2.1 = c.2.2 → k = s) ∧
    (k ≠ s → ∀ c ∈ routing_calls (node_state all_ids s) k, c.2.1 ≠ c.2.2) ∧
    (k = s → ∃ c ∈ routing_calls (node_state all_ids s) k, c.2.1 = c.2.2) := by
  have hR := sortedRing_of_wellFormed h
  have hb := h.2.2.2 s hs
  obtain ⟨s1, s2⟩ := successor_min h hs
  have sb := hR.2.2 _ s1
  have hne : s ≠ (build_global_ring all_ids s).1 := by
    -- a second ring id is strictly closer to `s + 1` than `s` itself
    obtain ⟨m, hm, hms⟩ : ∃ m ∈ all_ids, m ≠ s := by
      by_contra hcon
      push_neg at hcon
      have hall : ∀ m ∈ all_ids, m = s := hcon
      have : all_ids.length ≤ 1 := by
        have hsub : all_ids ⊆ [s] := fun m hm => List.mem_singleton.mpr (hall m hm)
        exact (List.subperm_of_subset h.2.2.1 hsub).length_le
      omega
    have := s2 m (mem_sort_ids.mpr hm)
    have := h.2.2.2 m hm
    omega
  have hcalls : ∀ c ∈ routing_calls (node_state all_ids s) k, c.2.1 = c.2.2 → k = s := by
    intro c hc heq
    unfold routing_calls at hc
    rcases List.mem_cons.mp hc with h1 | h1
    · subst h1
      exact absurd heq hne
    · split_ifs at h1 with hin
      · exact absurd h1 (List.not_mem_nil c)
      · obtain ⟨e1, e2⟩ :=
          (closest_preceding_finger_scan_spec (node_state all_ids s) k M).2.1 c h1
        rw [e1, e2] at heq
        exact heq.symm
  refine ⟨hne, hcalls, fun hks c hc heq => hks (hcalls c hc heq), ?_⟩
  intro hks
  subst hks
  have hin : in_interval k (node_state all_ids k).id (node_state all_ids k).successor = false := by
    cases hv : in_interval k (node_state all_ids k).id (node_state all_ids k).successor with
    | false => rfl
    | true =>
      rw [in_interval_core, node_state_id, node_state_successor] at hv
      omega
  obtain ⟨hspec1, hspec2, hspec3⟩ := closest_preceding_finger_scan_spec (node_state all_ids k) k M
  obtain ⟨i, hi, hsel, _, _⟩ := forward_selected h hs hin
  have hnonempty : (closest_preceding_finger_scan (node_state all_ids k) k M).1 ≠ [] := by
    intro hempty
    have : (closest_preceding_finger_scan (node_state all_ids k) k M).2 ≠ none := by
      intro hnone
      exact (hspec3.mp hnone) i hi hsel
    exact this (closest_preceding_finger_scan_nil _ _ _ hempty)
  obtain ⟨c, hc⟩ := List.exists_mem_of_ne_nil _ hnonempty
  refine ⟨c, ?_, ?_⟩
  · unfold routing_calls
    rw [hin]
    exact List.mem_cons_of_mem _ (by simpa using hc)
  · obtain ⟨e1, e2⟩ := hspec2 c hc
    rw [e1, e2, node_state_id]

/-- Witness of `routing_calls_degenerate`: participant 4 of ring `{1,4,9,14}`, key 10. -/
theorem routing_calls_degenerate_witness :
    (node_state [1, 4, 9, 14] 4).id ≠ (node_state [1, 4, 9, 14] 4).successor ∧
    (∀ c ∈ routing_calls (node_state [1, 4, 9, 14] 4) 10, c.2.1 = c.2.2 → (10 : Int) = 4) ∧
    ((10 : Int) ≠ 4 → ∀ c ∈ routing_calls (node_state [1, 4, 9, 14] 4) 10, c.2.1 ≠ c.2.2) ∧
    ((10 : Int) = 4 → ∃ c ∈ routing_calls (node_state [1, 4, 9, 14] 4) 10, c.2.1 = c.2.2) :=
  routing_calls_degenerate [1, 4, 9, 14] (by decide) (by decide) 4 10 (by decide)

/-! ## The fallback of `closest_preceding_finger` -/

/-- Claim C20. In a well-formed ring, for every ring member `s` and every key `k`:
`finger[0].node` is `self.successor`, and when `handle_lookup_request` takes the
forwarding branch, `finger[0]` passes the selection test of `closest_preceding_finger`, so
the scan returns from inside the loop (with the value `closest_preceding_finger` returns)
and the fallback `return self.successor` is not reached. -/
theorem fallback_not_reached (all_ids : List Int) (h : WellFormed all_ids) (s k : Int)
    (hs : s ∈ all_ids) :
    ((node_state all_ids s).finger.getD 0 default).node = (node_state all_ids s).successor ∧
    (in_interval k (node_state all_ids s).id (node_state all_ids s).successor = false →
      finger_selected (node_state all_ids s) k 0 ∧
      (closest_preceding_finger_scan (node_state all_ids s) k M).2
        = some (closest_preceding_finger (node_state all_ids s) k) ∧
      ∃ i, i < 4 ∧ finger_selected (node_state all_ids s) k i ∧
        closest_preceding_finger (node_state all_ids s) k
          = ((node_state all_ids s).finger.getD i default).node) := by
  have hf0 : ((node_state all_ids s).finger.getD 0 default).node
      = (node_state all_ids s).successor := by
    rw [node_state_finger all_ids s (by decide), finger_zero_eq_successor h hs]
    rfl
  refine ⟨hf0, ?_⟩
  intro hin
  have hR := sortedRing_of_wellFormed h
  obtain ⟨s1, s2⟩ := successor_min h hs
  have sb := hR.2.2 _ s1
  have hb := h.2.2.2 s hs
  have hsel0 : finger_selected (node_state all_ids s) k 0 := by
    have hnot : ¬ (in_interval k (node_state all_ids s).id (node_state all_ids s).successor
        = true) := by
      rw [hin]; decide
    rw [in_interval_core, node_state_id, node_state_successor] at hnot
    unfold finger_selected
    rw [hf0, node_state_id, node_state_successor, in_interval_core]
    have := s2 s (mem_sort_ids.mpr hs)
    omega
  obtain ⟨hspec1, _, hspec3⟩ := closest_preceding_finger_scan_spec (node_state all_ids s) k M
  obtain ⟨i, hi, hsel, _, hres⟩ := forward_selected h hs hin
  refine ⟨hsel0, ?_, ⟨i, hi, hsel, ?_⟩⟩
  · cases hscan : (closest_preceding_finger_scan (node_state all_ids s) k M).2 with
    | none => exact absurd hsel0 ((hspec3.mp hscan) 0 (by decide))
    | some v =>
      have : closest_preceding_finger (node_state all_ids s) k = v := by
        show closest_preceding_finger_loop (node_state all_ids s) k M = v
        rw [hspec1, hscan]
        rfl
      rw [this]
  · rw [hres, node_state_finger all_ids s hi]

/-- Witness of `fallback_not_reached`: participant 4 of ring `{1,4,9,14}` forwarding
key 10. -/
theorem fallback_not_reached_witness :
    in_interval 10 (node_state [1, 4, 9, 14] 4).id (node_state [1, 4, 9, 14] 4).successor
      = false ∧
    (finger_selected (node_state [1, 4, 9, 14] 4) 10 0 ∧
      (closest_preceding_finger_scan (node_state [1, 4, 9, 14] 4) 10 M).2
        = some (closest_preceding_finger (node_state [1, 4, 9, 14] 4) 10) ∧
      ∃ i, i < 4 ∧ finger_selected (node_state [1, 4, 9, 14] 4) 10 i ∧
        closest_preceding_finger (node_state [1, 4, 9, 14] 4) 10
          = ((node_state [1, 4, 9, 14] 4).finger.getD i default).node) :=
  ⟨by decide, (fallback_not_reached [1, 4, 9, 14] (by decide) 4 10 (by decide)).2 (by decide)⟩

/-! ## The length of a completed path -/

/-- What a successful call of `handle_lookup_request` did to the path: one write inside
the array for a ROUTE request, two for a REPLY. -/
theorem handle_lookup_request_some (id_to_rank : List Int) (self : NodeState)
    (msg : LookupMsg) (o : Outbound)
    (e : handle_lookup_request id_to_rank self msg = some o) :
    o.msg.path.length = msg.path.length ∧
    ((o.tag = Tag.TAG_LOOKUP_REP ∧ o.msg.path_len = msg.path_len + 2 ∧
        msg.path_len + 2 ≤ MAX_PATH) ∨
     (o.tag = Tag.TAG_LOOKUP_REQ ∧ o.msg.path_len = msg.path_len + 1 ∧
        msg.path_len + 1 ≤ MAX_PATH)) := by
  unfold handle_lookup_request at e
  by_cases hp : msg.path_len < MAX_PATH
  · have e1 : path_push msg self.id = some
        { msg with path := msg.path.set msg.path_len self.id, path_len := msg.path_len + 1 } := by
      unfold path_push
      rw [if_pos hp]
    rw [e1] at e
    dsimp only at e
    split_ifs at e with hin
    · by_cases hp2 : msg.path_len + 1 < MAX_PATH
      · unfold path_push at e
        dsimp only at e
        rw [if_pos hp2] at e
        dsimp only at e
        have := Option.some.inj e
        subst this
        refine ⟨by simp, Or.inl ⟨rfl, rfl, by omega⟩⟩
      · unfold path_push at e
        dsimp only at e
        rw [if_neg hp2] at e
        exact absurd e (by simp)
    · have := Option.some.inj e
      subst this
      refine ⟨by simp, Or.inr ⟨rfl, rfl, by omega⟩⟩
  · have e1 : path_push msg self.id = none := by
      unfold path_push
      rw [if_neg hp]
    rw [e1] at e
    exact absurd e (by simp)

/-- A routing that produced a REPLY wrote every path entry inside the array: with `fuel`
calls the path grew by at least two and at most `fuel + 1` entries. -/
theorem route_path_len (all_ids : List Int) (fuel : Nat) :
    ∀ (rank : Int) (msg : LookupMsg) (out : Outbound),
      route all_ids fuel rank msg = some out →
      out.msg.path.length = msg.path.length ∧
      msg.path_len + 2 ≤ out.msg.path_len ∧
      out.msg.path_len ≤ msg.path_len + fuel + 1 ∧
      out.msg.path_len ≤ MAX_PATH := by
  induction fuel with
  | zero =>
    intro rank msg out hr
    simp [route] at hr
  | succ fuel ih =>
    intro rank msg out hr
    rw [route] at hr
    split_ifs at hr with hrank
    dsimp only at hr
    cases hh : handle_lookup_request (build_id_maps all_ids)
        (node_state all_ids (all_ids.getD rank.toNat 0)) msg with
    | none =>
      rw [hh] at hr
      exact absurd hr (by simp)
    | some o =>
      rw [hh] at hr
      dsimp only at hr
      obtain ⟨l1, hcase⟩ := handle_lookup_request_some _ _ _ _ hh
      rcases hcase with ⟨t1, t2, t3⟩ | ⟨t1, t2, t3⟩
      · rw [t1] at hr
        dsimp only at hr
        have := Option.some.inj hr
        subst this
        exact ⟨l1, by omega, by omega, by omega⟩
      · rw [t1] at hr
        dsimp only at hr
        obtain ⟨a1, a2, a3, a4⟩ := ih _ _ _ hr
        exact ⟨by rw [a1, l1], by omega, by omega, a4⟩

/-- Claim C18. In a well-formed ring, for every initiating rank and every key in
`[0,16)`, the routing of a lookup that starts with `path_len = 0` performs every write
`path[path_len++]` at an index below `MAX_PATH = 32` (the routing does not fail), and
the completed path has `2 ≤ path_len ≤ n + 1 ≤ 17`. -/
theorem path_writes_in_bounds (all_ids : List Int) (h : WellFormed all_ids) (r : Nat)
    (hr : r < all_ids.length) (k : Int) (hk0 : 0 ≤ k) (hk1 : k < 16) (i : Nat) :
    (new_lookup (all_ids.getD r 0) i k).path_len = 0 ∧
    ∃ out, lookup all_ids all_ids.length r i k = some out ∧
      out.msg.path.length = MAX_PATH ∧
      2 ≤ out.msg.path_len ∧
      out.msg.path_len ≤ all_ids.length + 1 ∧
      out.msg.path_len ≤ 17 ∧
      out.msg.path_len < MAX_PATH ∧
      (path_of out.msg).length = out.msg.path_len := by
  refine ⟨rfl, ?_⟩
  obtain ⟨visited, out, v1, _, _, _, _, _, _, _, _, _, v11⟩ := lookup_spec h hr hk0 hk1 i
  have hl := v1 _ v11
  have hl2 := hl
  unfold lookup at hl2
  obtain ⟨a1, a2, a3, a4⟩ := route_path_len all_ids _ _ _ _ hl2
  have hlen : out.msg.path.length = MAX_PATH := by
    rw [a1]
    simp [new_lookup]
  have h0 : (new_lookup (all_ids.getD r 0) i k).path_len = 0 := rfl
  rw [h0] at a2 a3
  have hn := h.2.1
  refine ⟨out, hl, hlen, by omega, by omega, by omega, by unfold MAX_PATH; omega, ?_⟩
  unfold path_of
  rw [List.length_take, hlen]
  unfold MAX_PATH
  omega

/-- Witness of `path_writes_in_bounds`: the full ring `0..15`, rank 0, key 0. -/
theorem path_writes_in_bounds_witness :
    (new_lookup ([(0 : Int), 1, 2, 3, 4, 5, 6, 7, 8, 9, 10, 11, 12, 13, 14, 15].getD 0 0) 0 0).path_len
      = 0 ∧
    ∃ out, lookup [0, 1, 2, 3, 4, 5, 6, 7, 8, 9, 10, 11, 12, 13, 14, 15] 16 0 0 0 = some out ∧
      out.msg.path.length = MAX_PATH ∧
      2 ≤ out.msg.path_len ∧
      out.msg.path_len ≤ 16 + 1 ∧
      out.msg.path_len ≤ 17 ∧
      out.msg.path_len < MAX_PATH ∧
      (path_of out.msg).length = out.msg.path_len :=
  path_writes_in_bounds [0, 1, 2, 3, 4, 5, 6, 7, 8, 9, 10, 11, 12, 13, 14, 15] (by decide) 0
    (by decide) 0 (by decide) (by decide) 0

/-! ## At most `M` forwards -/

/-- The selection test of `closest_preceding_finger` in terms of clockwise offsets. -/
theorem sel_offset (s k t : Int) (hs : 0 ≤ s ∧ s < 16) (hk : 0 ≤ k ∧ k < 16)
    (ht : 0 ≤ t ∧ t < 16) :
    (t ≠ s ∧ t ≠ k ∧ ((s < k ∧ s < t ∧ t ≤ k) ∨ (s > k ∧ (t > s ∨ t ≤ k)) ∨ s = k)) ↔
    (0 < (t - s) % 16 ∧ (t - s) % 16 < (k - s - 1) % 16 + 1) := by
  omega

theorem start_offset (s t p : Int) :
    (t - (s + p) % 16) % 16 = ((t - s) % 16 - p) % 16 := by
  omega

theorem arc_offset (s t m : Int) :
    (m - t) % 16 = ((m - s) % 16 - (t - s) % 16) % 16 := by
  omega

theorem arc_offset_key (s t k : Int) :
    (k - t - 1) % 16 = ((k - s - 1) % 16 - (t - s) % 16) % 16 := by
  omega

theorem offset_ge_start (ot p : Int) (hp : p = 1 ∨ p = 2 ∨ p = 4 ∨ p = 8)
    (hot : 0 < ot ∧ ot < 16) (h2 : (ot - p) % 16 ≤ (0 - p) % 16) : p ≤ ot := by
  rcases hp with rfl | rfl | rfl | rfl <;> omega

theorem level_arith_top (ot om d : Int)
    (hot : 0 ≤ ot ∧ ot < 16) (hom : 0 ≤ om ∧ om < 16) (hd : 0 ≤ d ∧ d < 16)
    (hsel : 0 < ot ∧ ot < d + 1)
    (h2 : (ot - 8) % 16 ≤ (0 - 8) % 16)
    (hm1 : 0 < (om - ot) % 16) (hm2 : (om - ot) % 16 < (d - ot) % 16 + 1) :
    (om - ot) % 16 < 8 := by
  omega

theorem level_arith_off (ot ou om d p : Int) (hp : p = 1 ∨ p = 2 ∨ p = 4)
    (hot : 0 ≤ ot ∧ ot < 16) (hou : 0 ≤ ou ∧ ou < 16) (hom : 0 ≤ om ∧ om < 16)
    (hd : 0 ≤ d ∧ d < 16)
    (hsel : 0 < ot ∧ ot < d + 1)
    (hnsel : ¬ (0 < ou ∧ ou < d + 1))
    (h2 : (ot - p) % 16 ≤ (0 - p) % 16)
    (h3 : (ot - p) % 16 ≤ (om - p) % 16)
    (h4 : (ou - 2 * p) % 16 ≤ (om - 2 * p) % 16)
    (h5 : (ou - 2 * p) % 16 ≤ (0 - 2 * p) % 16)
    (hm1 : 0 < (om - ot) % 16) (hm2 : (om - ot) % 16 < (d - ot) % 16 + 1) :
    (om - ot) % 16 < p := by
  rcases hp with rfl | rfl | rfl <;> omega

/-- A forwarded lookup uses a finger of some index `i`: the chosen node `t` is at
clockwise offset at least `2^i` from `s`, strictly before the key, and every ring id
strictly between `t` and the key is at offset below `2^i` from `t`. -/
theorem forward_level {all_ids : List Int} (h : WellFormed all_ids) {s k : Int}
    (hs : s ∈ all_ids) (hk0 : 0 ≤ k) (hk1 : k < 16)
    (hin : in_interval k s (build_global_ring all_ids s).1 = false) :
    ∃ i, i < 4 ∧
      closest_preceding_finger (node_state all_ids s) k ∈ all_ids ∧
      (2 : Int) ^ i ≤ (closest_preceding_finger (node_state all_ids s) k - s) % 16 ∧
      (closest_preceding_finger (node_state all_ids s) k - s) % 16 < (k - s - 1) % 16 + 1 ∧
      ∀ m ∈ all_ids,
        0 < (m - closest_preceding_finger (node_state all_ids s) k) % 16 →
        (m - closest_preceding_finger (node_state all_ids s) k) % 16
          < (k - closest_preceding_finger (node_state all_ids s) k - 1) % 16 + 1 →
        (m - closest_preceding_finger (node_state all_ids s) k) % 16 < (2 : Int) ^ i := by
  have hR := sortedRing_of_wellFormed h
  have hb := h.2.2.2 s hs
  have hsS := mem_sort_ids.mpr hs
  have hkb : 0 ≤ k ∧ k < 16 := ⟨hk0, hk1⟩
  obtain ⟨i, hi, hsel, hmax, hres⟩ := forward_selected h hs hin
  have hi4 : i < 4 := hi
  have hcore : ∀ j, j < 4 → (finger_selected (node_state all_ids s) k j ↔
      (0 < ((build_finger (sort_ids all_ids) s j).node - s) % 16 ∧
        ((build_finger (sort_ids all_ids) s j).node - s) % 16 < (k - s - 1) % 16 + 1)) := by
    intro j hj
    unfold finger_selected
    rw [node_state_finger all_ids s hj, node_state_id, in_interval_core]
    exact sel_offset s k _ hb hkb (hR.2.2 _ (finger_node_min h hs j).1)
  rw [hres]
  have hselc := (hcore i hi4).mp hsel
  obtain ⟨a1, a2⟩ := finger_node_min h hs i
  have h2 := a2 _ hsS
  rw [start_offset, start_offset, sub_self, Int.zero_emod] at h2
  have hp : (2 : Int) ^ i = 1 ∨ (2 : Int) ^ i = 2 ∨ (2 : Int) ^ i = 4 ∨ (2 : Int) ^ i = 8 := by
    interval_cases i <;> norm_num
  have hot : 0 ≤ ((build_finger (sort_ids all_ids) s i).node - s) % 16 ∧
      ((build_finger (sort_ids all_ids) s i).node - s) % 16 < 16 :=
    ⟨Int.emod_nonneg _ (by decide), Int.emod_lt_of_pos _ (by decide)⟩
  refine ⟨i, hi4, mem_sort_ids.mp a1, ?_, hselc.2, ?_⟩
  · exact offset_ge_start _ _ hp ⟨hselc.1, hot.2⟩ h2
  · intro m hm hm1 hm2
    have h3 := a2 m (mem_sort_ids.mpr hm)
    rw [start_offset, start_offset s m] at h3
    rw [arc_offset s] at hm1 hm2 ⊢
    rw [arc_offset_key s] at hm2
    have hom : 0 ≤ (m - s) % 16 ∧ (m - s) % 16 < 16 :=
      ⟨Int.emod_nonneg _ (by decide), Int.emod_lt_of_pos _ (by decide)⟩
    have hd : 0 ≤ (k - s - 1) % 16 ∧ (k - s - 1) % 16 < 16 :=
      ⟨Int.emod_nonneg _ (by decide), Int.emod_lt_of_pos _ (by decide)⟩
    by_cases hi3 : i = 3
    · subst hi3
      have e8 : (2 : Int) ^ 3 = 8 := by norm_num
      rw [e8] at h2 ⊢
      exact level_arith_top _ _ _ hot hom hd hselc h2 hm1 hm2
    · have hj : i + 1 < 4 := by omega
      have hnsel := hmax (i + 1) (Nat.lt_succ_self i) hj
      rw [hcore (i + 1) hj] at hnsel
      obtain ⟨b1, b2⟩ := finger_node_min h hs (i + 1)
      have h4 := b2 m (mem_sort_ids.mpr hm)
      have h5 := b2 _ hsS
      have e2 : (2 : Int) ^ (i + 1) = 2 * (2 : Int) ^ i := by
        rw [pow_succ, mul_comm]
      rw [e2, start_offset, start_offset s m] at h4
      rw [e2, start_offset, start_offset s s, sub_self, Int.zero_emod] at h5
      have hp3 : (2 : Int) ^ i = 1 ∨ (2 : Int) ^ i = 2 ∨ (2 : Int) ^ i = 4 := by
        have : i < 3 := by omega
        interval_cases i <;> norm_num
      have hou : 0 ≤ ((build_finger (sort_ids all_ids) s (i + 1)).node - s) % 16 ∧
          ((build_finger (sort_ids all_ids) s (i + 1)).node - s) % 16 < 16 :=
        ⟨Int.emod_nonneg _ (by decide), Int.emod_lt_of_pos _ (by decide)⟩
      exact level_arith_off _ _ _ _ _ hp3 hot hou hom hd hselc hnsel h2 h3 h4 h5 hm1 hm2

/-- Routing from a ring member `s` such that every ring id strictly between `s` and the
key is at clockwise offset below `2^b` from `s`: `b + 1` calls of
`handle_lookup_request` produce the REPLY. -/
theorem route_levels {all_ids : List Int} (h : WellFormed all_ids) {k : Int}
    (hk0 : 0 ≤ k) (hk1 : k < 16) (b : Nat) :
    ∀ (r : Nat) (hr : r < all_ids.length) (msg : LookupMsg),
      (∀ m ∈ all_ids, 0 < (m - all_ids[r]) % 16 →
        (m - all_ids[r]) % 16 < (k - all_ids[r] - 1) % 16 + 1 →
        (m - all_ids[r]) % 16 < (2 : Int) ^ b) →
      msg.key = k → msg.path.length = MAX_PATH → msg.path_len + b + 2 ≤ MAX_PATH →
      ∃ out, route all_ids (b + 1) (r : Int) msg = some out := by
  induction b with
  | zero =>
    intro r hr msg hlev hkey hlen hp
    have hs : all_ids[r] ∈ all_ids := List.getElem_mem hr
    cases hin : in_interval k all_ids[r] (build_global_ring all_ids all_ids[r]).1 with
    | false =>
      exfalso
      obtain ⟨i, _, f1, f2, f3, _⟩ := forward_level h hs hk0 hk1 hin
      have hpow : (1 : Int) ≤ (2 : Int) ^ i := one_le_pow₀ (by norm_num)
      have := hlev _ f1 (by omega) f3
      simp only [pow_zero] at this
      omega
    | true =>
      obtain ⟨out, e, o1, _⟩ :=
        handle_lookup_request_reply (build_id_maps all_ids) (node_state all_ids all_ids[r]) msg
          hlen (by omega) (by rw [hkey]; exact hin)
      refine ⟨out, ?_⟩
      rw [route_succ all_ids 0 hr, e]
      simp only [o1]
  | succ b ih =>
    intro r hr msg hlev hkey hlen hp
    have hs : all_ids[r] ∈ all_ids := List.getElem_mem hr
    cases hin : in_interval k all_ids[r] (build_global_ring all_ids all_ids[r]).1 with
    | true =>
      obtain ⟨out, e, o1, _⟩ :=
        handle_lookup_request_reply (build_id_maps all_ids) (node_state all_ids all_ids[r]) msg
          hlen (by omega) (by rw [hkey]; exact hin)
      refine ⟨out, ?_⟩
      rw [route_succ all_ids (b + 1) hr, e]
      simp only [o1]
    | false =>
      obtain ⟨out1, e, o1, o2, _, _, o5, o6, o7, _, _⟩ :=
        handle_lookup_request_forward (build_id_maps all_ids) (node_state all_ids all_ids[r])
          msg hlen (by omega) (by rw [hkey]; exact hin)
      obtain ⟨i, _, f1, f2, f3, f4⟩ := forward_level h hs hk0 hk1 hin
      have hlt : (2 : Int) ^ i < (2 : Int) ^ (b + 1) := by
        have := hlev _ f1 (by
          have hpow : (1 : Int) ≤ (2 : Int) ^ i := one_le_pow₀ (by norm_num)
          omega) f3
        omega
      have hib : i ≤ b := by
        have : i < b + 1 := (pow_lt_pow_iff_right₀ (by norm_num : (1 : Int) < 2)).mp hlt
        omega
      have hle : (2 : Int) ^ i ≤ (2 : Int) ^ b :=
        pow_le_pow_right₀ (by norm_num) hib
      obtain ⟨r2, hr2, hr2e⟩ := List.getElem_of_mem f1
      rw [hkey, ← hr2e, rank_from_id_of_rank h hr2] at o2
      rw [← hr2e] at f4
      obtain ⟨out, hout⟩ := ih r2 hr2 out1.msg
        (fun m hm h1 h2 => lt_of_lt_of_le (f4 m hm h1 h2) hle)
        (by rw [o5, hkey]) o6 (by omega)
      refine ⟨out, ?_⟩
      rw [route_succ all_ids (b + 1) hr, e]
      simp only [o1, o2]
      exact hout

/-- Claim C19. In a well-formed ring of any size, for every initiating rank and every key
in `[0,16)`, five calls of `handle_lookup_request` (at most `M = 4` forwards) produce the
REPLY, and the completed path has at most `M + 2 = 6` entries.  The bound is attained: in
the full ring `0..15` participant 0 looking up key 0 gets the path
`0, 8, 12, 14, 15, 0`, and four calls are not enough. -/
theorem at_most_four_forwards (all_ids : List Int) (h : WellFormed all_ids) (r : Nat)
    (hr : r < all_ids.length) (k : Int) (hk0 : 0 ≤ k) (hk1 : k < 16) (i : Nat) :
    (∃ out, lookup all_ids (M + 1) r i k = some out ∧
      out.tag = Tag.TAG_LOOKUP_REP ∧
      out.msg.path_len ≤ M + 2 ∧ (path_of out.msg).length ≤ M + 2 ∧
      (path_of out.msg).dropLast.length ≤ M + 1) ∧
    (lookup [0, 1, 2, 3, 4, 5, 6, 7, 8, 9, 10, 11, 12, 13, 14, 15] (M + 1) 0 0 0).map
        (fun o => path_of o.msg) = some [0, 8, 12, 14, 15, 0] ∧
    lookup [0, 1, 2, 3, 4, 5, 6, 7, 8, 9, 10, 11, 12, 13, 14, 15] M 0 0 0 = none := by
  refine ⟨?_, by decide, by decide⟩
  obtain ⟨out5, h5⟩ := route_levels h hk0 hk1 4 r hr (new_lookup all_ids[r] i k)
    (by
      intro m _ _ _
      have : (m - all_ids[r]) % 16 < 16 := Int.emod_lt_of_pos _ (by decide)
      norm_num
      exact this)
    rfl (by simp [new_lookup]) (by simp [new_lookup, MAX_PATH])
  have hl : lookup all_ids (M + 1) r i k = some out5 := by
    unfold lookup
    simp only [List.getD_eq_getElem all_ids 0 hr]
    rw [rank_from_id_of_rank h hr]
    exact h5
  obtain ⟨visited, out, v1, v2, _, _, _, _, v7, _, _, _, v11⟩ := lookup_spec h hr hk0 hk1 i
  have heq : out5 = out := lookup_unique hl (v1 _ v11)
  obtain ⟨a1, a2, a3, a4⟩ := route_path_len all_ids _ _ _ _ h5
  have h0 : (new_lookup all_ids[r] i k).path_len = 0 := rfl
  rw [h0] at a3
  have hlen : (path_of out5.msg).length ≤ out5.msg.path_len := by
    unfold path_of
    rw [List.length_take]
    exact Nat.min_le_left _ _
  refine ⟨out5, hl, by rw [heq]; exact v2, by unfold M; omega, by unfold M; omega, ?_⟩
  rw [List.length_dropLast]
  unfold M
  omega

/-- Witness of `at_most_four_forwards`: ring `{1,4,9,14}`, rank 1 (id 4), key 10. -/
theorem at_most_four_forwards_witness :
    (∃ out, lookup [1, 4, 9, 14] (M + 1) 1 0 10 = some out ∧
      out.tag = Tag.TAG_LOOKUP_REP ∧
      out.msg.path_len ≤ M + 2 ∧ (path_of out.msg).length ≤ M + 2 ∧
      (path_of out.msg).dropLast.length ≤ M + 1) ∧
    (lookup [0, 1, 2, 3, 4, 5, 6, 7, 8, 9, 10, 11, 12, 13, 14, 15] (M + 1) 0 0 0).map
        (fun o => path_of o.msg) = some [0, 8, 12, 14, 15, 0] ∧
    lookup [0, 1, 2, 3, 4, 5, 6, 7, 8, 9, 10, 11, 12, 13, 14, 15] M 0 0 0 = none :=
  at_most_four_forwards [1, 4, 9, 14] (by decide) 1 (by decide) 10 (by decide) (by decide) 0

/-! ## The DONE broadcast fires once -/

/-- The effect of one iteration of the service loop on `lookups_done` and `is_done`, and
the DONE messages it sends. -/
theorem service_step_done (world_rank world_size : Nat) (id_to_rank : List Int)
    (self : NodeState) (nr_lookups : Nat) (st st1 : ServiceState) (tag : Tag)
    (msg : LookupMsg) (outs : List Outbound)
    (e : service_step world_rank world_size id_to_rank self nr_lookups st tag msg
      = some (st1, outs)) :
    st1.lookups_done = st.lookups_done + reply_count [(tag, msg)] ∧
    (st1.is_done = true ↔ (st.is_done = true ∨ st1.lookups_done = nr_lookups)) ∧
    outs.filter (fun o => decide (o.tag = Tag.TAG_DONE)) =
      (if (!st.is_done && st1.is_done) = true then done_broadcast world_rank world_size
       else []) := by
  have hdb : (done_broadcast world_rank world_size).filter
      (fun o => decide (o.tag = Tag.TAG_DONE)) = done_broadcast world_rank world_size := by
    rw [List.filter_eq_self]
    intro o ho
    unfold done_broadcast at ho
    obtain ⟨i, _, rfl⟩ := List.mem_map.mp ho
    simp
  unfold service_step at e
  cases tag with
  | TAG_LOOKUP_REQ =>
    cases hh : handle_lookup_request id_to_rank self msg with
    | none => simp [hh] at e
    | some o =>
      have htag : o.tag ≠ Tag.TAG_DONE := by
        rcases (handle_lookup_request_some _ _ _ _ hh).2 with ⟨t, _⟩ | ⟨t, _⟩ <;>
          rw [t] <;> decide
      simp only [hh, if_true, Option.map_some', reduceCtorEq, if_false, Option.some.injEq,
        Prod.mk.injEq] at e
      obtain ⟨e1, e2⟩ := e
      subst e1
      subst e2
      refine ⟨by simp [reply_count], ?_, ?_⟩
      · cases hd : st.is_done <;> simp
      · rw [List.filter_append]
        have : [o].filter (fun o => decide (o.tag = Tag.TAG_DONE)) = [] := by
          simp [htag]
        rw [this, List.nil_append]
        cases hd : st.is_done <;>
          by_cases hl : st.lookups_done = nr_lookups <;> simp [hd, hl, hdb]
  | TAG_LOOKUP_REP =>
    cases hs : store_reply st.messages msg with
    | none => simp [hs] at e
    | some ms =>
      simp only [reduceCtorEq, if_false, if_true, hs, Option.some.injEq, Prod.mk.injEq] at e
      obtain ⟨e1, e2⟩ := e
      subst e1
      subst e2
      refine ⟨by simp [reply_count], ?_, ?_⟩
      · cases hd : st.is_done <;> simp
      · rw [List.nil_append]
        cases hd : st.is_done <;>
          by_cases hl : st.lookups_done + 1 = nr_lookups <;> simp [hd, hl, hdb]
  | TAG_DONE =>
    simp only [reduceCtorEq, if_false, if_true, Option.some.injEq, Prod.mk.injEq] at e
    obtain ⟨e1, e2⟩ := e
    subst e1
    subst e2
    refine ⟨by simp [reply_count], ?_, ?_⟩
    · cases hd : st.is_done <;> simp
    · rw [List.nil_append]
      cases hd : st.is_done <;>
        by_cases hl : st.lookups_done = nr_lookups <;> simp [hd, hl, hdb]

theorem reply_count_cons (a : Tag × LookupMsg) (l : List (Tag × LookupMsg)) :
    reply_count (a :: l) = reply_count [a] + reply_count l := by
  unfold reply_count
  rw [List.countP_cons, List.countP_cons, List.countP_nil]
  omega

/-- The iterations of the service loop started in state `st`: the count of REPLY
messages and the flag `is_done` before and after iteration `j`, and its DONE messages. -/
theorem service_trace_inv (world_rank world_size : Nat) (id_to_rank : List Int)
    (self : NodeState) (nr_lookups : Nat) (ms : List (Tag × LookupMsg)) :
    ∀ (st : ServiceState) (tr : List Iteration),
      service_trace world_rank world_size id_to_rank self nr_lookups st ms = some tr →
      ∀ j (hj : j < tr.length),
        ((tr[j]).before.is_done = true ↔
          (st.is_done = true ∨
            ∃ i, i < j ∧ st.lookups_done + reply_count (ms.take (i + 1)) = nr_lookups)) ∧
        (tr[j]).after.lookups_done = st.lookups_done + reply_count (ms.take (j + 1)) ∧
        ((tr[j]).after.is_done = true ↔
          ((tr[j]).before.is_done = true ∨ (tr[j]).after.lookups_done = nr_lookups)) ∧
        done_sent (tr[j]) =
          (if fires (tr[j]) = true then done_broadcast world_rank world_size else []) := by
  induction ms with
  | nil =>
    intro st tr htr j hj
    rw [service_trace] at htr
    have := Option.some.inj htr
    subst this
    exact absurd hj (Nat.not_lt_zero j)
  | cons a rest ih =>
    intro st tr htr j hj
    obtain ⟨tag, msg⟩ := a
    rw [service_trace] at htr
    split_ifs at htr with hex
    · have := Option.some.inj htr
      subst this
      exact absurd hj (Nat.not_lt_zero j)
    · cases hstep : service_step world_rank world_size id_to_rank self nr_lookups st tag msg with
      | none =>
        rw [hstep] at htr
        exact absurd htr (by simp)
      | some res =>
        obtain ⟨st1, outs⟩ := res
        rw [hstep] at htr
        dsimp only at htr
        cases hrest : service_trace world_rank world_size id_to_rank self nr_lookups st1 rest with
        | none =>
          rw [hrest] at htr
          exact absurd htr (by simp)
        | some tr1 =>
          rw [hrest] at htr
          dsimp only at htr
          have := Option.some.inj htr
          subst this
          obtain ⟨s1, s2, s3⟩ := service_step_done _ _ _ _ _ _ _ _ _ _ hstep
          cases j with
          | zero =>
            simp only [List.getElem_cons_zero]
            refine ⟨?_, ?_, ?_, ?_⟩
            · constructor
              · intro hd
                exact Or.inl hd
              · intro hd
                rcases hd with hd | ⟨i, hi, _⟩
                · exact hd
                · exact absurd hi (Nat.not_lt_zero i)
            · rw [s1]
              rfl
            · exact s2
            · exact s3
          | succ j =>
            have hj1 : j < tr1.length := by
              simp only [List.length_cons] at hj
              omega
            obtain ⟨i1, i2, i3, i4⟩ := ih st1 tr1 hrest j hj1
            simp only [List.getElem_cons_succ]
            refine ⟨?_, ?_, i3, i4⟩
            · rw [i1, s2, s1]
              constructor
              · intro hd
                rcases hd with (hd | hd) | ⟨i, hi, hc⟩
                · exact Or.inl hd
                · exact Or.inr ⟨0, Nat.succ_pos j, by
                    rw [List.take_succ_cons, List.take_zero]
                    exact hd⟩
                · refine Or.inr ⟨i + 1, by omega, ?_⟩
                  rw [List.take_succ_cons, reply_count_cons]
                  omega
              · intro hd
                rcases hd with hd | ⟨i, hi, hc⟩
                · exact Or.inl (Or.inl hd)
                · cases i with
                  | zero =>
                    rw [List.take_succ_cons, List.take_zero] at hc
                    exact Or.inl (Or.inr hc)
                  | succ i =>
                    rw [List.take_succ_cons, reply_count_cons] at hc
                    exact Or.inr ⟨i, by omega, by omega⟩
            · rw [i2, s1, List.take_succ_cons,
                reply_count_cons (tag, msg) (List.take (j + 1) rest)]
              omega

/-- The DONE broadcast of rank `world_rank < world_size`: `world_size - 1` messages, all
with tag `TAG_DONE`, one to each rank other than `world_rank` and none to itself. -/
theorem done_broadcast_spec (world_rank world_size : Nat) (hwr : world_rank < world_size) :
    (done_broadcast world_rank world_size).length = world_size - 1 ∧
    (∀ o ∈ done_broadcast world_rank world_size,
      o.tag = Tag.TAG_DONE ∧ o.dest ≠ (world_rank : Int)) ∧
    ((done_broadcast world_rank world_size).map (fun o => o.dest)).Nodup ∧
    (∀ i : Nat, i < world_size → i ≠ world_rank →
      (i : Int) ∈ (done_broadcast world_rank world_size).map (fun o => o.dest)) := by
  unfold done_broadcast
  refine ⟨?_, ?_, ?_, ?_⟩
  · rw [List.length_map, ← List.countP_eq_length_filter]
    have h1 := List.length_eq_countP_add_countP (fun i => decide (world_rank ≠ i))
      (List.range world_size)
    have h2 : List.countP (fun a => decide ¬ (decide (world_rank ≠ a) = true))
        (List.range world_size) = List.count world_rank (List.range world_size) := by
      rw [List.count_eq_countP]
      apply List.countP_congr
      intro x _
      simp only [decide_eq_true_eq, ne_eq, not_not, beq_iff_eq]
      exact eq_comm
    rw [h2, List.count_eq_one_of_mem (List.nodup_range _) (List.mem_range.mpr hwr),
      List.length_range] at h1
    omega
  · intro o ho
    obtain ⟨i, hi, rfl⟩ := List.mem_map.mp ho
    rw [List.mem_filter] at hi
    refine ⟨rfl, ?_⟩
    have : world_rank ≠ i := by simpa using hi.2
    show (i : Int) ≠ (world_rank : Int)
    omega
  · rw [List.map_map]
    apply List.Nodup.map
    · intro a b hab
      simpa using hab
    · exact (List.nodup_range _).filter _
  · intro i hi hne
    rw [List.map_map, List.mem_map]
    refine ⟨i, ?_, rfl⟩
    rw [List.mem_filter]
    exact ⟨List.mem_range.mpr hi, by simpa using hne.symm⟩

/-- The service loop is left only with `is_done` set. -/
theorem service_step_exit (world_rank world_size : Nat) (id_to_rank : List Int)
    (self : NodeState) (nr_lookups : Nat) (st st1 : ServiceState) (tag : Tag)
    (msg : LookupMsg) (outs : List Outbound)
    (e : service_step world_rank world_size id_to_rank self nr_lookups st tag msg
      = some (st1, outs))
    (hex : st1.exited = true) : st1.is_done = true := by
  unfold service_step at e
  cases hreq : (if tag = Tag.TAG_LOOKUP_REQ then
      (handle_lookup_request id_to_rank self msg).map (fun o => [o]) else some []) with
  | none =>
    rw [hreq] at e
    exact absurd e (by simp)
  | some sent1 =>
    rw [hreq] at e
    dsimp only at e
    cases hsto : (if tag = Tag.TAG_LOOKUP_REP then store_reply st.messages msg
        else some st.messages) with
    | none =>
      rw [hsto] at e
      exact absurd e (by simp)
    | some ms =>
      rw [hsto] at e
      dsimp only at e
      have e1 := (Prod.mk.inj (Option.some.inj e)).1
      subst e1
      simp only [Bool.and_eq_true] at hex
      exact hex.1

theorem service_trace_exit (world_rank world_size : Nat) (id_to_rank : List Int)
    (self : NodeState) (nr_lookups : Nat) (ms : List (Tag × LookupMsg)) :
    ∀ (st : ServiceState) (tr : List Iteration),
      service_trace world_rank world_size id_to_rank self nr_lookups st ms = some tr →
      ∀ it ∈ tr, it.after.exited = true → it.after.is_done = true := by
  induction ms with
  | nil =>
    intro st tr htr it hit
    rw [service_trace] at htr
    have := Option.some.inj htr
    subst this
    exact absurd hit (List.not_mem_nil it)
  | cons a rest ih =>
    intro st tr htr it hit
    obtain ⟨tag, msg⟩ := a
    rw [service_trace] at htr
    split_ifs at htr with hex
    · have := Option.some.inj htr
      subst this
      exact absurd hit (List.not_mem_nil it)
    · cases hstep : service_step world_rank world_size id_to_rank self nr_lookups st tag msg with
      | none =>
        rw [hstep] at htr
        exact absurd htr (by simp)
      | some res =>
        obtain ⟨st1, outs⟩ := res
        rw [hstep] at htr
        dsimp only at htr
        cases hrest : service_trace world_rank world_size id_to_rank self nr_lookups st1 rest with
        | none =>
          rw [hrest] at htr
          exact absurd htr (by simp)
        | some tr1 =>
          rw [hrest] at htr
          dsimp only at htr
          have := Option.some.inj htr
          subst this
          rcases List.mem_cons.mp hit with h1 | h1
          · subst h1
            exact service_step_exit _ _ _ _ _ _ _ _ _ _ hstep
          · exact ih st1 tr1 hrest it h1

/-- The iterations of the service loop of a process with `nr` local lookups on a sequence
`ms` of received messages: iteration `j` sets `is_done` exactly when
it is the first iteration after which the count of received REPLY messages equals `nr`;
such an iteration sends exactly the DONE broadcast (one `TAG_DONE` to each rank other than
its own, `world_size - 1` messages, none to itself) and every other iteration sends no
DONE; no two iterations fire, and when the loop is left some iteration has fired. -/
theorem done_broadcast_once (world_rank world_size : Nat) (id_to_rank : List Int)
    (self : NodeState) (nr : Nat) (slots : List LookupMsg) (ms : List (Tag × LookupMsg))
    (tr : List Iteration) (hwr : world_rank < world_size)
    (hrun : service_trace world_rank world_size id_to_rank self nr (service_init slots) ms
      = some tr) :
    (∀ j (hj : j < tr.length),
      (fires (tr[j]) = true ↔
        (reply_count (ms.take (j + 1)) = nr ∧
          ∀ i, i < j → reply_count (ms.take (i + 1)) ≠ nr)) ∧
      (fires (tr[j]) = true → done_sent (tr[j]) = done_broadcast world_rank world_size) ∧
      (fires (tr[j]) = false → done_sent (tr[j]) = [])) ∧
    (∀ i j (hi : i < tr.length) (hj : j < tr.length),
      fires (tr[i]) = true → fires (tr[j]) = true → i = j) ∧
    ((∃ j, j < tr.length ∧ reply_count (ms.take (j + 1)) = nr) →
      ∃ j, ∃ hj : j < tr.length, fires (tr[j]) = true) ∧
    ((done_broadcast world_rank world_size).length = world_size - 1 ∧
      (∀ o ∈ done_broadcast world_rank world_size,
        o.tag = Tag.TAG_DONE ∧ o.dest ≠ (world_rank : Int)) ∧
      ((done_broadcast world_rank world_size).map (fun o => o.dest)).Nodup ∧
      (∀ i : Nat, i < world_size → i ≠ world_rank →
        (i : Int) ∈ (done_broadcast world_rank world_size).map (fun o => o.dest))) ∧
    (∀ j (hj : j < tr.length), (tr[j]).after.exited = true →
      ∃ i, ∃ hi : i < tr.length, fires (tr[i]) = true) := by
  have hinv := service_trace_inv world_rank world_size id_to_rank self nr ms
    (service_init slots) tr hrun
  have hfire : ∀ j (hj : j < tr.length),
      (fires (tr[j]) = true ↔
        (reply_count (ms.take (j + 1)) = nr ∧
          ∀ i, i < j → reply_count (ms.take (i + 1)) ≠ nr)) := by
    intro j hj
    obtain ⟨i1, i2, i3, _⟩ := hinv j hj
    have hb : (tr[j]).before.is_done = true ↔
        ∃ i, i < j ∧ reply_count (ms.take (i + 1)) = nr := by
      rw [i1]
      constructor
      · intro hd
        rcases hd with hd | ⟨i, hi, hc⟩
        · exact absurd hd (by simp [service_init])
        · exact ⟨i, hi, by simpa [service_init] using hc⟩
      · intro hd
        obtain ⟨i, hi, hc⟩ := hd
        exact Or.inr ⟨i, hi, by simpa [service_init] using hc⟩
    have ha : (tr[j]).after.lookups_done = reply_count (ms.take (j + 1)) := by
      rw [i2]
      simp [service_init]
    unfold fires
    rw [Bool.and_eq_true, Bool.not_eq_true', ← Bool.not_eq_true, i3, hb, ha]
    constructor
    · intro hd
      obtain ⟨h1, h2⟩ := hd
      push_neg at h1
      rcases h2 with ⟨i, hi, hc⟩ | h2
      · exact absurd hc (h1 i hi)
      · exact ⟨h2, h1⟩
    · intro hd
      obtain ⟨h1, h2⟩ := hd
      refine ⟨?_, Or.inr h1⟩
      push_neg
      exact h2
  have hexists : (∃ j, j < tr.length ∧ reply_count (ms.take (j + 1)) = nr) →
      ∃ j, ∃ hj : j < tr.length, fires (tr[j]) = true := by
    intro hex
    classical
    have hex2 : ∃ j, j < tr.length ∧ reply_count (ms.take (j + 1)) = nr := hex
    obtain ⟨hj0, hc0⟩ := Nat.find_spec hex2
    refine ⟨Nat.find hex2, hj0, ?_⟩
    rw [hfire _ hj0]
    refine ⟨hc0, ?_⟩
    intro i hi hc
    exact Nat.find_min hex2 hi ⟨by omega, hc⟩
  refine ⟨?_, ?_, hexists, done_broadcast_spec world_rank world_size hwr, ?_⟩
  · intro j hj
    obtain ⟨_, _, _, i4⟩ := hinv j hj
    refine ⟨hfire j hj, ?_, ?_⟩
    · intro hf
      rw [i4, if_pos hf]
    · intro hf
      rw [i4, if_neg (by rw [hf]; decide)]
  · intro i j hi hj hfi hfj
    obtain ⟨a1, a2⟩ := (hfire i hi).mp hfi
    obtain ⟨b1, b2⟩ := (hfire j hj).mp hfj
    rcases Nat.lt_trichotomy i j with hlt | heq | hgt
    · exact absurd a1 (b2 i hlt)
    · exact heq
    · exact absurd b1 (a2 j hgt)
  · intro j hj hex
    apply hexists
    have hd := service_trace_exit world_rank world_size id_to_rank self nr ms
      (service_init slots) tr hrun (tr[j]) (List.getElem_mem hj) hex
    obtain ⟨i1, i2, i3, _⟩ := hinv j hj
    rw [i3, i1, i2] at hd
    rcases hd with (hd | ⟨i, hi, hc⟩) | hd
    · exact absurd hd (by simp [service_init])
    · exact ⟨i, by omega, by simpa [service_init] using hc⟩
    · exact ⟨j, hj, by simpa [service_init] using hd⟩

/-- An instance of `done_broadcast_once`: rank 0 of three processes with one local lookup
receives a ROUTE request, then its REPLY, then a DONE; the second iteration fires and
sends two DONE messages. -/
theorem done_broadcast_once_witness :
    (service_trace 0 3 (build_id_maps [4, 1, 9]) (node_state [4, 1, 9] 4) 1
      (service_init [default])
      [(Tag.TAG_LOOKUP_REQ, new_lookup 4 0 3), (Tag.TAG_LOOKUP_REP, new_lookup 4 0 3),
        (Tag.TAG_DONE, default)]).map (fun tr => tr.map (fun it => (fires it, (done_sent it).length)))
      = some [(false, 0), (true, 2), (false, 0)] ∧
    ∃ tr, service_trace 0 3 (build_id_maps [4, 1, 9]) (node_state [4, 1, 9] 4) 1
        (service_init [default])
        [(Tag.TAG_LOOKUP_REQ, new_lookup 4 0 3), (Tag.TAG_LOOKUP_REP, new_lookup 4 0 3),
          (Tag.TAG_DONE, default)] = some tr ∧
      (∀ i j (hi : i < tr.length) (hj : j < tr.length),
        fires (tr[i]) = true → fires (tr[j]) = true → i = j) ∧
      ∀ j (hj : j < tr.length),
        (fires (tr[j]) = true → done_sent (tr[j]) = done_broadcast 0 3) ∧
        (fires (tr[j]) = false → done_sent (tr[j]) = []) :=
  ⟨by decide, _, rfl,
    (done_broadcast_once 0 3 (build_id_maps [4, 1, 9]) (node_state [4, 1, 9] 4) 1 [default]
      [(Tag.TAG_LOOKUP_REQ, new_lookup 4 0 3), (Tag.TAG_LOOKUP_REP, new_lookup 4 0 3),
        (Tag.TAG_DONE, default)] _ (by decide) rfl).2.1,
    fun j hj => ((done_broadcast_once 0 3 (build_id_maps [4, 1, 9]) (node_state [4, 1, 9] 4) 1
      [default]
      [(Tag.TAG_LOOKUP_REQ, new_lookup 4 0 3), (Tag.TAG_LOOKUP_REP, new_lookup 4 0 3),
        (Tag.TAG_DONE, default)] _ (by decide) rfl).1 j hj).2⟩

/-! ## The DONE broadcast of a process without lookups -/

/-- Claim C13, evaluated at a process with no local lookup (`nr_lookups = 0`).  On entry
of the service loop the count of received REPLY messages, 0, already equals `nr_lookups`,
but `is_done` is clear: the test is reached only after a message has been received.  With
no received message no iteration runs and the transition never fires; as the only process
of a run (input `5 0`) it has no message in flight and no step enabled, so it never fires
at all.  As rank 1 of two processes (inputs `1 1 3` and `4 0`) it has no step enabled and
no DONE in flight in the initial state, and the transition fires only in the iteration
that handles the first received message, a DONE of rank 0. -/
theorem done_broadcast_late_without_lookups :
    ((service_init []).lookups_done = 0 ∧ (service_init []).is_done = false) ∧
    (service_trace 0 1 (build_id_maps [5]) (node_state [5] 5) 0 (service_init []) []
        = some [] ∧
      run_service 0 1 (build_id_maps [5]) (node_state [5] 5) 0 (service_init []) []
        = some (service_init [])) ∧
    (init_global [5] [[]] = some (Global.mk [service_init []] []) ∧
      ∀ r s, global_step [5] [[]] (Global.mk [service_init []] []) r s = none) ∧
    (init_global [1, 4] [[3], []] =
        some (Global.mk [service_init [default], service_init []]
          [Envelope.mk 0 0 Tag.TAG_LOOKUP_REQ (new_lookup 1 0 3)]) ∧
      ∀ s, global_step [1, 4] [[3], []]
        (Global.mk [service_init [default], service_init []]
          [Envelope.mk 0 0 Tag.TAG_LOOKUP_REQ (new_lookup 1 0 3)]) 1 s = none) ∧
    (service_trace 1 2 (build_id_maps [1, 4]) (node_state [1, 4] 4) 0 (service_init [])
        [(Tag.TAG_DONE, default)]).map
        (fun tr => tr.map (fun it =>
          (it.before.lookups_done, it.before.is_done, fires it, done_sent it)))
      = some [(0, false, true, [Outbound.mk 0 Tag.TAG_DONE default])] := by
  refine ⟨⟨rfl, rfl⟩, ⟨rfl, rfl⟩, ⟨by decide, ?_⟩, ⟨by decide, ?_⟩, by decide⟩
  · intro r s
    unfold global_step
    cases hr : (Global.mk [service_init []] []).procs[r]? with
    | none => rfl
    | some st =>
      by_cases he : st.exited = true
      · simp [he]
      · simp [he]
  · intro s
    unfold global_step
    simp [service_init]

/-! ## Steps of the global model -/

/-- The messages put in flight by `post`: one envelope per message, in order, each to a
rank of the communicator. -/
theorem post_some (world_size src : Nat) (outs : List Outbound) (envs : List Envelope)
    (e : post world_size src outs = some envs) :
    envs = outs.map (fun o => Envelope.mk src o.dest.toNat o.tag o.msg) ∧
    ∀ o ∈ outs, 0 ≤ o.dest ∧ o.dest < (world_size : Int) := by
  induction outs generalizing envs with
  | nil =>
    rw [post] at e
    have := Option.some.inj e
    subst this
    exact ⟨rfl, fun o ho => absurd ho (List.not_mem_nil o)⟩
  | cons o rest ih =>
    rw [post] at e
    split_ifs at e with hd
    cases hrest : post world_size src rest with
    | none =>
      rw [hrest] at e
      exact absurd e (by simp)
    | some envs1 =>
      rw [hrest] at e
      dsimp only at e
      have := Option.some.inj e
      subst this
      obtain ⟨i1, i2⟩ := ih envs1 hrest
      refine ⟨by rw [i1]; rfl, ?_⟩
      intro o2 ho2
      rcases List.mem_cons.mp ho2 with h1 | h1
      · rw [h1]; exact hd
      · exact i2 o2 h1

/-- A step of the global model, taken apart: the receiving process, the message it
receives, the iteration of its service loop and the messages put in flight. -/
theorem global_step_some (all_ids : List Int) (lookups : List (List Int)) (g g1 : Global)
    (r s : Nat) (hstep : global_step all_ids lookups g r s = some g1) :
    ∃ st e st1 outs,
      g.procs[r]? = some st ∧ st.exited = false ∧
      g.net.find? (fun e => decide (e.src = s ∧ e.dest = r)) = some e ∧
      e ∈ g.net ∧ e.dest = r ∧
      service_step r all_ids.length (build_id_maps all_ids)
        (node_state all_ids (all_ids.getD r 0)) (lookups.getD r []).length st e.tag e.msg
        = some (st1, outs) ∧
      (∀ o ∈ outs, 0 ≤ o.dest ∧ o.dest < (all_ids.length : Int)) ∧
      g1 = { procs := g.procs.set r st1,
             net := g.net.erase e ++ outs.map (fun o => Envelope.mk r o.dest.toNat o.tag o.msg) } := by
  unfold global_step at hstep
  cases hst : g.procs[r]? with
  | none =>
    rw [hst] at hstep
    exact absurd hstep (by simp)
  | some st =>
    rw [hst] at hstep
    dsimp only at hstep
    split_ifs at hstep with hex
    cases hfind : g.net.find? (fun e => decide (e.src = s ∧ e.dest = r)) with
    | none =>
      rw [hfind] at hstep
      exact absurd hstep (by simp)
    | some e =>
      rw [hfind] at hstep
      dsimp only at hstep
      cases hserv : service_step r all_ids.length (build_id_maps all_ids)
          (node_state all_ids (all_ids.getD r 0)) (lookups.getD r []).length st e.tag e.msg with
      | none =>
        rw [hserv] at hstep
        exact absurd hstep (by simp)
      | some res =>
        obtain ⟨st1, outs⟩ := res
        rw [hserv] at hstep
        dsimp only at hstep
        cases hpost : post all_ids.length r outs with
        | none =>
          rw [hpost] at hstep
          exact absurd hstep (by simp)
        | some envs =>
          rw [hpost] at hstep
          dsimp only at hstep
          obtain ⟨p1, p2⟩ := post_some _ _ _ _ hpost
          have hdest : e.dest = r := by
            have := List.find?_some hfind
            simp only [decide_eq_true_eq] at this
            exact this.2
          refine ⟨st, e, st1, outs, rfl, by simpa using hex, rfl,
            List.mem_of_find?_eq_some hfind, hdest, hserv, p2, ?_⟩
          rw [← p1]
          exact (Option.some.inj hstep).symm

/-- What a successful call of `handle_lookup_request` keeps and where a REPLY goes. -/
theorem handle_lookup_request_fields (id_to_rank : List Int) (self : NodeState)
    (msg : LookupMsg) (o : Outbound)
    (e : handle_lookup_request id_to_rank self msg = some o) :
    o.msg.initiator_id = msg.initiator_id ∧ o.msg.seq = msg.seq ∧ o.msg.key = msg.key ∧
    o.tag ≠ Tag.TAG_DONE ∧
    (o.tag = Tag.TAG_LOOKUP_REP →
      o.dest = rank_from_id id_to_rank msg.initiator_id ∧ 0 < o.msg.path_len) := by
  unfold handle_lookup_request at e
  by_cases hp : msg.path_len < MAX_PATH
  · have e1 : path_push msg self.id = some
        { msg with path := msg.path.set msg.path_len self.id, path_len := msg.path_len + 1 } := by
      unfold path_push
      rw [if_pos hp]
    rw [e1] at e
    dsimp only at e
    split_ifs at e with hin
    · by_cases hp2 : msg.path_len + 1 < MAX_PATH
      · unfold path_push at e
        dsimp only at e
        rw [if_pos hp2] at e
        dsimp only at e
        have := Option.some.inj e
        subst this
        exact ⟨rfl, rfl, rfl, fun hh => Tag.noConfusion hh, fun _ => ⟨rfl, Nat.succ_pos _⟩⟩
      · unfold path_push at e
        dsimp only at e
        rw [if_neg hp2] at e
        exact absurd e (by simp)
    · have := Option.some.inj e
      subst this
      exact ⟨rfl, rfl, rfl, fun hh => Tag.noConfusion hh, fun hh => Tag.noConfusion hh⟩
  · have e1 : path_push msg self.id = none := by
      unfold path_push
      rw [if_neg hp]
    rw [e1] at e
    exact absurd e (by simp)

/-- One iteration of the service loop, by the tag of the received message; `D` is the
DONE broadcast when the iteration fires and empty otherwise. -/
theorem service_step_cases (world_rank world_size : Nat) (id_to_rank : List Int)
    (self : NodeState) (nr_lookups : Nat) (st st1 : ServiceState) (tag : Tag)
    (msg : LookupMsg) (outs : List Outbound)
    (e : service_step world_rank world_size id_to_rank self nr_lookups st tag msg
      = some (st1, outs)) :
    ∃ D : List Outbound, (∀ o ∈ D, o.tag = Tag.TAG_DONE) ∧
      (st1.is_done = true → st.is_done = true ∨ st1.lookups_done = nr_lookups) ∧
      (st1.exited = true → st1.is_done = true) ∧
      ((tag = Tag.TAG_LOOKUP_REQ ∧ ∃ o, handle_lookup_request id_to_rank self msg = some o ∧
          outs = o :: D ∧ st1.messages = st.messages ∧ st1.lookups_done = st.lookups_done) ∨
       (tag = Tag.TAG_LOOKUP_REP ∧ 0 ≤ msg.seq ∧ msg.seq < (st.messages.length : Int) ∧
          st1.messages = st.messages.set msg.seq.toNat msg ∧
          st1.lookups_done = st.lookups_done + 1 ∧ outs = D) ∨
       (tag = Tag.TAG_DONE ∧ st1.messages = st.messages ∧
          st1.lookups_done = st.lookups_done ∧ outs = D)) := by
  have hdb : ∀ b : Bool, ∀ o ∈ (if b = true then done_broadcast world_rank world_size else []),
      o.tag = Tag.TAG_DONE := by
    intro b o ho
    cases b with
    | false => exact absurd ho (by simp)
    | true =>
      rw [if_pos rfl] at ho
      unfold done_broadcast at ho
      obtain ⟨i, _, rfl⟩ := List.mem_map.mp ho
      rfl
  unfold service_step at e
  cases tag with
  | TAG_LOOKUP_REQ =>
    cases hh : handle_lookup_request id_to_rank self msg with
    | none => simp [hh] at e
    | some o =>
      simp only [hh, if_true, Option.map_some', reduceCtorEq, if_false, Option.some.injEq,
        Prod.mk.injEq] at e
      obtain ⟨e1, e2⟩ := e
      subst e1
      subst e2
      refine ⟨_, hdb _, ?_, ?_, Or.inl ⟨rfl, o, rfl, rfl, rfl, rfl⟩⟩
      · cases hd : st.is_done <;> simp
      · simp only [Bool.and_eq_true]
        exact fun hh => hh.1
  | TAG_LOOKUP_REP =>
    cases hs : store_reply st.messages msg with
    | none => simp [hs] at e
    | some ms =>
      simp only [reduceCtorEq, if_false, if_true, hs, Option.some.injEq, Prod.mk.injEq] at e
      obtain ⟨e1, e2⟩ := e
      subst e1
      subst e2
      unfold store_reply at hs
      split_ifs at hs with hrange
      have hms := Option.some.inj hs
      refine ⟨_, hdb _, ?_, ?_, Or.inr (Or.inl ⟨rfl, hrange.1, hrange.2, hms.symm, rfl,
        List.nil_append _⟩)⟩
      · cases hd : st.is_done <;> simp
      · simp only [Bool.and_eq_true]
        exact fun hh => hh.1
  | TAG_DONE =>
    simp only [reduceCtorEq, if_false, if_true, Option.some.injEq, Prod.mk.injEq] at e
    obtain ⟨e1, e2⟩ := e
    subst e1
    subst e2
    refine ⟨_, hdb _, ?_, ?_, Or.inr (Or.inr ⟨rfl, rfl, rfl, List.nil_append _⟩)⟩
    · cases hd : st.is_done <;> simp
    · simp only [Bool.and_eq_true]
      exact fun hh => hh.1

/-! ## The invariant is kept by every step -/

theorem countP_erase_mem (p : Envelope → Bool) (l : List Envelope) (e : Envelope)
    (he : e ∈ l) :
    l.countP p = (l.erase e).countP p + (if p e = true then 1 else 0) := by
  rw [(List.perm_cons_erase he).countP_eq p, List.countP_cons]

/-- DONE messages put in flight are the message of no lookup. -/
theorem countP_carries_done (all_ids : List Int) (r i src : Nat) (D : List Outbound)
    (hD : ∀ o ∈ D, o.tag = Tag.TAG_DONE) :
    (D.map (fun o => Envelope.mk src o.dest.toNat o.tag o.msg)).countP (carries all_ids r i)
      = 0 := by
  rw [List.countP_eq_zero]
  intro e he
  obtain ⟨o, ho, rfl⟩ := List.mem_map.mp he
  unfold carries
  simp [hD o ho]

/-- Two ranks of a well-formed ring with the same id are the same rank. -/
theorem rank_eq_of_id_eq {all_ids : List Int} (h : WellFormed all_ids) {r1 r2 : Nat}
    (h1 : r1 < all_ids.length) (h2 : r2 < all_ids.length)
    (he : all_ids.getD r1 0 = all_ids.getD r2 0) : r1 = r2 := by
  rw [List.getD_eq_getElem all_ids 0 h1, List.getD_eq_getElem all_ids 0 h2] at he
  exact (h.2.2.1.getElem_inj_iff).mp he

/-- The invariant after the state of one rank and the messages in flight have changed,
from the facts about the new state of that rank and the new messages in flight. -/
theorem inv_update (all_ids : List Int) (lookups : List (List Int)) (g : Global) (r : Nat)
    (st st1 : ServiceState) (net1 : List Envelope)
    (hinv : GlobalInv all_ids lookups g) (hst : g.procs[r]? = some st)
    (hlen : st1.messages.length = st.messages.length)
    (hld : st1.lookups_done = st1.messages.countP slot_written)
    (hdone : st1.is_done = true → st1.lookups_done = (lookups.getD r []).length)
    (hexit : st1.exited = true → st1.is_done = true)
    (hwritten : ∀ (i : Nat) m, st1.messages[i]? = some m → slot_written m = true →
      m.seq = (i : Int) ∧ m.key = (lookups.getD r []).getD i 0 ∧
      m.initiator_id = all_ids.getD r 0)
    (hcount : ∀ (i : Nat) m, st1.messages[i]? = some m →
      net1.countP (carries all_ids r i) + (if slot_written m = true then 1 else 0) = 1)
    (hother : ∀ r2 i, r2 < all_ids.length → r2 ≠ r →
      net1.countP (carries all_ids r2 i) = g.net.countP (carries all_ids r2 i))
    (henv : ∀ e ∈ net1, e.tag ≠ Tag.TAG_DONE →
      ∃ r i, r < all_ids.length ∧ i < (lookups.getD r []).length ∧
        e.msg.initiator_id = all_ids.getD r 0 ∧ e.msg.seq = (i : Int) ∧
        e.msg.key = (lookups.getD r []).getD i 0 ∧
        (e.tag = Tag.TAG_LOOKUP_REP → e.dest = r ∧ 0 < e.msg.path_len)) :
    GlobalInv all_ids lookups { procs := g.procs.set r st1, net := net1 } := by
  obtain ⟨i1, i2, _⟩ := hinv
  have hr : r < g.procs.length := by
    by_contra hcon
    rw [List.getElem?_eq_none (by omega)] at hst
    exact absurd hst (by simp)
  refine ⟨by simp only [List.length_set]; exact i1, ?_, henv⟩
  intro r2 st2 hst2
  simp only [List.getElem?_set] at hst2
  by_cases hrr : r = r2
  · subst hrr
    rw [if_pos rfl, if_pos hr] at hst2
    have := Option.some.inj hst2
    subst this
    obtain ⟨a1, _, _, _, _, _⟩ := i2 r st hst
    exact ⟨by rw [hlen, a1], hld, hdone, hexit, hwritten, hcount⟩
  · rw [if_neg hrr] at hst2
    obtain ⟨a1, a2, a3, a4, a5, a6⟩ := i2 r2 st2 hst2
    have hr2 : r2 < all_ids.length := by
      rw [← i1]
      by_contra hcon
      rw [List.getElem?_eq_none (by omega)] at hst2
      exact absurd hst2 (by simp)
    refine ⟨a1, a2, a3, a4, a5, ?_⟩
    intro i m hm
    show net1.countP (carries all_ids r2 i) + _ = 1
    rw [hother r2 i hr2 (fun hh => hrr hh.symm)]
    exact a6 i m hm

/-- A REPLY in flight to rank `r`: it is the REPLY of a lookup `i` of rank `r`, it is the
only message in flight of that lookup, and slot `i` of rank `r` is not written. -/
theorem reply_facts {all_ids : List Int} {lookups : List (List Int)} {g : Global}
    (hinv : GlobalInv all_ids lookups g) {r : Nat}
    {st : ServiceState} (hst : g.procs[r]? = some st) {e : Envelope} (he : e ∈ g.net)
    (hdest : e.dest = r) (htag : e.tag = Tag.TAG_LOOKUP_REP) :
    e.msg.initiator_id = all_ids.getD r 0 ∧
    ∃ i : Nat, i < (lookups.getD r []).length ∧ i < st.messages.length ∧
      e.msg.seq = (i : Int) ∧
      e.msg.key = (lookups.getD r []).getD i 0 ∧ 0 < e.msg.path_len ∧
      carries all_ids r i e = true ∧ g.net.countP (carries all_ids r i) = 1 ∧
      ∃ m0, st.messages[i]? = some m0 ∧ slot_written m0 = false := by
  obtain ⟨_, i2, i3⟩ := hinv
  obtain ⟨r0, i0, b1, b2, b3, b4, b5, b6⟩ := i3 e he (by rw [htag]; decide)
  obtain ⟨c1, c2⟩ := b6 htag
  have hr0 : r0 = r := by rw [← c1, hdest]
  subst hr0
  obtain ⟨a1, _, _, _, _, a6⟩ := i2 r0 st hst
  have hi0 : i0 < st.messages.length := by rw [a1]; exact b2
  have hcar : carries all_ids r0 i0 e = true := by
    unfold carries
    rw [decide_eq_true_eq]
    exact ⟨by rw [htag]; decide, b3, b4⟩
  have hpos : 0 < g.net.countP (carries all_ids r0 i0) :=
    List.countP_pos_iff.mpr ⟨e, he, hcar⟩
  have hget : st.messages[i0]? = some st.messages[i0] := List.getElem?_eq_getElem hi0
  have hc := a6 i0 _ hget
  refine ⟨b3, i0, b2, hi0, b4, b5, c2, hcar, ?_, st.messages[i0], hget, ?_⟩
  · split_ifs at hc <;> omega
  · cases hw : slot_written st.messages[i0] with
    | false => rfl
    | true =>
      rw [hw] at hc
      simp only [if_true] at hc
      omega

/-- The invariant is kept by every step of the global model. -/
theorem inv_step {all_ids : List Int} {lookups : List (List Int)} {g g1 : Global}
    (h : WellFormed all_ids) (hinv : GlobalInv all_ids lookups g) {r s : Nat}
    (hstep : global_step all_ids lookups g r s = some g1) :
    GlobalInv all_ids lookups g1 := by
  obtain ⟨st, e, st1, outs, hst, _, _, hemem, hdest, hserv, _, hg1⟩ :=
    global_step_some all_ids lookups g g1 r s hstep
  subst hg1
  obtain ⟨D, hD, hdone, hexit, hcases⟩ := service_step_cases _ _ _ _ _ _ _ _ _ _ hserv
  have hinv0 := hinv
  obtain ⟨i1, i2, i3⟩ := hinv
  obtain ⟨a1, a2, a3, a4, a5, a6⟩ := i2 r st hst
  have henv_old : ∀ e2 ∈ g.net.erase e, e2.tag ≠ Tag.TAG_DONE →
      ∃ r i, r < all_ids.length ∧ i < (lookups.getD r []).length ∧
        e2.msg.initiator_id = all_ids.getD r 0 ∧ e2.msg.seq = (i : Int) ∧
        e2.msg.key = (lookups.getD r []).getD i 0 ∧
        (e2.tag = Tag.TAG_LOOKUP_REP → e2.dest = r ∧ 0 < e2.msg.path_len) :=
    fun e2 he2 => i3 e2 (List.mem_of_mem_erase he2)
  have henv_done : ∀ e2 ∈ D.map (fun o => Envelope.mk r o.dest.toNat o.tag o.msg),
      e2.tag ≠ Tag.TAG_DONE → False := by
    intro e2 he2 hne
    obtain ⟨o, ho, rfl⟩ := List.mem_map.mp he2
    exact hne (hD o ho)
  rcases hcases with ⟨htag, o, hh, houts, hmsgs, hlds⟩ | ⟨htag, hs0, hs1, hmsgs, hlds, houts⟩ |
    ⟨htag, hmsgs, hlds, houts⟩
  · -- a ROUTE request is handled: the lookup stays in flight once
    obtain ⟨f1, f2, f3, f4, f5⟩ := handle_lookup_request_fields _ _ _ _ hh
    have hcar : ∀ r2 i, carries all_ids r2 i (Envelope.mk r o.dest.toNat o.tag o.msg)
        = carries all_ids r2 i e := by
      intro r2 i
      unfold carries
      have : e.tag ≠ Tag.TAG_DONE := by rw [htag]; decide
      simp only [f1, f2, f4, this, ne_eq, not_false_eq_true, true_and]
    have hcount : ∀ r2 i, (g.net.erase e ++ outs.map
        (fun o => Envelope.mk r o.dest.toNat o.tag o.msg)).countP (carries all_ids r2 i)
        = g.net.countP (carries all_ids r2 i) := by
      intro r2 i
      rw [houts, List.map_cons, List.countP_append, List.countP_cons,
        countP_carries_done all_ids r2 i r D hD, hcar,
        countP_erase_mem (carries all_ids r2 i) g.net e hemem]
      omega
    apply inv_update all_ids lookups g r st st1 _ hinv0 hst
    · rw [hmsgs]
    · rw [hlds, hmsgs]; exact a2
    · intro hd
      rcases hdone hd with h1 | h1
      · rw [hlds]; exact a3 h1
      · exact h1
    · exact hexit
    · rw [hmsgs]; exact a5
    · intro i m hm
      rw [hcount]
      rw [hmsgs] at hm
      exact a6 i m hm
    · intro r2 i _ _
      exact hcount r2 i
    · intro e2 he2 hne
      rcases List.mem_append.mp he2 with h1 | h1
      · exact henv_old e2 h1 hne
      · rw [houts, List.map_cons] at h1
        rcases List.mem_cons.mp h1 with h2 | h2
        · obtain ⟨r0, i0, b1, b2, b3, b4, b5, _⟩ := i3 e hemem (by rw [htag]; decide)
          subst h2
          refine ⟨r0, i0, b1, b2, by rw [← b3]; exact f1, by rw [← b4]; exact f2,
            by rw [← b5]; exact f3, ?_⟩
          intro hrep
          obtain ⟨g1, g2⟩ := f5 hrep
          refine ⟨?_, g2⟩
          show o.dest.toNat = r0
          rw [g1, b3, List.getD_eq_getElem all_ids 0 b1, rank_from_id_of_rank h b1]
          rfl
        · exact absurd hne (fun hh2 => henv_done e2 h2 hh2)
  · -- a REPLY is stored
    have htag2 : e.tag = Tag.TAG_LOOKUP_REP := htag
    obtain ⟨q1, i0, q2, q3, q4, q5, q6, q7, q8, m0, q9, q10⟩ :=
      reply_facts hinv0 hst hemem hdest htag2
    have hseq : e.msg.seq.toNat = i0 := by rw [q4]; rfl
    rw [hseq] at hmsgs
    rw [houts]
    have hm0 : st.messages[i0] = m0 := by
      have := List.getElem?_eq_getElem q3
      rw [this] at q9
      exact Option.some.inj q9
    have hwr : slot_written e.msg = true := by
      unfold slot_written
      rw [decide_eq_true_eq]
      exact q6
    have hcountr : ∀ i, (g.net.erase e ++ D.map
        (fun o => Envelope.mk r o.dest.toNat o.tag o.msg)).countP (carries all_ids r i)
        + (if carries all_ids r i e = true then 1 else 0)
        = g.net.countP (carries all_ids r i) := by
      intro i
      rw [List.countP_append, countP_carries_done all_ids r i r D hD,
        countP_erase_mem (carries all_ids r i) g.net e hemem]
      omega
    have hcar_iff : ∀ i : Nat, carries all_ids r i e = true ↔ i = i0 := by
      intro i
      unfold carries
      rw [decide_eq_true_eq]
      constructor
      · intro hh
        have := hh.2.2
        rw [q4] at this
        omega
      · intro hh
        subst hh
        exact ⟨by rw [htag2]; decide, q1, q4⟩
    apply inv_update all_ids lookups g r st st1 _ hinv0 hst
    · rw [hmsgs, List.length_set]
    · rw [hlds, hmsgs, List.countP_set slot_written st.messages i0 e.msg q3, hm0, q10, hwr,
        ← a2]
      simp
    · intro hd
      rcases hdone hd with h1 | h1
      · exfalso
        have hall := a3 h1
        rw [a2, ← a1] at hall
        have hw := (List.countP_eq_length.mp hall) m0 (by rw [← hm0]; exact List.getElem_mem q3)
        rw [q10] at hw
        exact absurd hw (by simp)
      · exact h1
    · exact hexit
    · intro i m hm hw
      rw [hmsgs, List.getElem?_set] at hm
      by_cases hi : i0 = i
      · subst hi
        rw [if_pos rfl, if_pos q3] at hm
        have := Option.some.inj hm
        subst this
        exact ⟨q4, q5, q1⟩
      · rw [if_neg hi] at hm
        exact a5 i m hm hw
    · intro i m hm
      rw [hmsgs, List.getElem?_set] at hm
      have hc := hcountr i
      by_cases hi : i0 = i
      · subst hi
        rw [if_pos rfl, if_pos q3] at hm
        have := Option.some.inj hm
        subst this
        rw [if_pos q7, q8] at hc
        rw [hwr]
        simp only [if_true]
        omega
      · rw [if_neg hi] at hm
        have hnc : ¬ (carries all_ids r i e = true) := by
          rw [hcar_iff]
          exact fun hh => hi hh.symm
        rw [if_neg hnc] at hc
        rw [Nat.add_zero] at hc
        rw [hc]
        exact a6 i m hm
    · intro r2 i hr2 hne
      have hnc : carries all_ids r2 i e = false := by
        unfold carries
        rw [decide_eq_false_iff_not]
        intro hh
        have hr : r < all_ids.length := by
          rw [← i1]
          by_contra hcon
          rw [List.getElem?_eq_none (by omega)] at hst
          exact absurd hst (by simp)
        exact hne (rank_eq_of_id_eq h hr2 hr (hh.2.1.symm.trans q1))
      rw [List.countP_append, countP_carries_done all_ids r2 i r D hD,
        countP_erase_mem (carries all_ids r2 i) g.net e hemem, hnc]
      simp
    · intro e2 he2 hne
      rcases List.mem_append.mp he2 with h1 | h1
      · exact henv_old e2 h1 hne
      · exact absurd hne (fun hh2 => henv_done e2 h1 hh2)
  · -- a DONE is counted
    have hnc : ∀ r2 i, carries all_ids r2 i e = false := by
      intro r2 i
      unfold carries
      rw [decide_eq_false_iff_not]
      intro hh
      exact hh.1 htag
    have hcount : ∀ r2 i, (g.net.erase e ++ outs.map
        (fun o => Envelope.mk r o.dest.toNat o.tag o.msg)).countP (carries all_ids r2 i)
        = g.net.countP (carries all_ids r2 i) := by
      intro r2 i
      rw [houts, List.countP_append, countP_carries_done all_ids r2 i r D hD,
        countP_erase_mem (carries all_ids r2 i) g.net e hemem, hnc]
      simp
    apply inv_update all_ids lookups g r st st1 _ hinv0 hst
    · rw [hmsgs]
    · rw [hlds, hmsgs]; exact a2
    · intro hd
      rcases hdone hd with h1 | h1
      · rw [hlds]; exact a3 h1
      · exact h1
    · exact hexit
    · rw [hmsgs]; exact a5
    · intro i m hm
      rw [hcount]
      rw [hmsgs] at hm
      exact a6 i m hm
    · intro r2 i _ _
      exact hcount r2 i
    · intro e2 he2 hne
      rcases List.mem_append.mp he2 with h1 | h1
      · exact henv_old e2 h1 hne
      · rw [houts] at h1
        exact absurd hne (fun hh2 => henv_done e2 h1 hh2)

/-! ## The invariant holds initially -/

theorem countP_range_eq (n i : Nat) :
    (List.range n).countP (fun j => decide (j = i)) = if i < n then 1 else 0 := by
  have hc : (List.range n).countP (fun j => decide (j = i)) = (List.range n).count i := by
    rw [List.count_eq_countP]
    apply List.countP_congr
    intro x _
    simp only [decide_eq_true_eq, beq_iff_eq]
  rw [hc]
  split_ifs with hi
  · exact List.count_eq_one_of_mem (List.nodup_range n) (List.mem_range.mpr hi)
  · exact List.count_eq_zero_of_not_mem (fun hh => hi (List.mem_range.mp hh))

/-- The messages put in flight by the lookup initiation of rank `k`: one ROUTE request per
input key, and lookup `i` of rank `r` is among them once when `r = k` and `i` is an index
of the input keys, and not otherwise. -/
theorem initial_sends_spec {all_ids : List Int} (h : WellFormed all_ids) (k : Nat)
    (hk : k < all_ids.length) (keys : List Int) (envs : List Envelope)
    (hp : post all_ids.length k (initial_sends all_ids k keys) = some envs) :
    (∀ e ∈ envs, ∃ i, i < keys.length ∧ e.tag = Tag.TAG_LOOKUP_REQ ∧
      e.msg.initiator_id = all_ids.getD k 0 ∧ e.msg.seq = (i : Int) ∧
      e.msg.key = keys.getD i 0) ∧
    (∀ r i, r < all_ids.length →
      envs.countP (carries all_ids r i) = if r = k ∧ i < keys.length then 1 else 0) := by
  obtain ⟨p1, _⟩ := post_some _ _ _ _ hp
  subst p1
  unfold initial_sends
  rw [List.map_map]
  refine ⟨?_, ?_⟩
  · intro e he
    obtain ⟨i, hi, rfl⟩ := List.mem_map.mp he
    exact ⟨i, List.mem_range.mp hi, rfl, rfl, rfl, rfl⟩
  · intro r i hr
    rw [List.countP_map]
    by_cases hrk : r = k
    · subst hrk
      have : (List.range keys.length).countP
          (carries all_ids r i ∘ ((fun o => Envelope.mk r o.dest.toNat o.tag o.msg) ∘
            fun i => Outbound.mk (rank_from_id (build_id_maps all_ids) (all_ids.getD r 0))
              Tag.TAG_LOOKUP_REQ (new_lookup (all_ids.getD r 0) i (keys.getD i 0))))
          = (List.range keys.length).countP (fun j => decide (j = i)) := by
        apply List.countP_congr
        intro j _
        simp only [Function.comp, carries, new_lookup, decide_eq_true_eq]
        constructor
        · intro hh
          have := hh.2.2
          omega
        · intro hh
          subst hh
          simp
      rw [this, countP_range_eq]
      by_cases hi : i < keys.length
      · rw [if_pos hi, if_pos ⟨rfl, hi⟩]
      · rw [if_neg hi, if_neg (fun hh => hi hh.2)]
    · rw [if_neg (fun hh => hrk hh.1), List.countP_eq_zero]
      intro j _
      simp only [Function.comp, carries, new_lookup, decide_eq_true_eq]
      intro hh
      exact hrk (rank_eq_of_id_eq h hr hk hh.2.1.symm)

/-- The messages in flight after the lookup initiation of the ranks `k, k + 1, ...` with
inputs `ls`: every one is the ROUTE request of a lookup of one of these ranks, and each
lookup of each of these ranks is in flight once. -/
theorem initial_net_spec {all_ids : List Int} (h : WellFormed all_ids) :
    ∀ (ls : List (List Int)) (k : Nat) (net : List Envelope),
      k + ls.length ≤ all_ids.length → initial_net all_ids k ls = some net →
      (∀ e ∈ net, ∃ r i, k ≤ r ∧ r < k + ls.length ∧ i < (ls.getD (r - k) []).length ∧
        e.tag = Tag.TAG_LOOKUP_REQ ∧ e.msg.initiator_id = all_ids.getD r 0 ∧
        e.msg.seq = (i : Int) ∧ e.msg.key = (ls.getD (r - k) []).getD i 0) ∧
      (∀ r i, r < all_ids.length →
        net.countP (carries all_ids r i) =
          if k ≤ r ∧ r < k + ls.length ∧ i < (ls.getD (r - k) []).length then 1 else 0) := by
  intro ls
  induction ls with
  | nil =>
    intro k net _ hnet
    rw [initial_net] at hnet
    have := Option.some.inj hnet
    subst this
    refine ⟨fun e he => absurd he (List.not_mem_nil e), ?_⟩
    intro r i _
    rw [List.countP_nil, if_neg]
    intro hh
    simp only [List.length_nil, Nat.add_zero] at hh
    omega
  | cons keys rest ih =>
    intro k net hk hnet
    simp only [List.length_cons] at hk
    rw [initial_net] at hnet
    cases hp : post all_ids.length k (initial_sends all_ids k keys) with
    | none =>
      rw [hp] at hnet
      exact absurd hnet (by simp)
    | some envs =>
      rw [hp] at hnet
      dsimp only at hnet
      cases hrest : initial_net all_ids (k + 1) rest with
      | none =>
        rw [hrest] at hnet
        exact absurd hnet (by simp)
      | some more =>
        rw [hrest] at hnet
        dsimp only at hnet
        have := Option.some.inj hnet
        subst this
        obtain ⟨s1, s2⟩ := initial_sends_spec h k (by omega) keys envs hp
        obtain ⟨t1, t2⟩ := ih (k + 1) more (by omega) hrest
        have hget0 : ∀ r, r = k → (keys :: rest).getD (r - k) [] = keys := by
          intro r hr
          subst hr
          rw [Nat.sub_self]
          rfl
        have hget1 : ∀ r, k + 1 ≤ r → (keys :: rest).getD (r - k) [] = rest.getD (r - (k + 1)) [] := by
          intro r hr
          have : r - k = (r - (k + 1)) + 1 := by omega
          rw [this]
          rfl
        refine ⟨?_, ?_⟩
        · intro e he
          rcases List.mem_append.mp he with h1 | h1
          · obtain ⟨i, c1, c2, c3, c4, c5⟩ := s1 e h1
            refine ⟨k, i, le_refl k, by simp only [List.length_cons]; omega, ?_, c2, c3, c4, ?_⟩
            · rw [hget0 k rfl]; exact c1
            · rw [hget0 k rfl]; exact c5
          · obtain ⟨r, i, c0, c1, c2, c3, c4, c5, c6⟩ := t1 e h1
            refine ⟨r, i, by omega, by simp only [List.length_cons]; omega, ?_, c3, c4, c5, ?_⟩
            · rw [hget1 r c0]; exact c2
            · rw [hget1 r c0]; exact c6
        · intro r i hr
          rw [List.countP_append, s2 r i hr, t2 r i hr]
          simp only [List.length_cons]
          rcases Nat.lt_trichotomy r k with hlt | heq | hgt
          · split_ifs <;> omega
          · rw [hget0 r heq]
            split_ifs <;> omega
          · rw [hget1 r hgt]
            split_ifs <;> omega

theorem slot_written_default : slot_written (default : LookupMsg) = false := rfl

/-- The invariant holds in the initial global state. -/
theorem inv_init {all_ids : List Int} {lookups : List (List Int)} {g : Global}
    (h : WellFormed all_ids) (hlen : lookups.length = all_ids.length)
    (hinit : init_global all_ids lookups = some g) : GlobalInv all_ids lookups g := by
  unfold init_global at hinit
  cases hnet : initial_net all_ids 0 lookups with
  | none =>
    rw [hnet] at hinit
    exact absurd hinit (by simp)
  | some net =>
    rw [hnet] at hinit
    dsimp only at hinit
    have := Option.some.inj hinit
    subst this
    obtain ⟨t1, t2⟩ := initial_net_spec h lookups 0 net (by omega) hnet
    refine ⟨by simp only [List.length_map]; exact hlen, ?_, ?_⟩
    · intro r st hst
      simp only [List.getElem?_map] at hst
      cases hk : lookups[r]? with
      | none =>
        rw [hk] at hst
        exact absurd hst (by simp)
      | some keys =>
        rw [hk] at hst
        have hst2 := Option.some.inj hst
        subst hst2
        have hgetD : lookups.getD r [] = keys := by
          rw [List.getD_eq_getElem?_getD, hk]
          rfl
        have hr : r < all_ids.length := by
          rw [← hlen]
          by_contra hcon
          rw [List.getElem?_eq_none (by omega)] at hk
          exact absurd hk (by simp)
        rw [hgetD]
        have hmem : ∀ m ∈ List.replicate keys.length (default : LookupMsg),
            slot_written m = false := by
          intro m hm
          rw [List.eq_of_mem_replicate hm]
          rfl
        refine ⟨by simp [service_init], ?_, ?_, ?_, ?_, ?_⟩
        · show 0 = List.countP slot_written (List.replicate keys.length default)
          symm
          rw [List.countP_eq_zero]
          intro m hm
          rw [hmem m hm]
          simp
        · intro hd
          exact absurd hd (by simp [service_init])
        · intro hd
          exact absurd hd (by simp [service_init])
        · intro i m hm hw
          have hm2 : m ∈ List.replicate keys.length (default : LookupMsg) :=
            List.getElem?_mem hm
          rw [hmem m hm2] at hw
          exact absurd hw (by simp)
        · intro i m hm
          have hm2 : m ∈ List.replicate keys.length (default : LookupMsg) :=
            List.getElem?_mem hm
          have hi : i < keys.length := by
            by_contra hcon
            have : (service_init (List.replicate keys.length default)).messages[i]? = none := by
              apply List.getElem?_eq_none
              simp only [service_init, List.length_replicate]
              omega
            rw [this] at hm
            exact absurd hm (by simp)
          show net.countP (carries all_ids r i) + _ = 1
          rw [t2 r i hr, hmem m hm2]
          have hcond : 0 ≤ r ∧ r < 0 + lookups.length ∧
              i < (lookups.getD (r - 0) []).length := by
            refine ⟨Nat.zero_le r, by omega, ?_⟩
            rw [Nat.sub_zero, hgetD]
            exact hi
          rw [if_pos hcond]
          simp
    · intro e he hne
      obtain ⟨r, i, _, c1, c2, c3, c4, c5, c6⟩ := t1 e he
      rw [Nat.sub_zero] at c2 c6
      refine ⟨r, i, by omega, c2, c4, c5, c6, ?_⟩
      intro hrep
      rw [c3] at hrep
      exact Tag.noConfusion hrep

/-- The invariant holds in every reachable global state. -/
theorem inv_reachable {all_ids : List Int} {lookups : List (List Int)} {g : Global}
    (h : WellFormed all_ids) (hlen : lookups.length = all_ids.length)
    (hg : Reachable all_ids lookups g) : GlobalInv all_ids lookups g := by
  induction hg with
  | init g hinit => exact inv_init h hlen hinit
  | step g g1 r s _ hstep ih => exact inv_step h ih hstep

/-! ## Progress and termination of the run -/

/-- One iteration of the service loop in full: the message of `handle_lookup_request` when
a ROUTE request was received, followed by the DONE broadcast when `is_done` gets set; the
counter of received DONE messages, the flag `is_done` and the exit test. -/
theorem service_step_full (world_rank world_size : Nat) (id_to_rank : List Int)
    (self : NodeState) (nr_lookups : Nat) (st st1 : ServiceState) (tag : Tag)
    (msg : LookupMsg) (outs : List Outbound)
    (e : service_step world_rank world_size id_to_rank self nr_lookups st tag msg
      = some (st1, outs)) :
    ∃ sent1,
      (if tag = Tag.TAG_LOOKUP_REQ then
        (handle_lookup_request id_to_rank self msg).map (fun o => [o]) else some [])
        = some sent1 ∧
      outs = sent1 ++ (if (!st.is_done && st1.is_done) = true
        then done_broadcast world_rank world_size else []) ∧
      st1.done_received = (if tag = Tag.TAG_DONE then st.done_received + 1
        else st.done_received) ∧
      (st.is_done = true → st1.is_done = true) ∧
      st1.exited = (st1.is_done && decide ((st1.done_received : Int) = (world_size : Int) - 1)) := by
  unfold service_step at e
  cases hreq : (if tag = Tag.TAG_LOOKUP_REQ then
      (handle_lookup_request id_to_rank self msg).map (fun o => [o]) else some []) with
  | none =>
    rw [hreq] at e
    exact absurd e (by simp)
  | some sent1 =>
    rw [hreq] at e
    dsimp only at e
    cases hsto : (if tag = Tag.TAG_LOOKUP_REP then store_reply st.messages msg
        else some st.messages) with
    | none =>
      rw [hsto] at e
      exact absurd e (by simp)
    | some ms =>
      rw [hsto] at e
      dsimp only at e
      have e1 := (Prod.mk.inj (Option.some.inj e)).1
      have e2 := (Prod.mk.inj (Option.some.inj e)).2
      subst e1
      subst e2
      refine ⟨sent1, rfl, ?_, rfl, ?_, rfl⟩
      · dsimp only
        cases hd : st.is_done <;> simp
      · intro hd
        dsimp only
        rw [hd]
        rfl

/-- Messages addressed to ranks of the communicator can be put in flight. -/
theorem post_total (world_size src : Nat) (outs : List Outbound)
    (h : ∀ o ∈ outs, 0 ≤ o.dest ∧ o.dest < (world_size : Int)) :
    ∃ envs, post world_size src outs = some envs := by
  induction outs with
  | nil => exact ⟨[], rfl⟩
  | cons o rest ih =>
    obtain ⟨envs, he⟩ := ih (fun o2 ho2 => h o2 (List.mem_cons_of_mem _ ho2))
    refine ⟨Envelope.mk src o.dest.toNat o.tag o.msg :: envs, ?_⟩
    rw [post, if_pos (h o (List.mem_cons_self _ _)), he]

theorem sum_weight_erase (l : List Envelope) (e : Envelope) (he : e ∈ l) :
    (l.map weight).sum = weight e + ((l.erase e).map weight).sum := by
  have hp := (List.perm_cons_erase he).map weight
  rw [hp.sum_eq, List.map_cons, List.sum_cons]

/-- Replacing the state of one rank changes a count of states by that rank alone. -/
theorem countP_set_state (p : ServiceState → Bool) (l : List ServiceState) (r : Nat)
    (st st1 : ServiceState) (h : l[r]? = some st) :
    (l.set r st1).countP p + (if p st = true then 1 else 0) =
      l.countP p + (if p st1 = true then 1 else 0) := by
  induction l generalizing r with
  | nil => exact absurd h (by simp)
  | cons a rest ih =>
    cases r with
    | zero =>
      simp only [List.getElem?_cons_zero, Option.some.injEq] at h
      subst h
      rw [List.set_cons_zero, List.countP_cons, List.countP_cons]
      omega
    | succ r =>
      simp only [List.getElem?_cons_succ] at h
      have := ih r h
      rw [List.set_cons_succ, List.countP_cons, List.countP_cons]
      omega

theorem sum_weight_done (src : Nat) (D : List Outbound) (hD : ∀ o ∈ D, o.tag = Tag.TAG_DONE) :
    ((D.map (fun o => Envelope.mk src o.dest.toNat o.tag o.msg)).map weight).sum = D.length := by
  induction D with
  | nil => rfl
  | cons o rest ih =>
    rw [List.map_cons, List.map_cons, List.sum_cons, List.length_cons,
      ih (fun o2 ho2 => hD o2 (List.mem_cons_of_mem _ ho2))]
    have : weight (Envelope.mk src o.dest.toNat o.tag o.msg) = 1 := by
      unfold weight
      simp only [hD o (List.mem_cons_self _ _)]
    omega

theorem done_broadcast_tag (world_rank world_size : Nat) :
    ∀ o ∈ done_broadcast world_rank world_size, o.tag = Tag.TAG_DONE := by
  intro o ho
  unfold done_broadcast at ho
  obtain ⟨i, _, rfl⟩ := List.mem_map.mp ho
  rfl

theorem done_broadcast_length_le (world_rank world_size : Nat) :
    (done_broadcast world_rank world_size).length ≤ world_size := by
  unfold done_broadcast
  rw [List.length_map]
  exact le_trans (List.length_filter_le _ _) (by rw [List.length_range])

/-- Every step of the global model decreases `run_measure`: no run is longer than the
measure of its first state. -/
theorem measure_step (all_ids : List Int) (lookups : List (List Int)) (g g1 : Global)
    (r s : Nat) (hstep : global_step all_ids lookups g r s = some g1) :
    run_measure all_ids g1 < run_measure all_ids g := by
  obtain ⟨st, e, st1, outs, hst, _, _, hemem, _, hserv, _, hg1⟩ :=
    global_step_some all_ids lookups g g1 r s hstep
  obtain ⟨sent1, hsent, houts, _, hmono, _⟩ := service_step_full _ _ _ _ _ _ _ _ _ _ hserv
  subst hg1
  have hW1 : ((sent1.map (fun o => Envelope.mk r o.dest.toNat o.tag o.msg)).map weight).sum
      < weight e := by
    by_cases htag : e.tag = Tag.TAG_LOOKUP_REQ
    · rw [if_pos htag] at hsent
      cases hh : handle_lookup_request (build_id_maps all_ids)
          (node_state all_ids (all_ids.getD r 0)) e.msg with
      | none =>
        rw [hh] at hsent
        exact absurd hsent (by simp)
      | some o =>
        rw [hh] at hsent
        have := Option.some.inj hsent
        subst this
        have hw : weight e = (MAX_PATH - e.msg.path_len) + 3 := by
          unfold weight
          simp only [htag]
        rw [hw]
        simp only [List.map_cons, List.map_nil, List.sum_cons, List.sum_nil, Nat.add_zero]
        unfold weight
        rcases (handle_lookup_request_some _ _ _ _ hh).2 with ⟨t, _, _⟩ | ⟨t, hp, hb⟩
        · simp only [t]
          omega
        · simp only [t, hp]
          omega
    · rw [if_neg htag] at hsent
      have := Option.some.inj hsent
      subst this
      simp only [List.map_nil, List.sum_nil]
      unfold weight
      cases ht : e.tag with
      | TAG_LOOKUP_REQ => exact absurd ht htag
      | TAG_LOOKUP_REP => simp
      | TAG_DONE => simp
  have hc := countP_set_state (fun p => !p.is_done) g.procs r st st1 hst
  have hsum := sum_weight_erase g.net e hemem
  unfold run_measure
  dsimp only
  rw [List.map_append, List.sum_append, houts, List.map_append, List.map_append,
    List.sum_append, hsum]
  dsimp only at hc
  cases hd : st.is_done with
  | true =>
    have hd1 := hmono hd
    rw [hd, hd1] at hc
    simp only [Bool.not_true, Bool.false_eq_true, if_false, Nat.add_zero] at hc
    rw [hc]
    simp only [Bool.not_true, Bool.false_and, Bool.false_eq_true, if_false, List.map_nil,
      List.sum_nil]
    omega
  | false =>
    cases hd1 : st1.is_done with
    | false =>
      rw [hd, hd1] at hc
      have hc2 : List.countP (fun p => !p.is_done) (g.procs.set r st1) =
          List.countP (fun p => !p.is_done) g.procs := by
        simp only [Bool.not_false, if_true] at hc
        omega
      rw [hc2]
      simp only [Bool.not_false, Bool.true_and, Bool.false_eq_true, if_false, List.map_nil,
        List.sum_nil]
      omega
    | true =>
      rw [hd, hd1] at hc
      have hc2 : List.countP (fun p => !p.is_done) g.procs =
          List.countP (fun p => !p.is_done) (g.procs.set r st1) + 1 := by
        simp only [Bool.not_false, if_true, Bool.not_true, Bool.false_eq_true, if_false] at hc
        omega
      rw [hc2, Nat.mul_succ]
      simp only [Bool.not_false, Bool.true_and, if_true]
      rw [sum_weight_done r _ (done_broadcast_tag r all_ids.length)]
      have := done_broadcast_length_le r all_ids.length
      omega

/-- The DONE broadcast of rank `r` puts exactly one DONE in flight to every other rank and
none to `r`. -/
theorem countP_done_to_broadcast (r r2 n : Nat) :
    ((done_broadcast r n).map
      (fun o => Envelope.mk r o.dest.toNat o.tag o.msg)).countP (done_to r2)
      = if r2 ≠ r ∧ r2 < n then 1 else 0 := by
  unfold done_broadcast
  rw [List.map_map, List.countP_map, List.countP_filter]
  by_cases hrr : r2 = r
  · rw [if_neg (fun hh => hh.1 hrr), List.countP_eq_zero]
    intro i _
    simp only [Function.comp, done_to, Int.toNat_ofNat, decide_eq_true_eq, Bool.and_eq_true,
      not_and, ne_eq, Decidable.not_not]
    intro hh
    rw [hrr] at hh
    exact hh.2.symm
  · have : (List.range n).countP (fun a =>
        (done_to r2 ∘ (fun o => Envelope.mk r o.dest.toNat o.tag o.msg) ∘
          fun (i : Nat) => Outbound.mk (i : Int) Tag.TAG_DONE default) a &&
          decide (r ≠ a)) = (List.range n).countP (fun j => decide (j = r2)) := by
      apply List.countP_congr
      intro i _
      simp only [Function.comp, done_to, Int.toNat_ofNat, decide_eq_true_eq, Bool.and_eq_true,
        ne_eq, true_and]
      constructor
      · intro hh
        exact hh.1
      · intro hh
        refine ⟨hh, ?_⟩
        rw [hh]
        exact fun hc => hrr hc.symm
    rw [this, countP_range_eq]
    by_cases hn : r2 < n
    · rw [if_pos hn, if_pos ⟨hrr, hn⟩]
    · rw [if_neg hn, if_neg (fun hh => hn hh.2)]

/-- Messages that are not DONE messages count for no rank's DONE messages. -/
theorem countP_done_to_other (r r2 : Nat) (l : List Outbound)
    (hl : ∀ o ∈ l, o.tag ≠ Tag.TAG_DONE) :
    (l.map (fun o => Envelope.mk r o.dest.toNat o.tag o.msg)).countP (done_to r2) = 0 := by
  rw [List.countP_eq_zero]
  intro e he
  obtain ⟨o, ho, rfl⟩ := List.mem_map.mp he
  unfold done_to
  simp [hl o ho]

/-- The call of `handle_lookup_request` at rank `r` on a ROUTE request of a run: it sends
one message, to a rank, and a forwarded request keeps room in its path for the hops still
to come. -/
theorem handle_in_run {all_ids : List Int} (h : WellFormed all_ids) {r : Nat}
    (hr : r < all_ids.length) (msg : LookupMsg) (hlen : msg.path.length = MAX_PATH)
    (hk0 : 0 ≤ msg.key) (hk1 : msg.key < 16)
    (hp : msg.path_len + dist msg.key (all_ids.getD r 0) + 2 ≤ MAX_PATH)
    {r0 : Nat} (hr0 : r0 < all_ids.length) (hinit : msg.initiator_id = all_ids.getD r0 0) :
    ∃ o, handle_lookup_request (build_id_maps all_ids)
        (node_state all_ids (all_ids.getD r 0)) msg = some o ∧
      0 ≤ o.dest ∧ o.dest < (all_ids.length : Int) ∧ o.tag ≠ Tag.TAG_DONE ∧
      (o.tag = Tag.TAG_LOOKUP_REQ →
        o.msg.path.length = MAX_PATH ∧ 0 ≤ o.msg.key ∧ o.msg.key < 16 ∧
        o.msg.path_len + dist o.msg.key (all_ids.getD o.dest.toNat 0) + 2 ≤ MAX_PATH) := by
  have hs : all_ids.getD r 0 ∈ all_ids := by
    rw [List.getD_eq_getElem all_ids 0 hr]
    exact List.getElem_mem hr
  cases hin : in_interval msg.key (all_ids.getD r 0)
      (build_global_ring all_ids (all_ids.getD r 0)).1 with
  | true =>
    obtain ⟨out, e, o1, o2, _⟩ :=
      handle_lookup_request_reply (build_id_maps all_ids)
        (node_state all_ids (all_ids.getD r 0)) msg hlen (by omega)
        (by rw [node_state_id, node_state_successor]; exact hin)
    rw [hinit, List.getD_eq_getElem all_ids 0 hr0, rank_from_id_of_rank h hr0] at o2
    refine ⟨out, e, by rw [o2]; omega, by rw [o2]; omega, by rw [o1]; decide, ?_⟩
    intro hh
    rw [o1] at hh
    exact Tag.noConfusion hh
  | false =>
    obtain ⟨out, e, o1, o2, _, _, o5, o6, o7, _⟩ :=
      handle_lookup_request_forward (build_id_maps all_ids)
        (node_state all_ids (all_ids.getD r 0)) msg hlen (by omega)
        (by rw [node_state_id, node_state_successor]; exact hin)
    obtain ⟨hmem, hprog⟩ := forward_progress h hs hk0 hk1 hin
    obtain ⟨t, ht, hte⟩ := List.getElem_of_mem hmem
    rw [← hte, rank_from_id_of_rank h ht] at o2
    refine ⟨out, e, by rw [o2]; omega, by rw [o2]; omega, by rw [o1]; decide, ?_⟩
    intro _
    refine ⟨o6, by rw [o5]; exact hk0, by rw [o5]; exact hk1, ?_⟩
    have hd : all_ids.getD out.dest.toNat 0 =
        closest_preceding_finger (node_state all_ids (all_ids.getD r 0)) msg.key := by
      rw [o2, Int.toNat_ofNat, List.getD_eq_getElem all_ids 0 ht, hte]
    rw [hd, o5, o7]
    omega

/-- An iteration of the service loop succeeds when the call of `handle_lookup_request` and
the store of the REPLY do. -/
theorem service_step_some (world_rank world_size : Nat) (id_to_rank : List Int)
    (self : NodeState) (nr_lookups : Nat) (st : ServiceState) (tag : Tag) (msg : LookupMsg)
    (sent1 : List Outbound) (ms : List LookupMsg)
    (hreq : (if tag = Tag.TAG_LOOKUP_REQ then
        (handle_lookup_request id_to_rank self msg).map (fun o => [o]) else some [])
        = some sent1)
    (hsto : (if tag = Tag.TAG_LOOKUP_REP then store_reply st.messages msg
        else some st.messages) = some ms) :
    ∃ st1 D, service_step world_rank world_size id_to_rank self nr_lookups st tag msg
        = some (st1, sent1 ++ D) ∧
      (D = done_broadcast world_rank world_size ∨ D = []) := by
  unfold service_step
  rw [hreq]
  dsimp only
  rw [hsto]
  dsimp only
  refine ⟨_, _, rfl, ?_⟩
  split_ifs <;> first | exact Or.inl rfl | exact Or.inr rfl

/-- The second invariant is kept by every step of the global model. -/
theorem routing_inv_step {all_ids : List Int} {lookups : List (List Int)} {g g1 : Global}
    (h : WellFormed all_ids) (hinv : GlobalInv all_ids lookups g)
    (hrinv : RoutingInv all_ids g) {r s : Nat}
    (hstep : global_step all_ids lookups g r s = some g1) : RoutingInv all_ids g1 := by
  obtain ⟨st, e, st1, outs, hst, _, _, hemem, hdest, hserv, hdests, hg1⟩ :=
    global_step_some all_ids lookups g g1 r s hstep
  obtain ⟨sent1, hsent, houts, hdr, hmono, hexit⟩ :=
    service_step_full _ _ _ _ _ _ _ _ _ _ hserv
  subst hg1
  obtain ⟨i1, i2, i3⟩ := hinv
  obtain ⟨q1, q2, q3⟩ := hrinv
  have hr : r < all_ids.length := by rw [← hdest]; exact q1 e hemem
  have hrp : r < g.procs.length := by rw [i1]; exact hr
  have hsent1 : ∀ o ∈ sent1, o.tag ≠ Tag.TAG_DONE ∧
      (o.tag = Tag.TAG_LOOKUP_REQ →
        o.msg.path.length = MAX_PATH ∧ 0 ≤ o.msg.key ∧ o.msg.key < 16 ∧
        o.msg.path_len + dist o.msg.key (all_ids.getD o.dest.toNat 0) + 2 ≤ MAX_PATH) := by
    intro o ho
    by_cases htag : e.tag = Tag.TAG_LOOKUP_REQ
    · rw [if_pos htag] at hsent
      obtain ⟨p1, p2, p3, p4⟩ := q2 e hemem htag
      obtain ⟨r0, i0, b1, _, b3, _⟩ := i3 e hemem (by rw [htag]; decide)
      rw [hdest] at p4
      obtain ⟨o2, e2, _, _, c3, c4⟩ := handle_in_run h hr e.msg p1 p2 p3 p4 b1 b3
      rw [e2] at hsent
      have := Option.some.inj hsent
      subst this
      rw [List.mem_singleton] at ho
      subst ho
      exact ⟨c3, c4⟩
    · rw [if_neg htag] at hsent
      have := Option.some.inj hsent
      subst this
      exact absurd ho (List.not_mem_nil o)
  refine ⟨?_, ?_, ?_⟩
  · intro e2 he2
    rcases List.mem_append.mp he2 with h1 | h1
    · exact q1 e2 (List.mem_of_mem_erase h1)
    · obtain ⟨o, ho, rfl⟩ := List.mem_map.mp h1
      have := hdests o ho
      show o.dest.toNat < all_ids.length
      omega
  · intro e2 he2 htag2
    rcases List.mem_append.mp he2 with h1 | h1
    · exact q2 e2 (List.mem_of_mem_erase h1) htag2
    · obtain ⟨o, ho, rfl⟩ := List.mem_map.mp h1
      rw [houts] at ho
      rcases List.mem_append.mp ho with h2 | h2
      · exact (hsent1 o h2).2 htag2
      · exfalso
        have hd : o.tag = Tag.TAG_DONE := by
          split_ifs at h2 with hf
          · exact done_broadcast_tag _ _ o h2
          · exact absurd h2 (List.not_mem_nil o)
        have htag3 : o.tag = Tag.TAG_LOOKUP_REQ := htag2
        rw [hd] at htag3
        exact Tag.noConfusion htag3
  · intro r2 st2 hst2
    have hcp := countP_set_state (fun p => p.is_done) g.procs r st st1 hst
    have hce := countP_erase_mem (done_to r2) g.net e hemem
    have hnet : (g.net.erase e ++
          outs.map (fun o => Envelope.mk r o.dest.toNat o.tag o.msg)).countP (done_to r2)
        = (g.net.erase e).countP (done_to r2) +
          (if (!st.is_done && st1.is_done) = true ∧ r2 ≠ r ∧ r2 < all_ids.length
            then 1 else 0) := by
      rw [List.countP_append, houts, List.map_append, List.countP_append,
        countP_done_to_other r r2 sent1 (fun o ho => (hsent1 o ho).1)]
      by_cases hf : (!st.is_done && st1.is_done) = true
      · rw [if_pos hf, countP_done_to_broadcast]
        by_cases hc : r2 ≠ r ∧ r2 < all_ids.length
        · rw [if_pos hc, if_pos ⟨hf, hc⟩]
        · rw [if_neg hc, if_neg (fun hh => hc hh.2)]
      · rw [if_neg hf, if_neg (fun hh => hf hh.1)]
        rfl
    show _ + List.countP (done_to r2) (g.net.erase e ++
      outs.map (fun o => Envelope.mk r o.dest.toNat o.tag o.msg)) + _ =
      List.countP (fun p => p.is_done) (g.procs.set r st1) ∧ _
    rw [hnet]
    simp only [List.getElem?_set] at hst2
    by_cases hrr : r = r2
    · subst hrr
      rw [if_pos rfl, if_pos hrp] at hst2
      have := Option.some.inj hst2
      subst this
      obtain ⟨d1, _⟩ := q3 r st hst
      have hde : (if done_to r e = true then 1 else 0) =
          (if e.tag = Tag.TAG_DONE then 1 else 0) := by
        unfold done_to
        simp only [hdest, and_true, decide_eq_true_eq]
      rw [hde] at hce
      refine ⟨?_, ?_⟩
      · rw [if_neg (fun hh => hh.2.1 rfl), hdr]
        dsimp only at hcp
        split_ifs at hcp hce d1 ⊢ <;> omega
      · intro hx
        rw [hexit, Bool.and_eq_true, decide_eq_true_eq] at hx
        omega
    · rw [if_neg hrr] at hst2
      obtain ⟨d1, d2⟩ := q3 r2 st2 hst2
      have hr2 : r2 < all_ids.length := by
        rw [← i1]
        by_contra hcon
        rw [List.getElem?_eq_none (by omega)] at hst2
        exact absurd hst2 (by simp)
      have hde : (if done_to r2 e = true then 1 else 0) = 0 := by
        unfold done_to
        rw [if_neg]
        simp only [decide_eq_true_eq, not_and]
        intro _ hh
        rw [hdest] at hh
        exact hrr hh
      rw [hde] at hce
      refine ⟨?_, d2⟩
      dsimp only at hcp
      cases hd : st.is_done with
      | true =>
        have hd1 := hmono hd
        rw [hd, hd1] at hcp
        simp only [Bool.not_true, Bool.false_and, Bool.false_eq_true, false_and, if_false]
        omega
      | false =>
        cases hd1 : st1.is_done with
        | false =>
          rw [hd, hd1] at hcp
          simp only [Bool.not_false, Bool.true_and, Bool.false_eq_true, false_and, if_false]
          simp only [Bool.false_eq_true, if_false] at hcp
          omega
        | true =>
          rw [hd, hd1] at hcp
          simp only [Bool.not_false, Bool.true_and, true_and]
          rw [if_pos ⟨fun hh => hrr hh.symm, hr2⟩]
          simp only [Bool.false_eq_true, if_false, if_true] at hcp
          omega

/-- The lookup initiation succeeds: every process sends its requests to its own rank. -/
theorem initial_net_some {all_ids : List Int} (h : WellFormed all_ids) :
    ∀ (ls : List (List Int)) (k : Nat), k + ls.length ≤ all_ids.length →
      ∃ net, initial_net all_ids k ls = some net := by
  intro ls
  induction ls with
  | nil => exact fun k _ => ⟨[], rfl⟩
  | cons keys rest ih =>
    intro k hk
    simp only [List.length_cons] at hk
    have hk2 : k < all_ids.length := by omega
    obtain ⟨envs, he⟩ := post_total all_ids.length k (initial_sends all_ids k keys) (by
      intro o ho
      unfold initial_sends at ho
      obtain ⟨i, _, rfl⟩ := List.mem_map.mp ho
      show 0 ≤ rank_from_id (build_id_maps all_ids) (all_ids.getD k 0) ∧
        rank_from_id (build_id_maps all_ids) (all_ids.getD k 0) < (all_ids.length : Int)
      rw [List.getD_eq_getElem all_ids 0 hk2, rank_from_id_of_rank h hk2]
      omega)
    obtain ⟨more, hm⟩ := ih (k + 1) (by omega)
    exact ⟨envs ++ more, by rw [initial_net, he, hm]⟩

/-- The initial global state exists for every well-formed ring with one input per rank. -/
theorem init_global_some {all_ids : List Int} {lookups : List (List Int)}
    (h : WellFormed all_ids) (hlen : lookups.length = all_ids.length) :
    ∃ g0, init_global all_ids lookups = some g0 := by
  obtain ⟨net, hn⟩ := initial_net_some h lookups 0 (by omega)
  exact ⟨_, by rw [init_global, hn]⟩

/-- The messages in flight after the lookup initiation: ROUTE requests to ranks, with an
empty path in a full-size buffer and an input key. -/
theorem initial_net_routing {all_ids : List Int} :
    ∀ (ls : List (List Int)) (k : Nat) (net : List Envelope),
      (∀ keys ∈ ls, ∀ x ∈ keys, 0 ≤ x ∧ x < 16) →
      initial_net all_ids k ls = some net →
      ∀ e ∈ net, e.tag = Tag.TAG_LOOKUP_REQ ∧ e.dest < all_ids.length ∧
        e.msg.path.length = MAX_PATH ∧ 0 ≤ e.msg.key ∧ e.msg.key < 16 ∧
        e.msg.path_len = 0 := by
  intro ls
  induction ls with
  | nil =>
    intro k net _ hnet e he
    rw [initial_net] at hnet
    have := Option.some.inj hnet
    subst this
    exact absurd he (List.not_mem_nil e)
  | cons keys rest ih =>
    intro k net hkeys hnet e he
    rw [initial_net] at hnet
    cases hp : post all_ids.length k (initial_sends all_ids k keys) with
    | none =>
      rw [hp] at hnet
      exact absurd hnet (by simp)
    | some envs =>
      rw [hp] at hnet
      dsimp only at hnet
      cases hrest : initial_net all_ids (k + 1) rest with
      | none =>
        rw [hrest] at hnet
        exact absurd hnet (by simp)
      | some more =>
        rw [hrest] at hnet
        dsimp only at hnet
        have := Option.some.inj hnet
        subst this
        rcases List.mem_append.mp he with h1 | h1
        · obtain ⟨p1, p2⟩ := post_some _ _ _ _ hp
          subst p1
          obtain ⟨o, ho, rfl⟩ := List.mem_map.mp h1
          have hd := p2 o ho
          unfold initial_sends at ho
          obtain ⟨i, hi, rfl⟩ := List.mem_map.mp ho
          have hi2 : i < keys.length := List.mem_range.mp hi
          have hkey := hkeys keys (List.mem_cons_self _ _) (keys.getD i 0) (by
            rw [List.getD_eq_getElem keys 0 hi2]
            exact List.getElem_mem hi2)
          refine ⟨rfl, ?_, ?_, hkey.1, hkey.2, rfl⟩
          · dsimp only at hd ⊢
            omega
          · show (List.replicate MAX_PATH (0 : Int)).length = MAX_PATH
            exact List.length_replicate _ _
        · exact ih (k + 1) more (fun ks hks => hkeys ks (List.mem_cons_of_mem _ hks)) hrest e h1

/-- The second invariant holds in the initial global state when the input keys are in
`[0,16)`. -/
theorem routing_inv_init {all_ids : List Int} {lookups : List (List Int)} {g : Global}
    (hkeys : ∀ keys ∈ lookups, ∀ x ∈ keys, 0 ≤ x ∧ x < 16)
    (hinit : init_global all_ids lookups = some g) : RoutingInv all_ids g := by
  unfold init_global at hinit
  cases hnet : initial_net all_ids 0 lookups with
  | none =>
    rw [hnet] at hinit
    exact absurd hinit (by simp)
  | some net =>
    rw [hnet] at hinit
    dsimp only at hinit
    have := Option.some.inj hinit
    subst this
    have hr := initial_net_routing lookups 0 net hkeys hnet
    refine ⟨fun e he => (hr e he).2.1, ?_, ?_⟩
    · intro e he _
      obtain ⟨_, _, a3, a4, a5, a6⟩ := hr e he
      have := dist_le e.msg.key (all_ids.getD e.dest 0)
      refine ⟨a3, a4, a5, ?_⟩
      rw [a6]
      simp only [MAX_PATH]
      omega
    · intro r st hst
      have hmem : st ∈ lookups.map
          (fun keys => service_init (List.replicate keys.length default)) :=
        List.getElem?_mem hst
      obtain ⟨keys, _, rfl⟩ := List.mem_map.mp hmem
      have hc1 : net.countP (done_to r) = 0 := by
        rw [List.countP_eq_zero]
        intro e he
        unfold done_to
        simp [(hr e he).1]
      have hc2 : (lookups.map
          (fun keys => service_init (List.replicate keys.length default))).countP
            (fun p => p.is_done) = 0 := by
        rw [List.countP_eq_zero]
        intro p hp
        obtain ⟨ks, _, rfl⟩ := List.mem_map.mp hp
        simp [service_init]
      refine ⟨?_, ?_⟩
      · show _ + List.countP (done_to r) net + _ = List.countP (fun p => p.is_done) (lookups.map
          (fun keys => service_init (List.replicate keys.length default)))
        rw [hc1, hc2]
        simp [service_init]
      · intro hx
        exact absurd hx (by simp [service_init])

/-- Both invariants hold in every reachable global state. -/
theorem routing_inv_reachable {all_ids : List Int} {lookups : List (List Int)} {g : Global}
    (h : WellFormed all_ids) (hlen : lookups.length = all_ids.length)
    (hkeys : ∀ keys ∈ lookups, ∀ x ∈ keys, 0 ≤ x ∧ x < 16)
    (hg : Reachable all_ids lookups g) : RoutingInv all_ids g := by
  induction hg with
  | init g hinit => exact routing_inv_init hkeys hinit
  | step g g1 r s hg0 hstep ih => exact routing_inv_step h (inv_reachable h hlen hg0) ih hstep

/-- Progress: in a reachable state a message in flight to a process that is still in its
service loop can be received, and the iteration that handles it succeeds. -/
theorem step_enabled {all_ids : List Int} {lookups : List (List Int)} {g : Global}
    (h : WellFormed all_ids) (hinv : GlobalInv all_ids lookups g)
    (hrinv : RoutingInv all_ids g) {r : Nat} {st : ServiceState}
    (hst : g.procs[r]? = some st) (hex : st.exited = false) {e : Envelope}
    (he : e ∈ g.net) (hdest : e.dest = r) :
    ∃ g1, global_step all_ids lookups g r e.src = some g1 := by
  obtain ⟨i1, i2, i3⟩ := hinv
  obtain ⟨q1, q2, _⟩ := hrinv
  have hr : r < all_ids.length := by rw [← hdest]; exact q1 e he
  cases hfind : g.net.find? (fun e2 => decide (e2.src = e.src ∧ e2.dest = r)) with
  | none =>
    rw [List.find?_eq_none] at hfind
    exact absurd (hfind e he) (by simp [hdest])
  | some e2 =>
    have he2 : e2 ∈ g.net := List.mem_of_find?_eq_some hfind
    have hd2 : e2.dest = r := by
      have := List.find?_some hfind
      simp only [decide_eq_true_eq] at this
      exact this.2
    have hreq : ∃ sent1, (if e2.tag = Tag.TAG_LOOKUP_REQ then
        (handle_lookup_request (build_id_maps all_ids)
          (node_state all_ids (all_ids.getD r 0)) e2.msg).map (fun o => [o]) else some [])
        = some sent1 ∧ ∀ o ∈ sent1, 0 ≤ o.dest ∧ o.dest < (all_ids.length : Int) := by
      by_cases htag : e2.tag = Tag.TAG_LOOKUP_REQ
      · obtain ⟨p1, p2, p3, p4⟩ := q2 e2 he2 htag
        obtain ⟨r0, i0, b1, _, b3, _⟩ := i3 e2 he2 (by rw [htag]; decide)
        rw [hd2] at p4
        obtain ⟨o, eo, c1, c2, _, _⟩ := handle_in_run h hr e2.msg p1 p2 p3 p4 b1 b3
        refine ⟨[o], by rw [if_pos htag, eo]; rfl, ?_⟩
        intro o2 ho2
        rw [List.mem_singleton] at ho2
        subst ho2
        exact ⟨c1, c2⟩
      · exact ⟨[], by rw [if_neg htag], fun o ho => absurd ho (List.not_mem_nil o)⟩
    have hsto : ∃ ms, (if e2.tag = Tag.TAG_LOOKUP_REP then store_reply st.messages e2.msg
        else some st.messages) = some ms := by
      by_cases htag : e2.tag = Tag.TAG_LOOKUP_REP
      · obtain ⟨_, i0, _, f2, f3, _⟩ := reply_facts ⟨i1, i2, i3⟩ hst he2 hd2 htag
        refine ⟨st.messages.set e2.msg.seq.toNat e2.msg, ?_⟩
        rw [if_pos htag]
        unfold store_reply
        rw [if_pos]
        rw [f3]
        omega
      · exact ⟨st.messages, by rw [if_neg htag]⟩
    obtain ⟨sent1, hs1, hs2⟩ := hreq
    obtain ⟨ms, hms⟩ := hsto
    obtain ⟨st1, D, hstep, hD⟩ := service_step_some r all_ids.length (build_id_maps all_ids)
      (node_state all_ids (all_ids.getD r 0)) (lookups.getD r []).length st e2.tag e2.msg
      sent1 ms hs1 hms
    obtain ⟨envs, hpost⟩ := post_total all_ids.length r (sent1 ++ D) (by
      intro o ho
      rcases List.mem_append.mp ho with h1 | h1
      · exact hs2 o h1
      · rcases hD with hD | hD
        · rw [hD] at h1
          unfold done_broadcast at h1
          obtain ⟨i, hi, rfl⟩ := List.mem_map.mp h1
          have := List.mem_range.mp (List.mem_filter.mp hi).1
          show 0 ≤ (i : Int) ∧ (i : Int) < (all_ids.length : Int)
          omega
        · rw [hD] at h1
          exact absurd h1 (List.not_mem_nil o))
    refine ⟨{ procs := g.procs.set r st1, net := g.net.erase e2 ++ envs }, ?_⟩
    unfold global_step
    rw [hst]
    dsimp only
    rw [if_neg (by rw [hex]; decide), hfind]
    dsimp only
    rw [hstep]
    dsimp only
    rw [hpost]

/-- A reachable state in which no step is enabled has every result slot written, by the
REPLY of the lookup of that slot. -/
theorem terminal_written {all_ids : List Int} {lookups : List (List Int)} {g : Global}
    (h : WellFormed all_ids) (hinv : GlobalInv all_ids lookups g)
    (hrinv : RoutingInv all_ids g)
    (hterm : ∀ r s, global_step all_ids lookups g r s = none)
    {r : Nat} {st : ServiceState} (hst : g.procs[r]? = some st) {i : Nat}
    (hi : i < (lookups.getD r []).length) :
    ∃ m, st.messages[i]? = some m ∧ slot_written m = true ∧ m.seq = (i : Int) ∧
      m.key = (lookups.getD r []).getD i 0 ∧ m.initiator_id = all_ids.getD r 0 := by
  have hinv0 := hinv
  have hrinv0 := hrinv
  obtain ⟨i1, i2, i3⟩ := hinv
  obtain ⟨q1, _, q3⟩ := hrinv
  obtain ⟨a1, a2, a3, _, a5, a6⟩ := i2 r st hst
  have hi2 : i < st.messages.length := by rw [a1]; exact hi
  have hget : st.messages[i]? = some st.messages[i] := List.getElem?_eq_getElem hi2
  have hw : slot_written st.messages[i] = true := by
    by_contra hnw
    have hc := a6 i _ hget
    rw [if_neg hnw] at hc
    have hpos : 0 < g.net.countP (carries all_ids r i) := by omega
    obtain ⟨e, he, _⟩ := List.countP_pos_iff.mp hpos
    have hd : e.dest < g.procs.length := by rw [i1]; exact q1 e he
    have hstd : g.procs[e.dest]? = some g.procs[e.dest] := List.getElem?_eq_getElem hd
    cases hx : (g.procs[e.dest]).exited with
    | false =>
      obtain ⟨g1, hg1⟩ := step_enabled h hinv0 hrinv0 hstd hx he rfl
      rw [hterm e.dest e.src] at hg1
      exact absurd hg1 (by simp)
    | true =>
      obtain ⟨d1, d2⟩ := q3 e.dest _ hstd
      obtain ⟨_, _, _, b4, _, _⟩ := i2 e.dest _ hstd
      have hdone := b4 hx
      have hdr := d2 hx
      rw [if_pos hdone] at d1
      have hle := List.countP_le_length (fun p : ServiceState => p.is_done) (l := g.procs)
      have hall : g.procs.countP (fun p => p.is_done) = g.procs.length := by omega
      have hst_done : st.is_done = true :=
        (List.countP_eq_length.mp hall) st (List.getElem?_mem hst)
      have hfull := a3 hst_done
      rw [a2, ← a1] at hfull
      exact hnw ((List.countP_eq_length.mp hfull) _ (List.getElem_mem hi2))
  obtain ⟨b1, b2, b3⟩ := a5 i _ hget hw
  exact ⟨_, hget, hw, b1, b2, b3⟩

/-- A run is a sequence of steps between reachable states. -/
theorem reachable_run_steps {all_ids : List Int} {lookups : List (List Int)} :
    ∀ (sched : List (Nat × Nat)) (g g1 : Global), Reachable all_ids lookups g →
      run_steps all_ids lookups g sched = some g1 → Reachable all_ids lookups g1 := by
  intro sched
  induction sched with
  | nil =>
    intro g g1 hg hrun
    rw [run_steps] at hrun
    have := Option.some.inj hrun
    subst this
    exact hg
  | cons a rest ih =>
    intro g g1 hg hrun
    obtain ⟨r, s⟩ := a
    rw [run_steps] at hrun
    cases hstep : global_step all_ids lookups g r s with
    | none =>
      rw [hstep] at hrun
      exact absurd hrun (by simp)
    | some g2 =>
      rw [hstep] at hrun
      exact ih g2 g1 (Reachable.step g g2 r s hg hstep) hrun

/-- The length of a run is bounded by the measure of its first state. -/
theorem run_steps_length {all_ids : List Int} {lookups : List (List Int)} :
    ∀ (sched : List (Nat × Nat)) (g g1 : Global),
      run_steps all_ids lookups g sched = some g1 →
      sched.length + run_measure all_ids g1 ≤ run_measure all_ids g := by
  intro sched
  induction sched with
  | nil =>
    intro g g1 hrun
    rw [run_steps] at hrun
    have := Option.some.inj hrun
    subst this
    simp
  | cons a rest ih =>
    intro g g1 hrun
    obtain ⟨r, s⟩ := a
    rw [run_steps] at hrun
    cases hstep : global_step all_ids lookups g r s with
    | none =>
      rw [hstep] at hrun
      exact absurd hrun (by simp)
    | some g2 =>
      rw [hstep] at hrun
      have h1 := ih g2 g1 hrun
      have h2 := measure_step all_ids lookups g g2 r s hstep
      rw [List.length_cons]
      omega

/-- From every global state some run leads to a state in which no step is enabled. -/
theorem complete_run_exists (all_ids : List Int) (lookups : List (List Int)) :
    ∀ (n : Nat) (g : Global), run_measure all_ids g ≤ n →
      ∃ sched g1, run_steps all_ids lookups g sched = some g1 ∧
        ∀ r s, global_step all_ids lookups g1 r s = none := by
  intro n
  induction n with
  | zero =>
    intro g hm
    refine ⟨[], g, rfl, ?_⟩
    intro r s
    cases hstep : global_step all_ids lookups g r s with
    | none => rfl
    | some g2 =>
      have := measure_step all_ids lookups g g2 r s hstep
      omega
  | succ n ih =>
    intro g hm
    by_cases hterm : ∀ r s, global_step all_ids lookups g r s = none
    · exact ⟨[], g, rfl, hterm⟩
    · push_neg at hterm
      obtain ⟨r, s, hne⟩ := hterm
      cases hstep : global_step all_ids lookups g r s with
      | none => exact absurd hstep hne
      | some g2 =>
        have := measure_step all_ids lookups g g2 r s hstep
        obtain ⟨sched, g1, hrun, ht⟩ := ih g2 (by omega)
        refine ⟨(r, s) :: sched, g1, ?_, ht⟩
        rw [run_steps, hstep]
        exact hrun

/-- One step and one slot: the step writes the slot exactly when the slot was not written
before it and is written after it; otherwise the slot is unchanged. -/
theorem write_step {all_ids : List Int} {lookups : List (List Int)} {g g1 : Global}
    (hinv : GlobalInv all_ids lookups g) {r s : Nat}
    (hstep : global_step all_ids lookups g r s = some g1) {r0 i : Nat} {st : ServiceState}
    {m : LookupMsg} (hst0 : g.procs[r0]? = some st) (hm : st.messages[i]? = some m) :
    ∃ st1 m1, g1.procs[r0]? = some st1 ∧ st1.messages[i]? = some m1 ∧
      (if writes_slot g r s r0 i = true then 1 else 0) +
        (if slot_written m = true then 1 else 0) = (if slot_written m1 = true then 1 else 0) := by
  obtain ⟨stR, e, stR1, outs, hstR, _, hfind, hemem, hdest, hserv, _, hg1⟩ :=
    global_step_some all_ids lookups g g1 r s hstep
  subst hg1
  obtain ⟨D, _, _, _, hcases⟩ := service_step_cases _ _ _ _ _ _ _ _ _ _ hserv
  have hw : writes_slot g r s r0 i =
      (decide (r = r0) && decide (e.tag = Tag.TAG_LOOKUP_REP ∧ e.msg.seq = (i : Int))) := by
    unfold writes_slot
    rw [hfind]
  have hr : r < g.procs.length := by
    by_contra hcon
    rw [List.getElem?_eq_none (by omega)] at hstR
    exact absurd hstR (by simp)
  by_cases hrr : r = r0
  · subst hrr
    rw [hstR] at hst0
    have := Option.some.inj hst0
    subst this
    have hnew : (g.procs.set r stR1)[r]? = some stR1 := by
      rw [List.getElem?_set, if_pos rfl, if_pos hr]
    by_cases htag : e.tag = Tag.TAG_LOOKUP_REP
    · obtain ⟨_, i0, _, q3, q4, _, q6, _, _, m0, q9, q10⟩ :=
        reply_facts hinv hstR hemem hdest htag
      have hmsgs : stR1.messages = stR.messages.set e.msg.seq.toNat e.msg := by
        rcases hcases with ⟨ht, _⟩ | ⟨_, _, _, hmsgs, _, _⟩ | ⟨ht, _⟩
        · rw [htag] at ht
          exact Tag.noConfusion ht
        · exact hmsgs
        · rw [htag] at ht
          exact Tag.noConfusion ht
      have hseq : e.msg.seq.toNat = i0 := by rw [q4]; rfl
      by_cases hi : i0 = i
      · subst hi
        rw [q9] at hm
        have := Option.some.inj hm
        subst this
        refine ⟨stR1, e.msg, hnew, ?_, ?_⟩
        · rw [hmsgs, hseq, List.getElem?_set, if_pos rfl, if_pos q3]
        · have hwe : slot_written e.msg = true := by
            unfold slot_written
            rw [decide_eq_true_eq]
            exact q6
          rw [hw, q10, hwe]
          simp [htag, q4]
      · refine ⟨stR1, m, hnew, ?_, ?_⟩
        · rw [hmsgs, hseq, List.getElem?_set, if_neg hi]
          exact hm
        · rw [hw]
          have : ¬ (e.msg.seq = (i : Int)) := by
            rw [q4]
            omega
          simp [this]
    · have hmsgs : stR1.messages = stR.messages := by
        rcases hcases with ⟨_, _, _, _, hmsgs, _⟩ | ⟨ht, _⟩ | ⟨_, hmsgs, _, _⟩
        · exact hmsgs
        · exact absurd ht htag
        · exact hmsgs
      refine ⟨stR1, m, hnew, by rw [hmsgs]; exact hm, ?_⟩
      rw [hw]
      simp [htag]
  · refine ⟨st, m, ?_, hm, ?_⟩
    · show (g.procs.set r stR1)[r0]? = some st
      rw [List.getElem?_set, if_neg hrr]
      exact hst0
    · rw [hw]
      simp [hrr]

/-- Along a run the number of writes of a slot is the change of its written flag. -/
theorem write_count_run {all_ids : List Int} {lookups : List (List Int)}
    (h : WellFormed all_ids) :
    ∀ (sched : List (Nat × Nat)) (g g1 : Global), GlobalInv all_ids lookups g →
      run_steps all_ids lookups g sched = some g1 →
      ∀ (r0 i : Nat) (st : ServiceState) (m : LookupMsg), g.procs[r0]? = some st →
        st.messages[i]? = some m →
        ∃ st1 m1, g1.procs[r0]? = some st1 ∧ st1.messages[i]? = some m1 ∧
          write_count all_ids lookups r0 i g sched +
            (if slot_written m = true then 1 else 0) =
              (if slot_written m1 = true then 1 else 0) := by
  intro sched
  induction sched with
  | nil =>
    intro g g1 _ hrun r0 i st m hst hm
    rw [run_steps] at hrun
    have := Option.some.inj hrun
    subst this
    exact ⟨st, m, hst, hm, by rw [write_count]; omega⟩
  | cons a rest ih =>
    intro g g1 hinv hrun r0 i st m hst hm
    obtain ⟨r, s⟩ := a
    rw [run_steps] at hrun
    cases hstep : global_step all_ids lookups g r s with
    | none =>
      rw [hstep] at hrun
      exact absurd hrun (by simp)
    | some g2 =>
      rw [hstep] at hrun
      dsimp only at hrun
      obtain ⟨st2, m2, c1, c2, c3⟩ := write_step hinv hstep hst hm
      obtain ⟨st1, m1, d1, d2, d3⟩ := ih g2 g1 (inv_step h hinv hstep) hrun r0 i st2 m2 c1 c2
      refine ⟨st1, m1, d1, d2, ?_⟩
      rw [write_count, hstep]
      dsimp only
      omega

/-- In the initial global state every result slot exists and is not written. -/
theorem init_slot {all_ids : List Int} {lookups : List (List Int)} {g0 : Global}
    (hinit : init_global all_ids lookups = some g0) {r i : Nat} (hr : r < lookups.length)
    (hi : i < (lookups.getD r []).length) :
    ∃ st m, g0.procs[r]? = some st ∧ st.messages[i]? = some m ∧ slot_written m = false := by
  unfold init_global at hinit
  cases hnet : initial_net all_ids 0 lookups with
  | none =>
    rw [hnet] at hinit
    exact absurd hinit (by simp)
  | some net =>
    rw [hnet] at hinit
    dsimp only at hinit
    have := Option.some.inj hinit
    subst this
    rw [List.getD_eq_getElem lookups [] hr] at hi
    refine ⟨service_init (List.replicate (lookups[r]).length default), default, ?_, ?_, rfl⟩
    · show (lookups.map (fun keys => service_init (List.replicate keys.length default)))[r]? = _
      rw [List.getElem?_map, List.getElem?_eq_getElem hr]
      rfl
    · show (List.replicate (lookups[r]).length (default : LookupMsg))[i]? = some default
      rw [List.getElem?_replicate, if_pos hi]

/-! ## Every result slot is written once -/

/-- Claim C14. In every reachable global state of a run over a well-formed ring (one
input per rank): a process that has left its service loop has every result slot written;
a written slot `i` of rank `r` holds a REPLY with `seq = i`, the `i`-th input key of rank
`r` and the id of rank `r` as initiator; and in every step, a REPLY that is received is
the REPLY of a lookup issued by the receiving rank, it is stored in the slot of its
sequence number, which was not written before, and no written slot of any rank changes.
With input keys in `[0,16)` the writes do happen: the initial state exists; every run
from a reachable state is finite, its length bounded by `run_measure`; some run from it
reaches a state in which no step is enabled; in a reachable state with no step enabled
every slot `i < L` of every rank is written, by the REPLY with `seq = i` and the `i`-th
input key; and in a run from the initial state every slot is written by at most one
step, and by exactly one step once no step is enabled. -/
theorem result_slots_written_once (all_ids : List Int) (lookups : List (List Int))
    (h : WellFormed all_ids) (hlen : lookups.length = all_ids.length) (g : Global)
    (hg : Reachable all_ids lookups g) :
    (∀ r st, g.procs[r]? = some st → st.exited = true →
      ∀ i : Nat, i < (lookups.getD r []).length →
        ∃ m, st.messages[i]? = some m ∧ slot_written m = true ∧ m.seq = (i : Int) ∧
          m.key = (lookups.getD r []).getD i 0 ∧ m.initiator_id = all_ids.getD r 0) ∧
    (∀ r st (i : Nat) m, g.procs[r]? = some st → st.messages[i]? = some m →
      slot_written m = true →
      i < (lookups.getD r []).length ∧ m.seq = (i : Int) ∧
        m.key = (lookups.getD r []).getD i 0 ∧ m.initiator_id = all_ids.getD r 0) ∧
    (∀ r s g1, global_step all_ids lookups g r s = some g1 →
      (∀ e, g.net.find? (fun e => decide (e.src = s ∧ e.dest = r)) = some e →
        e.tag = Tag.TAG_LOOKUP_REP →
        e.msg.initiator_id = all_ids.getD r 0 ∧
        ∃ i : Nat, i < (lookups.getD r []).length ∧ e.msg.seq = (i : Int) ∧
          e.msg.key = (lookups.getD r []).getD i 0 ∧
          (∃ st m0, g.procs[r]? = some st ∧ st.messages[i]? = some m0 ∧
            slot_written m0 = false) ∧
          (∃ st1, g1.procs[r]? = some st1 ∧ st1.messages[i]? = some e.msg ∧
            slot_written e.msg = true)) ∧
      (∀ (r2 : Nat) (st : ServiceState) (i : Nat) (m : LookupMsg),
        g.procs[r2]? = some st → st.messages[i]? = some m → slot_written m = true →
        ∃ st1 : ServiceState, g1.procs[r2]? = some st1 ∧ st1.messages[i]? = some m)) ∧
    ((∀ keys ∈ lookups, ∀ k ∈ keys, 0 ≤ k ∧ k < 16) →
      (∃ g0, init_global all_ids lookups = some g0) ∧
      (∀ sched g1, run_steps all_ids lookups g sched = some g1 →
        sched.length ≤ run_measure all_ids g) ∧
      (∃ sched g1, run_steps all_ids lookups g sched = some g1 ∧
        ∀ r s, global_step all_ids lookups g1 r s = none) ∧
      (∀ (r : Nat) (st : ServiceState) (e : Envelope), g.procs[r]? = some st →
        st.exited = false → e ∈ g.net → e.dest = r →
        ∃ g1, global_step all_ids lookups g r e.src = some g1) ∧
      ((∀ r s, global_step all_ids lookups g r s = none) →
        ∀ r i : Nat, r < all_ids.length → i < (lookups.getD r []).length →
          ∃ st m, g.procs[r]? = some st ∧ st.messages[i]? = some m ∧
            slot_written m = true ∧ m.seq = (i : Int) ∧
            m.key = (lookups.getD r []).getD i 0 ∧ m.initiator_id = all_ids.getD r 0) ∧
      (∀ g0 sched, init_global all_ids lookups = some g0 →
        run_steps all_ids lookups g0 sched = some g →
        ∀ r i : Nat, r < all_ids.length → i < (lookups.getD r []).length →
          write_count all_ids lookups r i g0 sched ≤ 1 ∧
          ((∀ r s, global_step all_ids lookups g r s = none) →
            write_count all_ids lookups r i g0 sched = 1))) := by
  have hinv := inv_reachable h hlen hg
  have hinv0 := hinv
  obtain ⟨i1, i2, i3⟩ := hinv
  refine ⟨?_, ?_, ?_, ?_⟩
  · intro r st hst hex i hi
    obtain ⟨a1, a2, a3, a4, a5, _⟩ := i2 r st hst
    have hall := a3 (a4 hex)
    rw [a2, ← a1] at hall
    have hi2 : i < st.messages.length := by rw [a1]; exact hi
    have hw := (List.countP_eq_length.mp hall) st.messages[i] (List.getElem_mem hi2)
    have hget : st.messages[i]? = some st.messages[i] := List.getElem?_eq_getElem hi2
    obtain ⟨b1, b2, b3⟩ := a5 i _ hget hw
    exact ⟨st.messages[i], hget, hw, b1, b2, b3⟩
  · intro r st i m hst hm hw
    obtain ⟨a1, _, _, _, a5, _⟩ := i2 r st hst
    obtain ⟨b1, b2, b3⟩ := a5 i m hm hw
    refine ⟨?_, b1, b2, b3⟩
    rw [← a1]
    by_contra hcon
    rw [List.getElem?_eq_none (by omega)] at hm
    exact absurd hm (by simp)
  · intro r s g1 hstep
    obtain ⟨st, e, st1, outs, hst, _, hfind, hemem, hdest, hserv, _, hg1⟩ :=
      global_step_some all_ids lookups g g1 r s hstep
    subst hg1
    obtain ⟨D, _, _, _, hcases⟩ := service_step_cases _ _ _ _ _ _ _ _ _ _ hserv
    have hr : r < g.procs.length := by
      by_contra hcon
      rw [List.getElem?_eq_none (by omega)] at hst
      exact absurd hst (by simp)
    have hnew : (g.procs.set r st1)[r]? = some st1 := by
      rw [List.getElem?_set, if_pos rfl, if_pos hr]
    refine ⟨?_, ?_⟩
    · intro e2 hfind2 htag
      rw [hfind] at hfind2
      have := Option.some.inj hfind2
      subst this
      obtain ⟨q1, i0, q2, q3, q4, q5, q6, _, _, m0, q9, q10⟩ :=
        reply_facts ⟨i1, i2, i3⟩ hst hemem hdest htag
      refine ⟨q1, i0, q2, q4, q5, ⟨st, m0, hst, q9, q10⟩, st1, hnew, ?_, ?_⟩
      · rcases hcases with ⟨ht, _⟩ | ⟨_, _, _, hmsgs, _, _⟩ | ⟨ht, _⟩
        · rw [htag] at ht
          exact Tag.noConfusion ht
        · have hseq : e.msg.seq.toNat = i0 := by rw [q4]; rfl
          rw [hmsgs, hseq, List.getElem?_set, if_pos rfl, if_pos q3]
        · rw [htag] at ht
          exact Tag.noConfusion ht
      · unfold slot_written
        rw [decide_eq_true_eq]
        exact q6
    · intro r2 st2 i m hst2 hm hw
      by_cases hrr : r = r2
      · subst hrr
        rw [hst] at hst2
        have := Option.some.inj hst2
        subst this
        refine ⟨st1, hnew, ?_⟩
        rcases hcases with ⟨_, _, _, _, hmsgs, _⟩ | ⟨htag, _, _, hmsgs, _, _⟩ |
          ⟨_, hmsgs, _, _⟩
        · rw [hmsgs]; exact hm
        · obtain ⟨_, i0, _, q3, q4, _, _, _, _, m0, q9, q10⟩ :=
            reply_facts ⟨i1, i2, i3⟩ hst hemem hdest htag
          have hseq : e.msg.seq.toNat = i0 := by rw [q4]; rfl
          rw [hmsgs, hseq, List.getElem?_set]
          by_cases hi : i0 = i
          · subst hi
            rw [q9] at hm
            have := Option.some.inj hm
            subst this
            rw [q10] at hw
            exact absurd hw (by simp)
          · rw [if_neg hi]
            exact hm
        · rw [hmsgs]; exact hm
      · refine ⟨st2, ?_, hm⟩
        show (g.procs.set r st1)[r2]? = some st2
        rw [List.getElem?_set, if_neg hrr]
        exact hst2
  · intro hkeys
    have hrinv := routing_inv_reachable h hlen hkeys hg
    have hterm : (∀ r s, global_step all_ids lookups g r s = none) →
        ∀ r i : Nat, r < all_ids.length → i < (lookups.getD r []).length →
          ∃ st m, g.procs[r]? = some st ∧ st.messages[i]? = some m ∧
            slot_written m = true ∧ m.seq = (i : Int) ∧
            m.key = (lookups.getD r []).getD i 0 ∧ m.initiator_id = all_ids.getD r 0 := by
      intro ht r i hr hi
      have hrp : r < g.procs.length := by rw [i1]; exact hr
      have hst : g.procs[r]? = some g.procs[r] := List.getElem?_eq_getElem hrp
      obtain ⟨m, c1, c2, c3, c4, c5⟩ := terminal_written h hinv0 hrinv ht hst hi
      exact ⟨_, m, hst, c1, c2, c3, c4, c5⟩
    refine ⟨init_global_some h hlen, ?_, ?_, ?_, hterm, ?_⟩
    · intro sched g1 hrun
      have := run_steps_length sched g g1 hrun
      omega
    · exact complete_run_exists all_ids lookups (run_measure all_ids g) g (le_refl _)
    · intro r st e hst hex he hdest
      exact step_enabled h hinv0 hrinv hst hex he hdest
    · intro g0 sched hinit hrun r i hr hi
      obtain ⟨st0, m0, e1, e2, e3⟩ := init_slot hinit (by rw [hlen]; exact hr) hi
      obtain ⟨st1, m1, f1, f2, f3⟩ :=
        write_count_run h sched g0 g (inv_init h hlen hinit) hrun r i st0 m0 e1 e2
      rw [e3] at f3
      refine ⟨?_, ?_⟩
      · split_ifs at f3 <;> omega
      · intro ht
        obtain ⟨st2, m2, g1, g2, g3, _⟩ := hterm ht r i hr hi
        rw [f1] at g1
        have := Option.some.inj g1
        subst this
        rw [f2] at g2
        have := Option.some.inj g2
        subst this
        rw [g3] at f3
        simpa using f3

/-- Witness of `result_slots_written_once`: the run of four processes with ids 1, 4, 9
and 14 in which rank 1 looks up the keys 10 and 4.  After the nineteen steps listed no
step is enabled, every process has left its loop, slot 0 of rank 1 holds the REPLY for
key 10 with path 4, 9, 14 and slot 1 the REPLY for key 4 with path 4, 14, 1, 4, and each
of the two slots was written by exactly one step of the run. -/
theorem result_slots_written_once_witness :
    init_global [1, 4, 9, 14] [[], [10, 4], [], []] =
      some (Global.mk [service_init [], service_init [default, default], service_init [],
          service_init []]
        [Envelope.mk 1 1 Tag.TAG_LOOKUP_REQ (new_lookup 4 0 10),
          Envelope.mk 1 1 Tag.TAG_LOOKUP_REQ (new_lookup 4 1 4)]) ∧
    run_steps [1, 4, 9, 14] [[], [10, 4], [], []]
      (Global.mk [service_init [], service_init [default, default], service_init [],
          service_init []]
        [Envelope.mk 1 1 Tag.TAG_LOOKUP_REQ (new_lookup 4 0 10),
          Envelope.mk 1 1 Tag.TAG_LOOKUP_REQ (new_lookup 4 1 4)])
      [(1, 1), (1, 1), (2, 1), (0, 2), (1, 0), (1, 2), (1, 2), (2, 0), (3, 0), (0, 3), (1, 3),
        (2, 3), (3, 1), (0, 3), (1, 0), (0, 1), (2, 1), (3, 1), (3, 2)] =
      some (Global.mk [ServiceState.mk [] 0 3 true true,
        ServiceState.mk [LookupMsg.mk 4 4 0 10 (4 :: 9 :: 14 :: List.replicate 29 0) 3,
          LookupMsg.mk 4 4 1 4 (4 :: 14 :: 1 :: 4 :: List.replicate 28 0) 4] 2 3 true true,
        ServiceState.mk [] 0 3 true true, ServiceState.mk [] 0 3 true true] []) ∧
    (∀ r s, global_step [1, 4, 9, 14] [[], [10, 4], [], []]
      (Global.mk [ServiceState.mk [] 0 3 true true,
        ServiceState.mk [LookupMsg.mk 4 4 0 10 (4 :: 9 :: 14 :: List.replicate 29 0) 3,
          LookupMsg.mk 4 4 1 4 (4 :: 14 :: 1 :: 4 :: List.replicate 28 0) 4] 2 3 true true,
        ServiceState.mk [] 0 3 true true, ServiceState.mk [] 0 3 true true] []) r s = none) ∧
    write_count [1, 4, 9, 14] [[], [10, 4], [], []] 1 0
      (Global.mk [service_init [], service_init [default, default], service_init [],
          service_init []]
        [Envelope.mk 1 1 Tag.TAG_LOOKUP_REQ (new_lookup 4 0 10),
          Envelope.mk 1 1 Tag.TAG_LOOKUP_REQ (new_lookup 4 1 4)])
      [(1, 1), (1, 1), (2, 1), (0, 2), (1, 0), (1, 2), (1, 2), (2, 0), (3, 0), (0, 3), (1, 3),
        (2, 3), (3, 1), (0, 3), (1, 0), (0, 1), (2, 1), (3, 1), (3, 2)] = 1 ∧
    write_count [1, 4, 9, 14] [[], [10, 4], [], []] 1 1
      (Global.mk [service_init [], service_init [default, default], service_init [],
          service_init []]
        [Envelope.mk 1 1 Tag.TAG_LOOKUP_REQ (new_lookup 4 0 10),
          Envelope.mk 1 1 Tag.TAG_LOOKUP_REQ (new_lookup 4 1 4)])
      [(1, 1), (1, 1), (2, 1), (0, 2), (1, 0), (1, 2), (1, 2), (2, 0), (3, 0), (0, 3), (1, 3),
        (2, 3), (3, 1), (0, 3), (1, 0), (0, 1), (2, 1), (3, 1), (3, 2)] = 1 ∧
    19 ≤ run_measure [1, 4, 9, 14]
      (Global.mk [service_init [], service_init [default, default], service_init [],
          service_init []]
        [Envelope.mk 1 1 Tag.TAG_LOOKUP_REQ (new_lookup 4 0 10),
          Envelope.mk 1 1 Tag.TAG_LOOKUP_REQ (new_lookup 4 1 4)]) := by
  have hterm : ∀ r s, global_step [1, 4, 9, 14] [[], [10, 4], [], []]
      (Global.mk [ServiceState.mk [] 0 3 true true,
        ServiceState.mk [LookupMsg.mk 4 4 0 10 (4 :: 9 :: 14 :: List.replicate 29 0) 3,
          LookupMsg.mk 4 4 1 4 (4 :: 14 :: 1 :: 4 :: List.replicate 28 0) 4] 2 3 true true,
        ServiceState.mk [] 0 3 true true, ServiceState.mk [] 0 3 true true] []) r s = none := by
    intro r s
    unfold global_step
    split
    · rfl
    · split_ifs
      · rfl
      · rfl
  have hinit : init_global [1, 4, 9, 14] [[], [10, 4], [], []] =
      some (Global.mk [service_init [], service_init [default, default], service_init [],
          service_init []]
        [Envelope.mk 1 1 Tag.TAG_LOOKUP_REQ (new_lookup 4 0 10),
          Envelope.mk 1 1 Tag.TAG_LOOKUP_REQ (new_lookup 4 1 4)]) := by decide
  have hrun : run_steps [1, 4, 9, 14] [[], [10, 4], [], []]
      (Global.mk [service_init [], service_init [default, default], service_init [],
          service_init []]
        [Envelope.mk 1 1 Tag.TAG_LOOKUP_REQ (new_lookup 4 0 10),
          Envelope.mk 1 1 Tag.TAG_LOOKUP_REQ (new_lookup 4 1 4)])
      [(1, 1), (1, 1), (2, 1), (0, 2), (1, 0), (1, 2), (1, 2), (2, 0), (3, 0), (0, 3), (1, 3),
        (2, 3), (3, 1), (0, 3), (1, 0), (0, 1), (2, 1), (3, 1), (3, 2)] =
      some (Global.mk [ServiceState.mk [] 0 3 true true,
        ServiceState.mk [LookupMsg.mk 4 4 0 10 (4 :: 9 :: 14 :: List.replicate 29 0) 3,
          LookupMsg.mk 4 4 1 4 (4 :: 14 :: 1 :: 4 :: List.replicate 28 0) 4] 2 3 true true,
        ServiceState.mk [] 0 3 true true, ServiceState.mk [] 0 3 true true] []) := by decide
  have hkeys : ∀ keys ∈ ([[], [10, 4], [], []] : List (List Int)), ∀ k ∈ keys,
      0 ≤ k ∧ k < 16 := by decide
  have hlive := (result_slots_written_once [1, 4, 9, 14] [[], [10, 4], [], []] (by decide) rfl
    _ (reachable_run_steps _ _ _ (Reachable.init _ hinit) hrun)).2.2.2 hkeys
  have hinit0 := (result_slots_written_once [1, 4, 9, 14] [[], [10, 4], [], []] (by decide) rfl
    _ (Reachable.init _ hinit)).2.2.2 hkeys
  exact ⟨hinit, hrun, hterm,
    (hlive.2.2.2.2.2 _ _ hinit hrun 1 0 (by decide) (by decide)).2 hterm,
    (hlive.2.2.2.2.2 _ _ hinit hrun 1 1 (by decide) (by decide)).2 hterm,
    hinit0.2.1 _ _ hrun⟩

end Chord
